import Mathlib

/-!
Verification of the JSON numeric-literal scanner/resolver `parseNumber`
(file `parse_number.go`).

Buffers are lists of byte values (`List Nat`, each element `< 256`).
Machine words are `Nat` (with explicit `% 2 ^ 64` where overflow matters)
and signed integers are `Int`.

The Go standard-library primitives used by the source
(`strconv.ParseInt`, `strconv.ParseUint`, `strconv.ParseFloat`,
`math.Float64bits`) are modelled by executable functions below, following
their documented behaviour for base 10 / bit size 64: `ParseFloat`
returns the nearest IEEE-754 binary64 value under round-to-nearest,
ties-to-even, and reports a range error (nonzero `err`) exactly when the
value overflows to an infinity.
-/

set_option maxRecDepth 100000

/-! ## Byte classifier (source lines 27-60) -/

def isPartOfNumberFlag : Nat := 1

def isFloatOnlyFlag : Nat := 2

def isMinusFlag : Nat := 4

def isEOVFlag : Nat := 8

def isDigitFlag : Nat := 16

def isMustHaveDigitNext : Nat := 32

/-- Embedding of the 256-entry lookup table `isNumberRune`: digits `0`-`9`,
`.`, `+`, `-`, `e`, `E` and the delimiters `,` `}` `]` space tab CR LF `:`
get their flag sets; every other byte value maps to `0`. -/
def isNumberRune (v : Nat) : Nat :=
  if 48 ≤ v ∧ v ≤ 57 then isPartOfNumberFlag ||| isDigitFlag
  else if v = 46 then isPartOfNumberFlag ||| isFloatOnlyFlag ||| isMustHaveDigitNext
  else if v = 43 then isPartOfNumberFlag
  else if v = 45 then isPartOfNumberFlag ||| isMinusFlag ||| isMustHaveDigitNext
  else if v = 101 ∨ v = 69 then isPartOfNumberFlag ||| isFloatOnlyFlag
  else if v = 44 ∨ v = 125 ∨ v = 93 ∨ v = 32 ∨ v = 9 ∨ v = 13 ∨ v = 10 ∨ v = 58 then isEOVFlag
  else 0

/-! ## Token scanner (source lines 66-85)

The `for i, v := range buf` loop of `parseNumber`.  `none` models the two
`return 0, 0` statements inside the loop; `some (pos, found)` models
falling through to the code after the loop.  At every call the
accumulator `pos` equals the number of bytes consumed so far, so the
source's `i+1` is `pos + 1` here. -/

def scanLoop : List Nat → Nat → Nat → Option (Nat × Nat)
  | [], pos, found => some (pos, found)
  | v :: rest, pos, found =>
    let t := isNumberRune v
    if t = 0 then none
    else if t = isEOVFlag then some (pos, found)
    else if t &&& isMustHaveDigitNext ≠ 0 ∧
        (rest = [] ∨ isNumberRune (rest.headD 0) &&& isDigitFlag = 0) then none
    else scanLoop rest (pos + 1) (found ||| t)

/-! ## Result tags

Modelled from the spec: the repository defines the tag enumeration and the
bit layout outside the file under verification.  Per the spec the tag word
carries a small enumeration (`End/Invalid = 0`, `Integer`, `Uint`,
`Float`) left-shifted into a fixed high-bit offset, optionally OR'd with a
low-bit `OverflowedInteger` flag. -/

def TagEnd : Nat := 0

def TagInteger : Nat := 1

def TagUint : Nat := 2

def TagFloat : Nat := 3

def JSONTAGOFFSET : Nat := 56

def FloatOverflowedInteger : Nat := 1

/-! ## Models of the Go standard-library numeric parsers -/

def isDigitByte (b : Nat) : Bool := 48 ≤ b && b ≤ 57

/-- Value of a list of ASCII digit bytes read in base 10 (the accumulator
loop used by Go's `strconv` digit parsing). -/
def digitsVal (ds : List Nat) : Nat := ds.foldl (fun a d => a * 10 + (d - 48)) 0

/-- Outcome of a Go `strconv` integer parse: a value, a range error
(`strconv.ErrRange`), or a syntax error (`strconv.ErrSyntax`). -/
inductive StrconvResult (α : Type) where
  | ok (v : α)
  | rangeErr
  | syntaxErr
deriving DecidableEq, Repr

/-- Model of Go `strconv.ParseInt(s, 10, 64)`: an optional single `+` or
`-` sign followed by at least one ASCII digit; magnitudes beyond the
`int64` range give `ErrRange`, anything else non-conforming gives
`ErrSyntax`. -/
def parseInt64 (s : List Nat) : StrconvResult Int :=
  match s with
  | [] => .syntaxErr
  | c :: rest =>
    let neg := c = 45
    let ds := if c = 43 ∨ c = 45 then rest else s
    if ds = [] ∨ ¬ ds.all isDigitByte then .syntaxErr
    else
      let n := digitsVal ds
      if neg then
        if n ≤ 2 ^ 63 then .ok (-(n : Int)) else .rangeErr
      else
        if n ≤ 2 ^ 63 - 1 then .ok (n : Int) else .rangeErr

/-- Model of Go `strconv.ParseUint(s, 10, 64)`: at least one ASCII digit,
no sign permitted; values beyond `uint64` give `ErrRange`. -/
def parseUint64 (s : List Nat) : StrconvResult Nat :=
  if s = [] ∨ ¬ s.all isDigitByte then .syntaxErr
  else
    let n := digitsVal s
    if n ≤ 2 ^ 64 - 1 then .ok n else .rangeErr

/-- Go's `uint64(i64)` conversion: two's-complement reinterpretation of a
signed 64-bit value. -/
def uint64OfInt (i : Int) : Nat := (i % (2 ^ 64 : Int)).toNat

/-! ## Correctly rounded decimal-to-binary64 conversion

`strconv.ParseFloat` is documented to return the nearest binary64 value
under IEEE-754 unbiased (ties-to-even) rounding, with a range error
exactly when the result overflows to an infinity.  The conversion is
implemented here exactly: the literal's value is kept as an exact
rational `num / den` and rounded. -/

/-- Structural (fuel-driven) binary logarithm, so that it reduces inside
the kernel; `log2fuel f n` equals `Nat.log2 n` whenever `n ≤ f`. -/
def log2fuel : Nat → Nat → Nat
  | 0, _ => 0
  | f + 1, n => if 2 ≤ n then log2fuel f (n / 2) + 1 else 0

def nlog2 (n : Nat) : Nat := log2fuel n n

/-- Whether `num / den ≥ 2 ^ k`, for a possibly negative exponent `k`. -/
def ratGePow2 (num den : Nat) (k : Int) : Bool :=
  if 0 ≤ k then den * 2 ^ k.toNat ≤ num else den ≤ num * 2 ^ (-k).toNat

/-- Floor of the binary logarithm of the positive rational `num / den`. -/
def ratLog2 (num den : Nat) : Int :=
  let c : Int := (nlog2 num : Int) - (nlog2 den : Int)
  if ratGePow2 num den c then c else c - 1

/-- Round the rational `a / b` (with `b ≠ 0`) to the nearest integer,
ties to the even neighbour. -/
def rndHalfEven (a b : Nat) : Nat :=
  let t := a / b
  let r := a % b
  if 2 * r < b then t
  else if b < 2 * r then t + 1
  else if t % 2 = 0 then t else t + 1

/-- Bits (sign bit excluded) of the IEEE-754 binary64 value nearest to
the rational `num / den`, rounding ties to even; `none` when the rounded
value overflows to infinity (magnitude reaching `2 ^ 1024`). -/
def nearestDoubleBits (num den : Nat) : Option Nat :=
  if num = 0 then some 0
  else
    let e1 : Int := ratLog2 num den
    if e1 < -1022 then
      -- subnormal range: unit in the last place is 2 ^ (-1074)
      some (rndHalfEven (num * 2 ^ 1074) den)
    else
      let sh : Int := e1 - 52
      let a := if 0 ≤ sh then num else num * 2 ^ (-sh).toNat
      let b := if 0 ≤ sh then den * 2 ^ sh.toNat else den
      let m := rndHalfEven a b
      if m < 2 ^ 53 then
        if 1023 < e1 then none
        else some ((e1 + 1023).toNat * 2 ^ 52 + (m - 2 ^ 52))
      else
        if 1023 < e1 + 1 then none
        else some ((e1 + 1 + 1023).toNat * 2 ^ 52)

/-- Decimal scaling of a mantissa: the exact rational `m * 10 ^ e` as a
numerator/denominator pair. -/
def scale10 (m : Nat) (e : Int) : Nat × Nat :=
  if 0 ≤ e then (m * 10 ^ e.toNat, 1) else (m, 10 ^ (-e).toNat)

/-- Model of the decimal-literal reader inside Go `strconv.ParseFloat`
(restricted to the byte alphabet the scanner can deliver: digits and
`+ - . e E`): an optional sign, a mantissa containing at least one digit
and at most one `.`, and an optional exponent part `e`/`E`, optional
sign, at least one digit, which must extend to the end of the input.
Returns the sign and the exact rational value `num / den`. -/
def readFloatLit (s : List Nat) : Option (Bool × Nat × Nat) :=
  let neg := s.headD 0 = 45
  let s1 := if s.headD 0 = 43 ∨ s.headD 0 = 45 then s.tail else s
  let ip := s1.takeWhile isDigitByte
  let s2 := s1.dropWhile isDigitByte
  let fp := if s2.headD 0 = 46 then s2.tail.takeWhile isDigitByte else []
  let s3 := if s2.headD 0 = 46 then s2.tail.dropWhile isDigitByte else s2
  if ip.length + fp.length = 0 then none
  else
    let m := digitsVal (ip ++ fp)
    match s3 with
    | [] => some (neg, scale10 m (0 - (fp.length : Int)))
    | c :: s4 =>
      if c = 101 ∨ c = 69 then
        let esign : Int := if s4.headD 0 = 45 then -1 else 1
        let s5 := if s4.headD 0 = 43 ∨ s4.headD 0 = 45 then s4.tail else s4
        if s5 ≠ [] ∧ s5.all isDigitByte then
          some (neg, scale10 m (esign * (digitsVal s5 : Int) - (fp.length : Int)))
        else none
      else none

/-- Model of Go `strconv.ParseFloat(s, 64)` composed with
`math.Float64bits`: `none` when `err != nil` (syntax error, or range
error on overflow to an infinity), otherwise the 64 bits of the nearest
binary64 value. -/
def parseFloat64 (s : List Nat) : Option Nat :=
  match readFloatLit s with
  | none => none
  | some (neg, num, den) =>
    match nearestDoubleBits num den with
    | none => none
    | some mag => some ((if neg then 2 ^ 63 else 0) + mag)

/-! ## The function under verification (source lines 65-135) -/

def maxIntLen : Nat := 20

/-- The float epilogue of the source (lines 126-134): the float-path
leading-zero rejection followed by `ParseFloat`, reached from every
branch with the `floatTag` accumulated so far. -/
def floatPath (buf : List Nat) (pos floatTag : Nat) : Nat × Nat :=
  if 1 < pos ∧ buf.headD 0 = 48 ∧ isNumberRune (buf.getD 1 0) &&& isFloatOnlyFlag = 0 then
    (0, 0)
  else
    match parseFloat64 (buf.take pos) with
    | some bits => (floatTag, bits)
    | none => (0, 0)

/-- The resolver half of `parseNumber` (source lines 89-134): everything
after the scanner loop, given the accepted extent `pos` and the
accumulated flags `found`. -/
def resolveAt (buf : List Nat) (pos found : Nat) : Nat × Nat :=
  if found &&& isFloatOnlyFlag = 0 ∧ pos ≤ maxIntLen then
    if (if found &&& isMinusFlag = 0 then 1 < pos ∧ buf.headD 0 = 48
        else 2 < pos ∧ buf.getD 1 0 = 48) then (0, 0)
    else
      match parseInt64 (buf.take pos) with
      | .ok i => (TagInteger <<< JSONTAGOFFSET, uint64OfInt i)
      | .rangeErr =>
        let ft := TagFloat <<< JSONTAGOFFSET ||| FloatOverflowedInteger
        if found &&& isMinusFlag = 0 then
          match parseUint64 (buf.take pos) with
          | .ok u => (TagUint <<< JSONTAGOFFSET, u)
          | .rangeErr => floatPath buf pos (ft ||| FloatOverflowedInteger)
          | .syntaxErr => floatPath buf pos ft
        else floatPath buf pos ft
      | .syntaxErr =>
        let ft := TagFloat <<< JSONTAGOFFSET
        if found &&& isMinusFlag = 0 then
          match parseUint64 (buf.take pos) with
          | .ok u => (TagUint <<< JSONTAGOFFSET, u)
          | .rangeErr => floatPath buf pos (ft ||| FloatOverflowedInteger)
          | .syntaxErr => floatPath buf pos ft
        else floatPath buf pos ft
  else if found &&& isFloatOnlyFlag = 0 then
    floatPath buf pos (TagFloat <<< JSONTAGOFFSET ||| FloatOverflowedInteger)
  else
    floatPath buf pos (TagFloat <<< JSONTAGOFFSET)

/-- Embedding of `parseNumber` (source lines 65-135): the scanner loop
followed by the resolver. -/
def parseNumber (buf : List Nat) : Nat × Nat :=
  match scanLoop buf 0 0 with
  | none => (0, 0)
  | some (pos, found) =>
    if pos = 0 then (0, 0)
    else resolveAt buf pos found

/-! ## Specification-level predicates

These restate, at the level of the byte grammar, what the scanner and the
resolver accept; the theorems below relate them to `parseNumber`. -/

/-- Bytes that belong to a number token: digits, `+`, `-`, `.`, `e`, `E`. -/
def partNumByte (b : Nat) : Bool :=
  isDigitByte b || b = 43 || b = 45 || b = 46 || b = 101 || b = 69

/-- Structural-delimiter bytes: `,` `}` `]` space tab CR LF `:`. -/
def eovByte (b : Nat) : Bool :=
  b = 44 || b = 125 || b = 93 || b = 32 || b = 9 || b = 13 || b = 10 || b = 58

/-- The token the scanner tries to accept: the longest prefix of
number bytes. -/
def numToken (buf : List Nat) : List Nat := buf.takeWhile partNumByte

/-- What remains of the buffer after the token. -/
def numRest (buf : List Nat) : List Nat := buf.dropWhile partNumByte

/-- Every `.` or `-` byte is immediately followed by a digit (within the
given list). -/
def mhdnOk : List Nat → Bool
  | [] => true
  | b :: rest =>
    (if b = 46 ∨ b = 45 then
      (match rest with | [] => false | c :: _ => isDigitByte c)
     else true) && mhdnOk rest

/-- The scan runs to completion (no abort): the token is terminated by a
delimiter byte or the end of the buffer, and every `.`/`-` inside it is
followed by a digit. -/
def scanOk (buf : List Nat) : Bool :=
  (match numRest buf with | [] => true | c :: _ => eovByte c) && mhdnOk (numToken buf)

/-- The union of the classifier flags of all bytes of the token (the
scanner's `found` accumulator). -/
def orFlags (tok : List Nat) : Nat := tok.foldl (fun a b => a ||| isNumberRune b) 0

/-- Token contains a float-only byte (`.`, `e`, `E`). -/
def hasFloatByte (tok : List Nat) : Bool := tok.any (fun b => b = 46 || b = 101 || b = 69)

/-- Token contains a minus byte. -/
def hasMinusByte (tok : List Nat) : Bool := tok.any (fun b => b = 45)

/-- Syntax accepted by Go's 64-bit integer parsers: an optional single
`+`/`-` sign followed by at least one digit. -/
def intSyntax (tok : List Nat) : Bool :=
  match tok with
  | [] => false
  | c :: rest =>
    let ds := if c = 43 ∨ c = 45 then rest else tok
    !ds.isEmpty && ds.all isDigitByte

/-- The integer-path leading-zero rejection (source lines 94-104): with no
minus flag, extent over 1 starting with `0`; with a minus flag, extent
over 2 with `0` in second position. -/
def intLeadZero (tok : List Nat) : Bool :=
  if hasMinusByte tok then decide (2 < tok.length) && decide (tok.getD 1 0 = 48)
  else decide (1 < tok.length) && decide (tok.headD 0 = 48)

/-- The float-path leading-zero rejection (source lines 126-129): extent
over 1, first byte `0`, second byte not `.`/`e`/`E`. -/
def floatLeadZero (tok : List Nat) : Bool :=
  decide (1 < tok.length) && decide (tok.headD 0 = 48) &&
    !(tok.getD 1 0 = 46 || tok.getD 1 0 = 101 || tok.getD 1 0 = 69)

/-- The token reads as a decimal float literal whose nearest binary64
value is finite (no overflow to infinity). -/
def floatFinite (tok : List Nat) : Bool :=
  match readFloatLit tok with
  | none => false
  | some (_, num, den) => (nearestDoubleBits num den).isSome

/-- Grammar-level description of the tokens the resolver turns into a
number (everything else yields the sentinel): integer-shaped tokens of
extent at most 20 need only pass the integer leading-zero rule; longer
integer-shaped tokens and float-shaped tokens go through the float
parse, passing the float leading-zero rule, and must round to a finite
double. -/
def tokenAccepted (tok : List Nat) : Bool :=
  if !hasFloatByte tok && tok.length ≤ maxIntLen then
    intSyntax tok && !intLeadZero tok
  else if !hasFloatByte tok then
    intSyntax tok && !floatLeadZero tok && floatFinite tok
  else
    !floatLeadZero tok && floatFinite tok

/-- Grammar-level description of the buffers on which `parseNumber`
produces a non-sentinel result. -/
def acceptsNumber (buf : List Nat) : Bool :=
  scanOk buf && !(numToken buf).isEmpty && tokenAccepted (numToken buf)

/-! ## Per-byte classifier lemmas -/

theorem isNumberRune_val (b : Nat) :
    isNumberRune b =
      if 48 ≤ b ∧ b ≤ 57 then 17
      else if b = 46 then 35
      else if b = 43 then 1
      else if b = 45 then 37
      else if b = 101 ∨ b = 69 then 3
      else if b = 44 ∨ b = 125 ∨ b = 93 ∨ b = 32 ∨ b = 9 ∨ b = 13 ∨ b = 10 ∨ b = 58 then 8
      else 0 := by
  unfold isNumberRune isPartOfNumberFlag isFloatOnlyFlag isMinusFlag isEOVFlag isDigitFlag
    isMustHaveDigitNext
  split_ifs <;> decide

theorem isNumberRune_eq_zero_iff (b : Nat) :
    isNumberRune b = 0 ↔ partNumByte b = false ∧ eovByte b = false := by
  rw [isNumberRune_val]
  simp only [partNumByte, eovByte, isDigitByte]
  split_ifs with h1 h2 h3 h4 h5 h6 <;> simp_all <;> omega

theorem isNumberRune_eq_eov_iff (b : Nat) :
    isNumberRune b = isEOVFlag ↔ eovByte b = true := by
  rw [isNumberRune_val]
  simp only [eovByte, isEOVFlag]
  split_ifs with h1 h2 h3 h4 h5 h6 <;> simp_all <;> omega

theorem partNumByte_iff (b : Nat) :
    partNumByte b = true ↔ isNumberRune b ≠ 0 ∧ isNumberRune b ≠ isEOVFlag := by
  rw [isNumberRune_val]
  simp only [partNumByte, isDigitByte, isEOVFlag]
  split_ifs with h1 h2 h3 h4 h5 h6 <;> simp_all <;> omega

theorem mhdn_flag_iff (b : Nat) :
    isNumberRune b &&& isMustHaveDigitNext ≠ 0 ↔ b = 46 ∨ b = 45 := by
  rw [isNumberRune_val]
  simp only [isMustHaveDigitNext]
  split_ifs with h1 h2 h3 h4 h5 h6 <;>
    simp_all [(by decide : (17 : Nat) &&& 32 = 0), (by decide : (35 : Nat) &&& 32 = 32), (by decide : (1 : Nat) &&& 32 = 0), (by decide : (37 : Nat) &&& 32 = 32), (by decide : (3 : Nat) &&& 32 = 0), (by decide : (8 : Nat) &&& 32 = 0), (by decide : (0 : Nat) &&& 32 = 0)] <;> omega

theorem digit_flag_iff (b : Nat) :
    isNumberRune b &&& isDigitFlag ≠ 0 ↔ isDigitByte b = true := by
  rw [isNumberRune_val]
  simp only [isDigitFlag, isDigitByte]
  split_ifs with h1 h2 h3 h4 h5 h6 <;>
    simp_all [(by decide : (17 : Nat) &&& 16 = 16), (by decide : (35 : Nat) &&& 16 = 0), (by decide : (1 : Nat) &&& 16 = 0), (by decide : (37 : Nat) &&& 16 = 0), (by decide : (3 : Nat) &&& 16 = 0), (by decide : (8 : Nat) &&& 16 = 0), (by decide : (0 : Nat) &&& 16 = 0)] <;> omega

theorem floatOnly_flag_iff (b : Nat) :
    isNumberRune b &&& isFloatOnlyFlag ≠ 0 ↔ (b = 46 ∨ b = 101 ∨ b = 69) := by
  rw [isNumberRune_val]
  simp only [isFloatOnlyFlag]
  split_ifs with h1 h2 h3 h4 h5 h6 <;>
    simp_all [(by decide : (17 : Nat) &&& 2 = 0), (by decide : (35 : Nat) &&& 2 = 2), (by decide : (1 : Nat) &&& 2 = 0), (by decide : (37 : Nat) &&& 2 = 0), (by decide : (3 : Nat) &&& 2 = 2), (by decide : (8 : Nat) &&& 2 = 0), (by decide : (0 : Nat) &&& 2 = 0)] <;> omega

theorem minus_flag_iff (b : Nat) :
    isNumberRune b &&& isMinusFlag ≠ 0 ↔ b = 45 := by
  rw [isNumberRune_val]
  simp only [isMinusFlag]
  split_ifs with h1 h2 h3 h4 h5 h6 <;>
    simp_all [(by decide : (17 : Nat) &&& 4 = 0), (by decide : (35 : Nat) &&& 4 = 0), (by decide : (1 : Nat) &&& 4 = 0), (by decide : (37 : Nat) &&& 4 = 4), (by decide : (3 : Nat) &&& 4 = 0), (by decide : (8 : Nat) &&& 4 = 0), (by decide : (0 : Nat) &&& 4 = 0)] <;> omega

/-! ## Scanner characterization -/

theorem orFlags_cons (v : Nat) (l : List Nat) :
    orFlags (v :: l) = isNumberRune v ||| orFlags l := by
  have aux : ∀ (l : List Nat) (i : Nat),
      l.foldl (fun a b => a ||| isNumberRune b) i = i ||| orFlags l := by
    intro l
    induction l with
    | nil => intro i; simp [orFlags]
    | cons x xs ih =>
      intro i
      simp only [orFlags, List.foldl_cons] at *
      rw [ih (i ||| isNumberRune x), ih (0 ||| isNumberRune x)]
      simp [Nat.lor_assoc, Nat.zero_or]
  simp only [orFlags, List.foldl_cons]
  rw [aux _ (0 ||| isNumberRune v)]
  simp [Nat.zero_or, orFlags]

theorem scanLoop_cons (v : Nat) (rest : List Nat) (pos found : Nat) :
    scanLoop (v :: rest) pos found =
      if isNumberRune v = 0 then none
      else if isNumberRune v = isEOVFlag then some (pos, found)
      else if isNumberRune v &&& isMustHaveDigitNext ≠ 0 ∧
          (rest = [] ∨ isNumberRune (rest.headD 0) &&& isDigitFlag = 0) then none
      else scanLoop rest (pos + 1) (found ||| isNumberRune v) := rfl

/-- The scanner loop, described through the grammar-level predicates: it
fails exactly when `scanOk` is false, and otherwise consumes exactly the
longest prefix of number bytes, accumulating its flags. -/
theorem scanLoop_spec (buf : List Nat) : ∀ (pos found : Nat),
    scanLoop buf pos found =
      if scanOk buf then
        some (pos + (numToken buf).length, found ||| orFlags (numToken buf))
      else none := by
  induction buf with
  | nil =>
    intro pos found
    simp [scanLoop, scanOk, numToken, numRest, mhdnOk, orFlags]
  | cons v bs ih =>
    intro pos found
    rw [scanLoop_cons]
    by_cases h0 : isNumberRune v = 0
    · have h := (isNumberRune_eq_zero_iff v).mp h0
      have hscan : scanOk (v :: bs) = false := by
        simp only [scanOk, numRest, List.dropWhile_cons, h.1]
        simp [h.2]
      rw [if_pos h0, hscan]
      simp
    · rw [if_neg h0]
      by_cases h8 : isNumberRune v = isEOVFlag
      · have heov : eovByte v = true := (isNumberRune_eq_eov_iff v).mp h8
        have hpart : partNumByte v = false := by
          cases hp : partNumByte v
          · rfl
          · exact absurd h8 ((partNumByte_iff v).mp hp).2
        have htok : numToken (v :: bs) = [] := by
          simp [numToken, List.takeWhile_cons, hpart]
        have hscan : scanOk (v :: bs) = true := by
          simp only [scanOk, numRest, List.dropWhile_cons, hpart, htok]
          simp [heov, mhdnOk]
        rw [if_pos h8, hscan, htok]
        simp [orFlags, Nat.or_zero]
      · have hpart : partNumByte v = true := (partNumByte_iff v).mpr ⟨h0, h8⟩
        have htok : numToken (v :: bs) = v :: numToken bs := by
          simp [numToken, List.takeWhile_cons, hpart]
        have hrest : numRest (v :: bs) = numRest bs := by
          simp [numRest, List.dropWhile_cons, hpart]
        rw [if_neg h8]
        by_cases hbad : isNumberRune v &&& isMustHaveDigitNext ≠ 0 ∧
            (bs = [] ∨ isNumberRune (bs.headD 0) &&& isDigitFlag = 0)
        · obtain ⟨hflag, hsnd⟩ := hbad
          have hv46 : v = 46 ∨ v = 45 := (mhdn_flag_iff v).mp hflag
          have hmh : mhdnOk (numToken (v :: bs)) = false := by
            rw [htok]
            cases bs with
            | nil => simp [mhdnOk, hv46, numToken]
            | cons w ws =>
              have hnd : isNumberRune w &&& isDigitFlag = 0 := by
                rcases hsnd with h | h
                · exact absurd h (by simp)
                · simpa using h
              have hwnd : isDigitByte w = false := by
                cases hd : isDigitByte w
                · rfl
                · exact absurd hnd ((digit_flag_iff w).mpr hd)
              cases hwp : partNumByte w
              · simp [mhdnOk, hv46, numToken, List.takeWhile_cons, hwp]
              · simp [mhdnOk, hv46, numToken, List.takeWhile_cons, hwp, hwnd]
          have hscan : scanOk (v :: bs) = false := by
            simp [scanOk, hmh]
          rw [if_pos ⟨hflag, hsnd⟩, hscan]
          simp
        · rw [if_neg hbad]
          rw [ih (pos + 1) (found ||| isNumberRune v)]
          have hmh : mhdnOk (v :: numToken bs) = mhdnOk (numToken bs) := by
            by_cases hv46 : v = 46 ∨ v = 45
            · have hnb : ¬(bs = [] ∨ isNumberRune (bs.headD 0) &&& isDigitFlag = 0) :=
                fun hc => hbad ⟨(mhdn_flag_iff v).mpr hv46, hc⟩
              push_neg at hnb
              cases bs with
              | nil => exact absurd rfl hnb.1
              | cons w ws =>
                have hwd : isDigitByte w = true :=
                  (digit_flag_iff w).mp (by simpa using hnb.2)
                have hwp : partNumByte w = true := by simp [partNumByte, hwd]
                simp [mhdnOk, hv46, numToken, List.takeWhile_cons, hwp, hwd]
            · simp [mhdnOk, hv46]
          have hscan : scanOk (v :: bs) = scanOk bs := by
            simp only [scanOk, htok, hrest, hmh]
          rw [hscan]
          by_cases hs : scanOk bs = true
          · rw [if_pos hs, if_pos hs]
            simp only [htok, orFlags_cons, List.length_cons, Nat.lor_assoc]
            have hlen : pos + ((numToken bs).length + 1) = pos + 1 + (numToken bs).length := by
              omega
            rw [hlen]
          · rw [if_neg hs, if_neg hs]

/-- The whole function, after the scanner characterization: the resolver
runs on the longest number-byte prefix exactly when the scan survives and
that prefix is non-empty. -/
theorem parseNumber_spec (buf : List Nat) :
    parseNumber buf =
      if scanOk buf ∧ numToken buf ≠ [] then
        resolveAt buf (numToken buf).length (orFlags (numToken buf))
      else (0, 0) := by
  unfold parseNumber
  rw [scanLoop_spec]
  by_cases hs : scanOk buf = true
  · rw [if_pos hs]
    simp only [Nat.zero_add, Nat.zero_or]
    by_cases hn : numToken buf = []
    · rw [hn]
      simp
    · have hlen : (numToken buf).length ≠ 0 := by
        simpa [List.length_eq_zero] using hn
      rw [if_neg hlen, if_pos (show scanOk buf = true ∧ numToken buf ≠ [] from ⟨hs, hn⟩)]
  · rw [if_neg hs, if_neg (by tauto)]

/-! ## Transfers from buffer accesses to token accesses -/

theorem take_numToken (buf : List Nat) :
    buf.take (numToken buf).length = numToken buf := by
  have h := List.take_left (buf.takeWhile partNumByte) (buf.dropWhile partNumByte)
  rw [List.takeWhile_append_dropWhile] at h
  exact h

theorem headD_numToken (buf : List Nat) (h : numToken buf ≠ []) :
    buf.headD 0 = (numToken buf).headD 0 := by
  cases buf with
  | nil => simp [numToken] at h
  | cons a l =>
    by_cases hp : partNumByte a = true
    · simp [numToken, List.takeWhile_cons, hp]
    · have hp' : partNumByte a = false := by simpa using hp
      simp [numToken, List.takeWhile_cons, hp'] at h

theorem getD_numToken (buf : List Nat) (k : Nat) (h : k < (numToken buf).length) :
    buf.getD k 0 = (numToken buf).getD k 0 := by
  have hg := List.getD_append (buf.takeWhile partNumByte) (buf.dropWhile partNumByte) 0 k h
  rw [List.takeWhile_append_dropWhile] at hg
  exact hg

/-! ## The accumulated flags, bit by bit -/

theorem lor_and_eq_zero_iff (a b c : Nat) :
    (a ||| b) &&& c = 0 ↔ a &&& c = 0 ∧ b &&& c = 0 := by
  have hz : ∀ x : Nat, x = 0 ↔ ∀ i, x.testBit i = false := by
    intro x
    constructor
    · intro h i
      simp [h]
    · intro h
      apply Nat.eq_of_testBit_eq
      intro i
      simp [h i]
  rw [hz, hz, hz]
  simp only [Nat.testBit_land, Nat.testBit_lor]
  constructor
  · intro h
    constructor <;> intro i <;> have hi := h i <;>
      cases ha : a.testBit i <;> cases hb : b.testBit i <;> cases hc : c.testBit i <;>
        simp_all
  · intro hp i
    have h1 := hp.1 i
    have h2 := hp.2 i
    cases ha : a.testBit i <;> cases hb : b.testBit i <;> cases hc : c.testBit i <;> simp_all

theorem orFlags_floatOnly (tok : List Nat) :
    orFlags tok &&& isFloatOnlyFlag = 0 ↔ hasFloatByte tok = false := by
  induction tok with
  | nil => simp [orFlags, hasFloatByte]
  | cons b l ih =>
    have hb : isNumberRune b &&& isFloatOnlyFlag = 0 ↔ ¬(b = 46 ∨ b = 101 ∨ b = 69) := by
      have h := not_iff_not.mpr (floatOnly_flag_iff b)
      rwa [not_ne_iff] at h
    rw [orFlags_cons, lor_and_eq_zero_iff, hb, ih]
    simp [hasFloatByte]
    tauto

theorem orFlags_minus (tok : List Nat) :
    orFlags tok &&& isMinusFlag = 0 ↔ hasMinusByte tok = false := by
  induction tok with
  | nil => simp [orFlags, hasMinusByte]
  | cons b l ih =>
    have hb : isNumberRune b &&& isMinusFlag = 0 ↔ ¬(b = 45) := by
      have h := not_iff_not.mpr (minus_flag_iff b)
      rwa [not_ne_iff] at h
    rw [orFlags_cons, lor_and_eq_zero_iff, hb, ih]
    simp [hasMinusByte]

/-! ## Integer-shaped tokens -/

/-- Whether an integer-shaped token is negative (leading `-`). -/
def intTokNeg (tok : List Nat) : Bool := tok.headD 0 = 45

/-- The digit part of an integer-shaped token (the sign stripped). -/
def intTokDigits (tok : List Nat) : List Nat :=
  if tok.headD 0 = 43 ∨ tok.headD 0 = 45 then tok.tail else tok

/-- The signed value of an integer-shaped token. -/
def intTokVal (tok : List Nat) : Int :=
  if intTokNeg tok then -(digitsVal (intTokDigits tok) : Int)
  else (digitsVal (intTokDigits tok) : Int)

theorem digitsVal_from (l : List Nat) : ∀ (a : Nat),
    l.foldl (fun x d => x * 10 + (d - 48)) a = a * 10 ^ l.length + digitsVal l := by
  induction l with
  | nil => intro a; simp [digitsVal]
  | cons d ds ih =>
    intro a
    simp only [List.foldl_cons, digitsVal] at *
    rw [ih (a * 10 + (d - 48)), ih (0 * 10 + (d - 48))]
    ring_nf
    simp [List.length_cons]
    ring

theorem digitsVal_cons (d : Nat) (ds : List Nat) :
    digitsVal (d :: ds) = (d - 48) * 10 ^ ds.length + digitsVal ds := by
  simp only [digitsVal, List.foldl_cons]
  rw [digitsVal_from ds (0 * 10 + (d - 48))]
  simp [digitsVal]

theorem digitsVal_append (xs ys : List Nat) :
    digitsVal (xs ++ ys) = digitsVal xs * 10 ^ ys.length + digitsVal ys := by
  simp only [digitsVal, List.foldl_append]
  rw [digitsVal_from ys (List.foldl (fun x d => x * 10 + (d - 48)) 0 xs)]
  simp [digitsVal]

theorem digitsVal_lt (ds : List Nat) (h : ds.all isDigitByte = true) :
    digitsVal ds < 10 ^ ds.length := by
  induction ds with
  | nil => simp [digitsVal]
  | cons d l ih =>
    simp only [List.all_cons, Bool.and_eq_true] at h
    have hd : d - 48 ≤ 9 := by
      have := h.1
      simp only [isDigitByte, Bool.and_eq_true, decide_eq_true_eq] at this
      omega
    have hl := ih h.2
    rw [digitsVal_cons]
    calc (d - 48) * 10 ^ l.length + digitsVal l
        ≤ 9 * 10 ^ l.length + digitsVal l := by
          have := Nat.mul_le_mul_right (10 ^ l.length) hd
          omega
      _ < 9 * 10 ^ l.length + 10 ^ l.length := by omega
      _ = 10 ^ (l.length + 1) := by ring
      _ = 10 ^ (d :: l).length := by simp

theorem digitsVal_ge (d : Nat) (ds : List Nat) (h : d ≠ 48) (hd : isDigitByte d = true) :
    10 ^ ds.length ≤ digitsVal (d :: ds) := by
  simp only [isDigitByte, Bool.and_eq_true, decide_eq_true_eq] at hd
  rw [digitsVal_cons]
  have h1 : 1 ≤ d - 48 := by omega
  have := Nat.mul_le_mul_right (10 ^ ds.length) h1
  omega

theorem intSyntax_shape (tok : List Nat) (h : intSyntax tok = true) :
    tok ≠ [] ∧ intTokDigits tok ≠ [] ∧ (intTokDigits tok).all isDigitByte = true := by
  cases tok with
  | nil => simp [intSyntax] at h
  | cons c rest =>
    simp only [intSyntax, Bool.and_eq_true, Bool.not_eq_true', List.isEmpty_eq_false] at h
    refine ⟨by simp, ?_, ?_⟩ <;>
      simp only [intTokDigits, List.headD, List.tail] <;>
      split_ifs with hc <;> simp_all

theorem parseInt64_char (tok : List Nat) (h : intSyntax tok = true) :
    parseInt64 tok =
      if intTokNeg tok then
        (if digitsVal (intTokDigits tok) ≤ 2 ^ 63 then .ok (intTokVal tok) else .rangeErr)
      else
        (if digitsVal (intTokDigits tok) ≤ 2 ^ 63 - 1 then .ok (intTokVal tok) else .rangeErr) := by
  obtain ⟨h1, h2, h3⟩ := intSyntax_shape tok h
  cases tok with
  | nil => simp at h1
  | cons c rest =>
    have hds : intTokDigits (c :: rest) = if c = 43 ∨ c = 45 then rest else c :: rest := by
      simp [intTokDigits]
    have hneg : intTokNeg (c :: rest) = decide (c = 45) := by
      simp [intTokNeg]
    simp only [parseInt64]
    rw [if_neg]
    · simp only [intTokVal, hds, hneg]
      split_ifs <;> simp_all
    · rw [hds] at h2 h3
      push_neg
      constructor
      · exact h2
      · simp [h3]

theorem parseInt64_syntaxErr (tok : List Nat) (h : intSyntax tok = false) :
    parseInt64 tok = .syntaxErr := by
  cases tok with
  | nil => simp [parseInt64]
  | cons c rest =>
    simp only [intSyntax] at h
    rw [Bool.and_eq_false_iff] at h
    simp only [parseInt64]
    rw [if_pos]
    rcases h with h | h
    · left
      simpa using h
    · right
      simp [h]

theorem parseUint64_ok (tok : List Nat) (h1 : tok ≠ []) (h2 : tok.all isDigitByte = true)
    (h3 : digitsVal tok ≤ 2 ^ 64 - 1) : parseUint64 tok = .ok (digitsVal tok) := by
  simp only [parseUint64]
  rw [if_neg (by simp [h1, h2]), if_pos h3]

theorem parseUint64_rangeErr (tok : List Nat) (h1 : tok ≠ []) (h2 : tok.all isDigitByte = true)
    (h3 : 2 ^ 64 - 1 < digitsVal tok) : parseUint64 tok = .rangeErr := by
  simp only [parseUint64]
  rw [if_neg (by simp [h1, h2]), if_neg (by omega)]

theorem parseUint64_syntaxErr (tok : List Nat) (h : tok = [] ∨ tok.all isDigitByte = false) :
    parseUint64 tok = .syntaxErr := by
  simp only [parseUint64]
  rw [if_pos (by rcases h with h | h <;> simp [h])]

/-! ## Branch-condition transfers to token level -/

theorem minusCond_iff (buf : List Nat) (hn : numToken buf ≠ []) :
    ((if orFlags (numToken buf) &&& isMinusFlag = 0
      then 1 < (numToken buf).length ∧ buf.headD 0 = 48
      else 2 < (numToken buf).length ∧ buf.getD 1 0 = 48) : Prop)
    ↔ intLeadZero (numToken buf) = true := by
  by_cases hm : hasMinusByte (numToken buf) = true
  · rw [if_neg (by rw [orFlags_minus]; simp [hm])]
    unfold intLeadZero
    rw [if_pos hm]
    constructor
    · rintro ⟨hl, hz⟩
      rw [getD_numToken buf 1 (by omega)] at hz
      simp only [Bool.and_eq_true, decide_eq_true_eq]
      exact ⟨hl, hz⟩
    · intro h
      simp only [Bool.and_eq_true, decide_eq_true_eq] at h
      exact ⟨h.1, by rw [getD_numToken buf 1 (by omega)]; exact h.2⟩
  · have hm' : hasMinusByte (numToken buf) = false := by simpa using hm
    rw [if_pos (by rw [orFlags_minus]; exact hm')]
    unfold intLeadZero
    rw [if_neg (by simp [hm'])]
    constructor
    · rintro ⟨hl, hz⟩
      rw [headD_numToken buf hn] at hz
      simp only [Bool.and_eq_true, decide_eq_true_eq]
      exact ⟨hl, hz⟩
    · intro h
      simp only [Bool.and_eq_true, decide_eq_true_eq] at h
      exact ⟨h.1, by rw [headD_numToken buf hn]; exact h.2⟩

theorem floatCond_iff (buf : List Nat) (hn : numToken buf ≠ []) :
    (1 < (numToken buf).length ∧ buf.headD 0 = 48 ∧
      isNumberRune (buf.getD 1 0) &&& isFloatOnlyFlag = 0)
    ↔ floatLeadZero (numToken buf) = true := by
  unfold floatLeadZero
  constructor
  · rintro ⟨h1, h2, h3⟩
    rw [getD_numToken buf 1 (by omega)] at h3
    have h4 : ¬((numToken buf).getD 1 0 = 46 ∨ (numToken buf).getD 1 0 = 101 ∨
        (numToken buf).getD 1 0 = 69) := fun hc => (floatOnly_flag_iff _).mpr hc h3
    rw [headD_numToken buf hn] at h2
    push_neg at h4
    simp only [Bool.and_eq_true, decide_eq_true_eq, Bool.not_eq_true',
      Bool.or_eq_false_iff, decide_eq_false_iff_not]
    exact ⟨⟨h1, h2⟩, ⟨h4.1, h4.2.1⟩, h4.2.2⟩
  · intro h
    simp only [Bool.and_eq_true, decide_eq_true_eq, Bool.not_eq_true',
      Bool.or_eq_false_iff, decide_eq_false_iff_not] at h
    obtain ⟨⟨h1, h2⟩, ⟨h3, h4⟩, h5⟩ := h
    refine ⟨h1, by rw [headD_numToken buf hn]; exact h2, ?_⟩
    rw [getD_numToken buf 1 (by omega)]
    cases hz : isNumberRune ((numToken buf).getD 1 0) &&& isFloatOnlyFlag with
    | zero => rfl
    | succ k =>
      have hne : isNumberRune ((numToken buf).getD 1 0) &&& isFloatOnlyFlag ≠ 0 := by
        rw [hz]
        exact Nat.succ_ne_zero k
      have := (floatOnly_flag_iff _).mp hne
      tauto

theorem floatPath_eq (buf : List Nat) (hn : numToken buf ≠ []) (ft : Nat) :
    floatPath buf (numToken buf).length ft =
      if floatLeadZero (numToken buf) = true then (0, 0)
      else
        match parseFloat64 (numToken buf) with
        | some bits => (ft, bits)
        | none => (0, 0) := by
  unfold floatPath
  rw [take_numToken]
  by_cases h : floatLeadZero (numToken buf) = true
  · rw [if_pos ((floatCond_iff buf hn).mpr h), if_pos h]
  · rw [if_neg (fun hc => h ((floatCond_iff buf hn).mp hc)), if_neg h]

/-! ## Integer-shaped tokens through the float reader -/

theorem intSyntax_noFloatByte (tok : List Nat) (h : intSyntax tok = true) :
    hasFloatByte tok = false := by
  obtain ⟨h1, h2, h3⟩ := intSyntax_shape tok h
  cases tok with
  | nil => simp [hasFloatByte]
  | cons c rest =>
    rw [hasFloatByte, List.any_eq_false]
    intro x hx
    have hdig : ∀ y ∈ intTokDigits (c :: rest), isDigitByte y = true := List.all_eq_true.mp h3
    by_cases hc : c = 43 ∨ c = 45
    · have hds : intTokDigits (c :: rest) = rest := by
        rw [intTokDigits, if_pos (by simpa [List.headD_cons] using hc)]
        rfl
      rcases List.mem_cons.mp hx with hxc | hxr
      · subst hxc
        simp only [Bool.or_eq_true, decide_eq_true_eq, not_or]
        omega
      · have := hdig x (by rw [hds]; exact hxr)
        simp only [isDigitByte, Bool.and_eq_true, decide_eq_true_eq] at this
        simp only [Bool.or_eq_true, decide_eq_true_eq, not_or]
        omega
    · have hds : intTokDigits (c :: rest) = c :: rest := by
        rw [intTokDigits, if_neg (by simpa [List.headD_cons] using hc)]
      have := hdig x (by rw [hds]; exact hx)
      simp only [isDigitByte, Bool.and_eq_true, decide_eq_true_eq] at this
      simp only [Bool.or_eq_true, decide_eq_true_eq, not_or]
      omega

theorem intSyntax_minusByte (tok : List Nat) (h : intSyntax tok = true) :
    hasMinusByte tok = intTokNeg tok := by
  obtain ⟨h1, h2, h3⟩ := intSyntax_shape tok h
  cases tok with
  | nil => exact absurd rfl h1
  | cons c rest =>
    have hdig : ∀ y ∈ intTokDigits (c :: rest), isDigitByte y = true := List.all_eq_true.mp h3
    have hrest : ∀ y ∈ rest, y ≠ 45 := by
      intro y hy
      have hyd : isDigitByte y = true := by
        by_cases hc : c = 43 ∨ c = 45
        · exact hdig y (by rw [intTokDigits, if_pos (by simpa [List.headD_cons] using hc)]; exact hy)
        · exact hdig y (by
            rw [intTokDigits, if_neg (by simpa [List.headD_cons] using hc)]
            exact List.mem_cons_of_mem c hy)
      simp only [isDigitByte, Bool.and_eq_true, decide_eq_true_eq] at hyd
      omega
    simp only [hasMinusByte, List.any_cons, intTokNeg, List.headD_cons]
    have : rest.any (fun b => decide (b = 45)) = false := by
      rw [List.any_eq_false]
      intro x hx
      simpa using hrest x hx
    rw [this, Bool.or_false]

theorem readFloatLit_intSyntax (tok : List Nat) (h : intSyntax tok = true) :
    readFloatLit tok = some (intTokNeg tok, digitsVal (intTokDigits tok), 1) := by
  obtain ⟨h1, h2, h3⟩ := intSyntax_shape tok h
  cases tok with
  | nil => exact absurd rfl h1
  | cons c rest =>
    have hall : ∀ x ∈ intTokDigits (c :: rest), isDigitByte x = true := List.all_eq_true.mp h3
    by_cases hc : c = 43 ∨ c = 45
    · have hds : intTokDigits (c :: rest) = rest := by
        rw [intTokDigits, if_pos (by simpa [List.headD_cons] using hc)]
        rfl
      rw [hds] at hall h2
      have htw : rest.takeWhile isDigitByte = rest := List.takeWhile_eq_self_iff.mpr hall
      have hdw : rest.dropWhile isDigitByte = [] := List.dropWhile_eq_nil_iff.mpr hall
      have hlen : rest.length ≠ 0 := by simpa [List.length_eq_zero] using h2
      simp only [readFloatLit, List.headD_cons, List.tail_cons]
      rw [if_pos hc, htw, hdw]
      rw [hds]
      simp [scale10, intTokNeg, List.headD_cons, hlen]
    · have hds : intTokDigits (c :: rest) = c :: rest := by
        rw [intTokDigits, if_neg (by simpa [List.headD_cons] using hc)]
      rw [hds] at hall
      have htw : (c :: rest).takeWhile isDigitByte = c :: rest :=
        List.takeWhile_eq_self_iff.mpr hall
      have hdw : (c :: rest).dropWhile isDigitByte = [] :=
        List.dropWhile_eq_nil_iff.mpr hall
      simp only [readFloatLit, List.headD_cons, List.tail_cons]
      rw [if_neg hc, htw, hdw]
      rw [hds]
      simp [scale10, intTokNeg, List.headD_cons]

theorem readFloatLit_noFloat (tok : List Nat) (hf : hasFloatByte tok = false)
    (hi : intSyntax tok = false) : readFloatLit tok = none := by
  have hmem : ∀ x ∈ tok, x ≠ 46 ∧ x ≠ 101 ∧ x ≠ 69 := by
    intro x hx
    have h := List.any_eq_false.mp hf x hx
    simp at h
    omega
  cases tok with
  | nil => simp [readFloatLit]
  | cons c rest =>
    by_cases hc : c = 43 ∨ c = 45
    · -- sign stripped: the tail must be all digits and nonempty for syntax
      simp only [readFloatLit, List.headD_cons, List.tail_cons]
      rw [if_pos hc]
      cases hs2 : rest.dropWhile isDigitByte with
      | nil =>
        have hall : ∀ x ∈ rest, isDigitByte x = true := List.dropWhile_eq_nil_iff.mp hs2
        by_cases hrest : rest = []
        · subst hrest
          simp
        · exfalso
          have : intSyntax (c :: rest) = true := by
            simp only [intSyntax]
            rw [if_pos hc]
            simp [List.isEmpty_iff, hrest, List.all_eq_true.mpr hall]
          rw [this] at hi
          simp at hi
      | cons d s4 =>
        have hdnd : isDigitByte d = false := by
          have := List.head?_dropWhile_not isDigitByte rest
          rw [hs2] at this
          simpa using this
        have hdmem : d ∈ (c :: rest : List Nat) := by
          have h1 : d ∈ rest.dropWhile isDigitByte := by
            rw [hs2]
            exact List.mem_cons_self d s4
          exact List.mem_cons_of_mem c
            (List.Sublist.mem h1 (List.dropWhile_sublist isDigitByte))
        have hd3 := hmem d hdmem
        have h46 : (d = 46) = False := by simp [hd3.1]
        have heE : (d = 101 ∨ d = 69) = False := by simp [hd3.2.1, hd3.2.2]
        simp only [List.headD_cons, h46, if_false, heE]
        exact ite_self none
    · simp only [readFloatLit, List.headD_cons, List.tail_cons]
      rw [if_neg hc]
      cases hs2 : (c :: rest).dropWhile isDigitByte with
      | nil =>
        exfalso
        have hall : ∀ x ∈ (c :: rest : List Nat), isDigitByte x = true :=
          List.dropWhile_eq_nil_iff.mp hs2
        have : intSyntax (c :: rest) = true := by
          simp only [intSyntax]
          rw [if_neg hc]
          simp [List.all_eq_true.mpr hall]
        rw [this] at hi
        simp at hi
      | cons d s4 =>
        have hdnd : isDigitByte d = false := by
          have := List.head?_dropWhile_not isDigitByte (c :: rest)
          rw [hs2] at this
          simpa using this
        have hdmem : d ∈ (c :: rest : List Nat) := by
          have h1 : d ∈ (c :: rest).dropWhile isDigitByte := by
            rw [hs2]
            exact List.mem_cons_self d s4
          exact List.Sublist.mem h1 (List.dropWhile_sublist isDigitByte)
        have hd3 := hmem d hdmem
        have h46 : (d = 46) = False := by simp [hd3.1]
        have heE : (d = 101 ∨ d = 69) = False := by simp [hd3.2.1, hd3.2.2]
        simp only [List.headD_cons, h46, if_false, heE]
        exact ite_self none

/-! ## The resolver, case by case -/

/-- The float epilogue expressed on the token. -/
def floatResult (tok : List Nat) (ft : Nat) : Nat × Nat :=
  if floatLeadZero tok = true then (0, 0)
  else
    match parseFloat64 tok with
    | some bits => (ft, bits)
    | none => (0, 0)

theorem floatPath_eq_floatResult (buf : List Nat) (hn : numToken buf ≠ []) (ft : Nat) :
    floatPath buf (numToken buf).length ft = floatResult (numToken buf) ft := by
  rw [floatPath_eq buf hn ft, floatResult]

theorem intSyntax_of_digits (tok : List Nat) (h1 : tok ≠ [])
    (h2 : tok.all isDigitByte = true) : intSyntax tok = true := by
  cases tok with
  | nil => exact absurd rfl h1
  | cons c rest =>
    have hc : isDigitByte c = true := by
      simp only [List.all_cons, Bool.and_eq_true] at h2
      exact h2.1
    have hcs : ¬(c = 43 ∨ c = 45) := by
      simp only [isDigitByte, Bool.and_eq_true, decide_eq_true_eq] at hc
      omega
    simp only [intSyntax]
    rw [if_neg hcs]
    simp [h2]

theorem parseUint64_of_not_intSyntax (tok : List Nat) (hint : intSyntax tok = false) :
    parseUint64 tok = .syntaxErr := by
  by_cases h1 : tok = []
  · subst h1
    simp [parseUint64]
  · by_cases h2 : tok.all isDigitByte = true
    · exact absurd (intSyntax_of_digits tok h1 h2) (by simp [hint])
    · exact parseUint64_syntaxErr tok (Or.inr (by simpa using h2))

theorem resolve_intLeadZero (buf : List Nat) (hs : scanOk buf = true) (hn : numToken buf ≠ [])
    (hf : hasFloatByte (numToken buf) = false) (hlen : (numToken buf).length ≤ maxIntLen)
    (hz : intLeadZero (numToken buf) = true) :
    parseNumber buf = (0, 0) := by
  rw [parseNumber_spec, if_pos ⟨hs, hn⟩]
  unfold resolveAt
  rw [if_pos ⟨(orFlags_floatOnly _).mpr hf, hlen⟩]
  rw [if_pos ((minusCond_iff buf hn).mpr hz)]

theorem resolve_int_ok (buf : List Nat) (hs : scanOk buf = true) (hn : numToken buf ≠ [])
    (hf : hasFloatByte (numToken buf) = false) (hlen : (numToken buf).length ≤ maxIntLen)
    (hz : intLeadZero (numToken buf) = false) (i : Int)
    (hok : parseInt64 (numToken buf) = .ok i) :
    parseNumber buf = (TagInteger <<< JSONTAGOFFSET, uint64OfInt i) := by
  rw [parseNumber_spec, if_pos ⟨hs, hn⟩]
  unfold resolveAt
  rw [if_pos ⟨(orFlags_floatOnly _).mpr hf, hlen⟩]
  rw [if_neg (fun hc => by rw [(minusCond_iff buf hn).mp hc] at hz; exact Bool.noConfusion hz)]
  rw [take_numToken, hok]

theorem resolve_uint_ok (buf : List Nat) (hs : scanOk buf = true) (hn : numToken buf ≠ [])
    (hf : hasFloatByte (numToken buf) = false) (hlen : (numToken buf).length ≤ maxIntLen)
    (hz : intLeadZero (numToken buf) = false)
    (hrange : parseInt64 (numToken buf) = .rangeErr)
    (hm : hasMinusByte (numToken buf) = false) (u : Nat)
    (hu : parseUint64 (numToken buf) = .ok u) :
    parseNumber buf = (TagUint <<< JSONTAGOFFSET, u) := by
  rw [parseNumber_spec, if_pos ⟨hs, hn⟩]
  unfold resolveAt
  rw [if_pos ⟨(orFlags_floatOnly _).mpr hf, hlen⟩]
  rw [if_neg (fun hc => by rw [(minusCond_iff buf hn).mp hc] at hz; exact Bool.noConfusion hz)]
  rw [take_numToken, hrange]
  simp only
  rw [if_pos ((orFlags_minus _).mpr hm), hu]

theorem resolve_int_overflow (buf : List Nat) (hs : scanOk buf = true) (hn : numToken buf ≠ [])
    (hf : hasFloatByte (numToken buf) = false) (hlen : (numToken buf).length ≤ maxIntLen)
    (hz : intLeadZero (numToken buf) = false)
    (hrange : parseInt64 (numToken buf) = .rangeErr)
    (hu : hasMinusByte (numToken buf) = true ∨ parseUint64 (numToken buf) = .rangeErr ∨
      parseUint64 (numToken buf) = .syntaxErr) :
    parseNumber buf =
      floatResult (numToken buf) (TagFloat <<< JSONTAGOFFSET ||| FloatOverflowedInteger) := by
  rw [parseNumber_spec, if_pos ⟨hs, hn⟩]
  unfold resolveAt
  rw [if_pos ⟨(orFlags_floatOnly _).mpr hf, hlen⟩]
  rw [if_neg (fun hc => by rw [(minusCond_iff buf hn).mp hc] at hz; exact Bool.noConfusion hz)]
  rw [take_numToken, hrange]
  simp only
  rcases hu with hm | hur | hus
  · rw [if_neg (fun hc => by rw [(orFlags_minus _).mp hc] at hm; exact Bool.noConfusion hm)]
    exact floatPath_eq_floatResult buf hn _
  · by_cases hm : hasMinusByte (numToken buf) = true
    · rw [if_neg (fun hc => by rw [(orFlags_minus _).mp hc] at hm; exact Bool.noConfusion hm)]
      exact floatPath_eq_floatResult buf hn _
    · rw [if_pos ((orFlags_minus _).mpr (by simpa using hm)), hur]
      have hlor : TagFloat <<< JSONTAGOFFSET ||| FloatOverflowedInteger |||
          FloatOverflowedInteger = TagFloat <<< JSONTAGOFFSET ||| FloatOverflowedInteger := by
        rw [Nat.lor_assoc]
        norm_num
      show floatPath buf (numToken buf).length
        (TagFloat <<< JSONTAGOFFSET ||| FloatOverflowedInteger ||| FloatOverflowedInteger) = _
      rw [hlor]
      exact floatPath_eq_floatResult buf hn _
  · by_cases hm : hasMinusByte (numToken buf) = true
    · rw [if_neg (fun hc => by rw [(orFlags_minus _).mp hc] at hm; exact Bool.noConfusion hm)]
      exact floatPath_eq_floatResult buf hn _
    · rw [if_pos ((orFlags_minus _).mpr (by simpa using hm)), hus]
      exact floatPath_eq_floatResult buf hn _

theorem resolve_nonint (buf : List Nat) (hs : scanOk buf = true) (hn : numToken buf ≠ [])
    (hf : hasFloatByte (numToken buf) = false) (hlen : (numToken buf).length ≤ maxIntLen)
    (hz : intLeadZero (numToken buf) = false)
    (hint : intSyntax (numToken buf) = false) :
    parseNumber buf = (0, 0) := by
  have hpf : parseFloat64 (numToken buf) = none := by
    rw [parseFloat64, readFloatLit_noFloat (numToken buf) hf hint]
  have hflo : floatResult (numToken buf) (TagFloat <<< JSONTAGOFFSET) = (0, 0) := by
    rw [floatResult, hpf]
    exact ite_self (0, 0)
  rw [parseNumber_spec, if_pos ⟨hs, hn⟩]
  unfold resolveAt
  rw [if_pos ⟨(orFlags_floatOnly _).mpr hf, hlen⟩]
  rw [if_neg (fun hc => by rw [(minusCond_iff buf hn).mp hc] at hz; exact Bool.noConfusion hz)]
  rw [take_numToken, parseInt64_syntaxErr _ hint]
  simp only
  by_cases hm : hasMinusByte (numToken buf) = true
  · rw [if_neg (fun hc => by rw [(orFlags_minus _).mp hc] at hm; exact Bool.noConfusion hm)]
    exact (floatPath_eq_floatResult buf hn _).trans hflo
  · rw [if_pos ((orFlags_minus _).mpr (by simpa using hm)),
      parseUint64_of_not_intSyntax _ hint]
    exact (floatPath_eq_floatResult buf hn _).trans hflo

theorem resolve_long (buf : List Nat) (hs : scanOk buf = true) (hn : numToken buf ≠ [])
    (hf : hasFloatByte (numToken buf) = false) (hlen : maxIntLen < (numToken buf).length) :
    parseNumber buf =
      floatResult (numToken buf) (TagFloat <<< JSONTAGOFFSET ||| FloatOverflowedInteger) := by
  rw [parseNumber_spec, if_pos ⟨hs, hn⟩]
  unfold resolveAt
  rw [if_neg (fun hc => absurd hc.2 (by omega))]
  rw [if_pos ((orFlags_floatOnly _).mpr hf)]
  exact floatPath_eq_floatResult buf hn _

theorem resolve_floatByte (buf : List Nat) (hs : scanOk buf = true) (hn : numToken buf ≠ [])
    (hf : hasFloatByte (numToken buf) = true) :
    parseNumber buf = floatResult (numToken buf) (TagFloat <<< JSONTAGOFFSET) := by
  have hflag : ¬(orFlags (numToken buf) &&& isFloatOnlyFlag = 0) := fun hc => by
    rw [(orFlags_floatOnly _).mp hc] at hf
    exact Bool.noConfusion hf
  rw [parseNumber_spec, if_pos ⟨hs, hn⟩]
  unfold resolveAt
  rw [if_neg (fun hc => hflag hc.1)]
  rw [if_neg hflag]
  exact floatPath_eq_floatResult buf hn _

theorem parseNumber_scanFail (buf : List Nat) (h : ¬(scanOk buf = true ∧ numToken buf ≠ [])) :
    parseNumber buf = (0, 0) := by
  rw [parseNumber_spec, if_neg h]

/-! ## Correctness of the binary logarithm and of `ratLog2` -/

theorem log2fuel_eq (f : Nat) : ∀ n : Nat, n ≤ f → log2fuel f n = Nat.log2 n := by
  induction f with
  | zero =>
    intro n hn
    have : n = 0 := by omega
    subst this
    rw [log2fuel, Nat.log2]
    simp
  | succ f ih =>
    intro n hn
    rw [log2fuel, Nat.log2]
    by_cases h2 : 2 ≤ n
    · rw [if_pos h2, if_pos (by omega), ih (n / 2) (by omega)]
    · rw [if_neg h2, if_neg (by omega)]

theorem nlog2_eq (n : Nat) : nlog2 n = Nat.log2 n := log2fuel_eq n n le_rfl

theorem nlog2_le_self (n : Nat) (h : n ≠ 0) : 2 ^ nlog2 n ≤ n := by
  rw [nlog2_eq]
  exact Nat.log2_self_le h

theorem lt_nlog2_self (n : Nat) : n < 2 ^ (nlog2 n + 1) := by
  rw [nlog2_eq]
  exact Nat.lt_log2_self

theorem ratGePow2_iff (num den : Nat) (hd : 0 < den) (k : Int) :
    ratGePow2 num den k = true ↔ (2 : ℚ) ^ k ≤ (num : ℚ) / (den : ℚ) := by
  have hdq : (0 : ℚ) < (den : ℚ) := by exact_mod_cast hd
  rw [le_div_iff hdq]
  unfold ratGePow2
  split_ifs with hk
  · rw [decide_eq_true_eq]
    have hz : (2 : ℚ) ^ k = ((2 ^ k.toNat : Nat) : ℚ) := by
      push_cast
      rw [← zpow_natCast]
      congr 1
      omega
    rw [hz]
    constructor
    · intro h
      calc ((2 ^ k.toNat : Nat) : ℚ) * (den : ℚ) = ((den * 2 ^ k.toNat : Nat) : ℚ) := by
            push_cast
            ring
        _ ≤ (num : ℚ) := by exact_mod_cast h
    · intro h
      have : ((den * 2 ^ k.toNat : Nat) : ℚ) ≤ (num : ℚ) := by
        calc ((den * 2 ^ k.toNat : Nat) : ℚ) = ((2 ^ k.toNat : Nat) : ℚ) * (den : ℚ) := by
              push_cast
              ring
          _ ≤ (num : ℚ) := h
      exact_mod_cast this
  · rw [decide_eq_true_eq]
    push_neg at hk
    have hz : (2 : ℚ) ^ k = (((2 : Nat) ^ (-k).toNat : Nat) : ℚ)⁻¹ := by
      have h1 : (2 : ℚ) ^ k = ((2 : ℚ) ^ (((-k).toNat : Nat) : Int))⁻¹ := by
        rw [← zpow_neg]
        congr 1
        omega
      rw [h1]
      congr 1
      push_cast
      rw [← zpow_natCast]
    have hp : (0 : ℚ) < ((2 ^ (-k).toNat : Nat) : ℚ) := by
      have : (0 : Nat) < 2 ^ (-k).toNat := Nat.pos_pow_of_pos _ (by omega)
      exact_mod_cast this
    rw [hz, inv_mul_le_iff hp]
    constructor
    · intro h
      calc (den : ℚ) ≤ ((num * 2 ^ (-k).toNat : Nat) : ℚ) := by exact_mod_cast h
        _ = ((2 ^ (-k).toNat : Nat) : ℚ) * (num : ℚ) := by
            push_cast
            ring
    · intro h
      have : (den : ℚ) ≤ ((num * 2 ^ (-k).toNat : Nat) : ℚ) := by
        calc (den : ℚ) ≤ ((2 ^ (-k).toNat : Nat) : ℚ) * (num : ℚ) := h
          _ = ((num * 2 ^ (-k).toNat : Nat) : ℚ) := by
            push_cast
            ring
      exact_mod_cast this

theorem ratLog2_correct (num den : Nat) (hn : 0 < num) (hd : 0 < den) :
    (2 : ℚ) ^ ratLog2 num den ≤ (num : ℚ) / (den : ℚ) ∧
      (num : ℚ) / (den : ℚ) < (2 : ℚ) ^ (ratLog2 num den + 1) := by
  have hnq : (0 : ℚ) < (num : ℚ) := by exact_mod_cast hn
  have hdq : (0 : ℚ) < (den : ℚ) := by exact_mod_cast hd
  have ha1 : ((2 ^ nlog2 num : Nat) : ℚ) ≤ (num : ℚ) := by
    exact_mod_cast nlog2_le_self num (by omega)
  have ha2 : (num : ℚ) < ((2 ^ (nlog2 num + 1) : Nat) : ℚ) := by
    exact_mod_cast lt_nlog2_self num
  have hb1 : ((2 ^ nlog2 den : Nat) : ℚ) ≤ (den : ℚ) := by
    exact_mod_cast nlog2_le_self den (by omega)
  have hb2 : (den : ℚ) < ((2 ^ (nlog2 den + 1) : Nat) : ℚ) := by
    exact_mod_cast lt_nlog2_self den
  have hcast : ∀ m : Nat, ((2 ^ m : Nat) : ℚ) = (2 : ℚ) ^ (m : Int) := by
    intro m
    push_cast
    rw [← zpow_natCast]
  set a : Int := (nlog2 num : Int) with ha
  set b : Int := (nlog2 den : Int) with hb
  have hq_lt : (num : ℚ) / (den : ℚ) < (2 : ℚ) ^ (a - b + 1) := by
    rw [div_lt_iff hdq]
    calc (num : ℚ) < ((2 ^ (nlog2 num + 1) : Nat) : ℚ) := ha2
      _ = (2 : ℚ) ^ (a + 1) := by rw [hcast]; push_cast; ring_nf
      _ = (2 : ℚ) ^ (a - b + 1) * (2 : ℚ) ^ (b : Int) := by
          rw [← zpow_add₀ (by norm_num : (2:ℚ) ≠ 0)]
          ring_nf
      _ ≤ (2 : ℚ) ^ (a - b + 1) * (den : ℚ) := by
          have := hb1
          rw [hcast] at this
          exact mul_le_mul_of_nonneg_left this (by positivity)
  have hq_gt : (2 : ℚ) ^ (a - b - 1) < (num : ℚ) / (den : ℚ) := by
    rw [lt_div_iff hdq]
    calc (2 : ℚ) ^ (a - b - 1) * (den : ℚ)
        < (2 : ℚ) ^ (a - b - 1) * (2 : ℚ) ^ (b + 1) := by
          have := hb2
          rw [hcast] at this
          have h2 : (den : ℚ) < (2:ℚ) ^ (b + 1) := by
            calc (den : ℚ) < ((2 ^ (nlog2 den + 1) : Nat) : ℚ) := hb2
              _ = (2 : ℚ) ^ (b + 1) := by rw [hcast]; push_cast; ring_nf
          exact mul_lt_mul_of_pos_left h2 (by positivity)
      _ = (2 : ℚ) ^ (a : Int) := by
          rw [← zpow_add₀ (by norm_num : (2:ℚ) ≠ 0)]
          ring_nf
      _ ≤ (num : ℚ) := by
          have := ha1
          rw [hcast] at this
          exact this
  unfold ratLog2
  by_cases hge : ratGePow2 num den ((nlog2 num : Int) - (nlog2 den : Int)) = true
  · rw [if_pos hge]
    exact ⟨(ratGePow2_iff num den hd _).mp hge, hq_lt⟩
  · rw [if_neg hge]
    constructor
    · exact le_of_lt hq_gt
    · have hnot : ¬((2 : ℚ) ^ (a - b) ≤ (num : ℚ) / (den : ℚ)) := by
        intro hc
        exact hge ((ratGePow2_iff num den hd _).mpr hc)
      push_neg at hnot
      have heq : a - b - 1 + 1 = a - b := by ring
      rw [heq]
      exact hnot

theorem ratLog2_lt (num den : Nat) (hn : 0 < num) (hd : 0 < den) (k : Int)
    (h : (num : ℚ) / (den : ℚ) < (2 : ℚ) ^ k) : ratLog2 num den < k := by
  have hc := (ratLog2_correct num den hn hd).1
  by_contra hk
  push_neg at hk
  have hle : (2 : ℚ) ^ k ≤ (2 : ℚ) ^ ratLog2 num den :=
    zpow_le_zpow_right₀ (by norm_num) hk
  linarith

theorem nearestDoubleBits_isSome_of_lt (num den : Nat) (hd : 0 < den)
    (hq : (num : ℚ) / (den : ℚ) < (2 : ℚ) ^ (1023 : Int)) :
    (nearestDoubleBits num den).isSome = true := by
  by_cases h0 : num = 0
  · simp [nearestDoubleBits, h0]
  · have he1 : ratLog2 num den < 1023 := ratLog2_lt num den (by omega) hd 1023 hq
    unfold nearestDoubleBits
    rw [if_neg h0]
    dsimp only
    split_ifs <;> simp_all <;> omega

theorem nearestDoubleBits_isSome_nat (n : Nat) (h : n < 2 ^ 1023) :
    (nearestDoubleBits n 1).isSome = true := by
  apply nearestDoubleBits_isSome_of_lt n 1 one_pos
  have h1 : (n : ℚ) < ((2 ^ 1023 : Nat) : ℚ) := by exact_mod_cast h
  have h2 : ((2 ^ 1023 : Nat) : ℚ) = (2 : ℚ) ^ (1023 : Int) := by
    push_cast
    rw [← zpow_natCast]
    norm_num
  rw [Nat.cast_one, div_one, ← h2]
  exact h1

theorem intTokDigits_length_le (tok : List Nat) : (intTokDigits tok).length ≤ tok.length := by
  unfold intTokDigits
  split_ifs
  · cases tok <;> simp
  · exact le_rfl

theorem intTokDigits_eq_self (tok : List Nat) (h43 : tok.headD 0 ≠ 43)
    (h45 : tok.headD 0 ≠ 45) : intTokDigits tok = tok := by
  unfold intTokDigits
  rw [if_neg]
  push_neg
  exact ⟨h43, h45⟩

theorem intTokNeg_head (tok : List Nat) (h : intTokNeg tok = false) : tok.headD 0 ≠ 45 := by
  simpa [intTokNeg] using h

theorem dv_lt_of_len (tok : List Nat) (hint : intSyntax tok = true)
    (hlen : tok.length ≤ maxIntLen) :
    digitsVal (intTokDigits tok) < 10 ^ 20 := by
  obtain ⟨h1, h2, h3⟩ := intSyntax_shape tok hint
  have hda := digitsVal_lt (intTokDigits tok) h3
  have hdl : (intTokDigits tok).length ≤ 20 :=
    le_trans (intTokDigits_length_le tok) hlen
  have : (10 : Nat) ^ (intTokDigits tok).length ≤ 10 ^ 20 :=
    Nat.pow_le_pow_right (by norm_num) hdl
  omega

/-- The integer path when both 64-bit parses fail with a range error: the
value falls through to the float epilogue with the overflow annotation,
and the result is the correctly rounded value of the token. -/
theorem intSyntax_fallback (buf : List Nat) (hs : scanOk buf = true) (hn : numToken buf ≠ [])
    (hint : intSyntax (numToken buf) = true) (hlen : (numToken buf).length ≤ maxIntLen)
    (hz : intLeadZero (numToken buf) = false)
    (hfall :
      (intTokNeg (numToken buf) = true ∧
        2 ^ 63 < digitsVal (intTokDigits (numToken buf))) ∨
      (intTokNeg (numToken buf) = false ∧ (numToken buf).headD 0 = 43 ∧
        2 ^ 63 - 1 < digitsVal (intTokDigits (numToken buf))) ∨
      (intTokNeg (numToken buf) = false ∧ (numToken buf).headD 0 ≠ 43 ∧
        2 ^ 64 - 1 < digitsVal (intTokDigits (numToken buf)))) :
    ∃ mag, nearestDoubleBits (digitsVal (intTokDigits (numToken buf))) 1 = some mag ∧
      parseNumber buf = (TagFloat <<< JSONTAGOFFSET ||| FloatOverflowedInteger,
        (if intTokNeg (numToken buf) then 2 ^ 63 else 0) + mag) := by
  obtain ⟨hT1, hds_ne, hds_all⟩ := intSyntax_shape (numToken buf) hint
  have hdvlt := dv_lt_of_len (numToken buf) hint hlen
  have hfin : (nearestDoubleBits (digitsVal (intTokDigits (numToken buf))) 1).isSome = true := by
    apply nearestDoubleBits_isSome_nat
    have : (10 : Nat) ^ 20 < 2 ^ 1023 := by norm_num
    omega
  obtain ⟨mag, hmag⟩ := Option.isSome_iff_exists.mp hfin
  refine ⟨mag, hmag, ?_⟩
  have hminus : hasMinusByte (numToken buf) = intTokNeg (numToken buf) :=
    intSyntax_minusByte (numToken buf) hint
  have hrange : parseInt64 (numToken buf) = .rangeErr := by
    rw [parseInt64_char (numToken buf) hint]
    rcases hfall with ⟨hneg, hv⟩ | ⟨hneg, hp, hv⟩ | ⟨hneg, hp, hv⟩
    · rw [if_pos hneg, if_neg (by omega)]
    · rw [if_neg (by simp [hneg]), if_neg (by omega)]
    · rw [if_neg (by simp [hneg]), if_neg (by omega)]
  have hpf : parseFloat64 (numToken buf) =
      some ((if intTokNeg (numToken buf) then 2 ^ 63 else 0) + mag) := by
    rw [parseFloat64, readFloatLit_intSyntax (numToken buf) hint]
    simp only
    rw [hmag]
  have hhead : (numToken buf).headD 0 ≠ 48 := by
    rcases hfall with ⟨hneg, hv⟩ | ⟨hneg, hp, hv⟩ | ⟨hneg, hp, hv⟩
    · have : (numToken buf).headD 0 = 45 := by simpa [intTokNeg] using hneg
      omega
    · omega
    · have hdsT : intTokDigits (numToken buf) = numToken buf :=
        intTokDigits_eq_self _ hp (intTokNeg_head _ hneg)
      have hm : hasMinusByte (numToken buf) = false := by rw [hminus]; exact hneg
      rw [hdsT] at hv
      have hlen2 : 1 < (numToken buf).length := by
        by_contra h1
        have hlt := digitsVal_lt (intTokDigits (numToken buf)) hds_all
        rw [hdsT] at hlt
        have hle : (10 : Nat) ^ (numToken buf).length ≤ 10 ^ 1 :=
          Nat.pow_le_pow_right (by norm_num) (by omega)
        omega
      unfold intLeadZero at hz
      rw [if_neg (by simp [hm])] at hz
      simp only [Bool.and_eq_false_iff, decide_eq_false_iff_not] at hz
      rcases hz with hz | hz
      · exact absurd hlen2 (by simpa using hz)
      · simpa using hz
  have hflz : floatLeadZero (numToken buf) = false := by
    unfold floatLeadZero
    rw [decide_eq_false hhead]
    simp
  have hres : parseNumber buf =
      floatResult (numToken buf) (TagFloat <<< JSONTAGOFFSET ||| FloatOverflowedInteger) := by
    apply resolve_int_overflow buf hs hn (intSyntax_noFloatByte _ hint) hlen hz hrange
    rcases hfall with ⟨hneg, hv⟩ | ⟨hneg, hp, hv⟩ | ⟨hneg, hp, hv⟩
    · left
      rw [hminus]
      exact hneg
    · right
      right
      apply parseUint64_syntaxErr
      right
      cases hT : numToken buf with
      | nil => exact absurd hT hT1
      | cons c t =>
        rw [hT] at hp
        simp only [List.headD_cons] at hp
        subst hp
        simp [List.all_cons, isDigitByte]
    · right
      left
      have hdsT : intTokDigits (numToken buf) = numToken buf :=
        intTokDigits_eq_self _ hp (intTokNeg_head _ hneg)
      rw [hdsT] at hds_all hv
      exact parseUint64_rangeErr _ hT1 hds_all hv
  rw [hres, floatResult]
  rw [if_neg (by simp [hflz]), hpf]

/-! ## The acceptance characterization -/

theorem parseFloat64_isSome_iff (tok : List Nat) :
    (parseFloat64 tok).isSome = floatFinite tok := by
  unfold parseFloat64 floatFinite
  cases hr : readFloatLit tok with
  | none => rfl
  | some v =>
    obtain ⟨neg, num, den⟩ := v
    cases hb : nearestDoubleBits num den <;> simp [hb]

theorem floatFinite_parseFloat (tok : List Nat) (h : floatFinite tok = true) :
    ∃ bits, parseFloat64 tok = some bits := by
  apply Option.isSome_iff_exists.mp
  rw [parseFloat64_isSome_iff]
  exact h

theorem parseFloat64_none_of_not_finite (tok : List Nat) (h : floatFinite tok = false) :
    parseFloat64 tok = none := by
  cases hp : parseFloat64 tok with
  | none => rfl
  | some bits =>
    have : (parseFloat64 tok).isSome = true := by rw [hp]; rfl
    rw [parseFloat64_isSome_iff, h] at this
    exact Bool.noConfusion this

theorem pair_ne_sentinel {t v : Nat} (h : t ≠ 0) : (t, v) ≠ ((0 : Nat), (0 : Nat)) :=
  fun hc => h (congrArg Prod.fst hc)

theorem accepts_nonsentinel (buf : List Nat) (h : acceptsNumber buf = true) :
    parseNumber buf ≠ (0, 0) := by
  unfold acceptsNumber at h
  simp only [Bool.and_eq_true, Bool.not_eq_true', List.isEmpty_eq_false] at h
  obtain ⟨⟨hs, hn⟩, hacc⟩ := h
  unfold tokenAccepted at hacc
  by_cases hfb : hasFloatByte (numToken buf) = true
  · rw [if_neg (by simp [hfb]), if_neg (by simp [hfb])] at hacc
    simp only [Bool.and_eq_true, Bool.not_eq_true'] at hacc
    obtain ⟨hlz, hfin⟩ := hacc
    obtain ⟨bits, hbits⟩ := floatFinite_parseFloat _ hfin
    rw [resolve_floatByte buf hs hn hfb, floatResult, if_neg (by simp [hlz]), hbits]
    exact pair_ne_sentinel (by decide)
  · have hfb' : hasFloatByte (numToken buf) = false := by simpa using hfb
    by_cases hl : (numToken buf).length ≤ maxIntLen
    · rw [if_pos (by simp [hfb', hl])] at hacc
      simp only [Bool.and_eq_true, Bool.not_eq_true'] at hacc
      obtain ⟨hint, hz⟩ := hacc
      by_cases hneg : intTokNeg (numToken buf) = true
      · by_cases hv : digitsVal (intTokDigits (numToken buf)) ≤ 2 ^ 63
        · have hok : parseInt64 (numToken buf) = .ok (intTokVal (numToken buf)) := by
            rw [parseInt64_char _ hint, if_pos hneg, if_pos hv]
          rw [resolve_int_ok buf hs hn hfb' hl hz _ hok]
          exact pair_ne_sentinel (by decide)
        · obtain ⟨mag, -, hres⟩ := intSyntax_fallback buf hs hn hint hl hz
            (Or.inl ⟨hneg, by omega⟩)
          rw [hres]
          exact pair_ne_sentinel (by decide)
      · have hneg' : intTokNeg (numToken buf) = false := by simpa using hneg
        by_cases hv : digitsVal (intTokDigits (numToken buf)) ≤ 2 ^ 63 - 1
        · have hok : parseInt64 (numToken buf) = .ok (intTokVal (numToken buf)) := by
            rw [parseInt64_char _ hint, if_neg (by simp [hneg']), if_pos hv]
          rw [resolve_int_ok buf hs hn hfb' hl hz _ hok]
          exact pair_ne_sentinel (by decide)
        · by_cases hp : (numToken buf).headD 0 = 43
          · obtain ⟨mag, -, hres⟩ := intSyntax_fallback buf hs hn hint hl hz
              (Or.inr (Or.inl ⟨hneg', hp, by omega⟩))
            rw [hres]
            exact pair_ne_sentinel (by decide)
          · have hdsT : intTokDigits (numToken buf) = numToken buf :=
              intTokDigits_eq_self _ hp (intTokNeg_head _ hneg')
            by_cases hv2 : digitsVal (intTokDigits (numToken buf)) ≤ 2 ^ 64 - 1
            · have hrange : parseInt64 (numToken buf) = .rangeErr := by
                rw [parseInt64_char _ hint, if_neg (by simp [hneg']), if_neg (by omega)]
              have hm : hasMinusByte (numToken buf) = false := by
                rw [intSyntax_minusByte _ hint]
                exact hneg'
              obtain ⟨-, hds_ne, hds_all⟩ := intSyntax_shape _ hint
              rw [hdsT] at hds_all hv2
              have huok : parseUint64 (numToken buf) = .ok (digitsVal (numToken buf)) :=
                parseUint64_ok _ hn hds_all hv2
              rw [resolve_uint_ok buf hs hn hfb' hl hz hrange hm _ huok]
              exact pair_ne_sentinel (by decide)
            · obtain ⟨mag, -, hres⟩ := intSyntax_fallback buf hs hn hint hl hz
                (Or.inr (Or.inr ⟨hneg', hp, by omega⟩))
              rw [hres]
              exact pair_ne_sentinel (by decide)
    · rw [if_neg (by simp [hl]), if_pos (by simp [hfb'])] at hacc
      simp only [Bool.and_eq_true, Bool.not_eq_true'] at hacc
      obtain ⟨⟨hint, hlz⟩, hfin⟩ := hacc
      obtain ⟨bits, hbits⟩ := floatFinite_parseFloat _ hfin
      rw [resolve_long buf hs hn hfb' (by omega), floatResult, if_neg (by simp [hlz]), hbits]
      exact pair_ne_sentinel (by decide)

theorem nonaccept_sentinel (buf : List Nat) (h : acceptsNumber buf = false) :
    parseNumber buf = (0, 0) := by
  by_cases hsn : scanOk buf = true ∧ numToken buf ≠ []
  · obtain ⟨hs, hn⟩ := hsn
    have hacc : tokenAccepted (numToken buf) = false := by
      unfold acceptsNumber at h
      rcases Bool.and_eq_false_iff.mp h with h1 | h1
      · rcases Bool.and_eq_false_iff.mp h1 with h2 | h2
        · exact absurd hs (by simp [h2])
        · exact absurd h2 (by simp [hn])
      · exact h1
    unfold tokenAccepted at hacc
    by_cases hfb : hasFloatByte (numToken buf) = true
    · rw [if_neg (by simp [hfb]), if_neg (by simp [hfb])] at hacc
      rw [resolve_floatByte buf hs hn hfb, floatResult]
      rcases Bool.and_eq_false_iff.mp hacc with h1 | h1
      · have : floatLeadZero (numToken buf) = true := by simpa using h1
        rw [if_pos (by simp [this])]
      · rw [parseFloat64_none_of_not_finite _ h1]
        exact ite_self (0, 0)
    · have hfb' : hasFloatByte (numToken buf) = false := by simpa using hfb
      by_cases hl : (numToken buf).length ≤ maxIntLen
      · rw [if_pos (by simp [hfb', hl])] at hacc
        rcases Bool.and_eq_false_iff.mp hacc with h1 | h1
        · by_cases hz : intLeadZero (numToken buf) = true
          · exact resolve_intLeadZero buf hs hn hfb' hl hz
          · exact resolve_nonint buf hs hn hfb' hl (by simpa using hz) h1
        · have hz : intLeadZero (numToken buf) = true := by simpa using h1
          exact resolve_intLeadZero buf hs hn hfb' hl hz
      · rw [if_neg (by simp [hl]), if_pos (by simp [hfb'])] at hacc
        rw [resolve_long buf hs hn hfb' (by omega), floatResult]
        rcases Bool.and_eq_false_iff.mp hacc with h1 | h1
        · rcases Bool.and_eq_false_iff.mp h1 with h2 | h2
          · -- intSyntax fails: the float reader rejects too
            rw [parseFloat64, readFloatLit_noFloat _ hfb' h2]
            exact ite_self (0, 0)
          · have : floatLeadZero (numToken buf) = true := by simpa using h2
            rw [if_pos (by simp [this])]
        · rw [parseFloat64_none_of_not_finite _ h1]
          exact ite_self (0, 0)
  · exact parseNumber_scanFail buf hsn

/-! ## Buffers of the form token ++ delimiter -/

theorem numToken_append (tok rest : List Nat) (hp : ∀ b ∈ tok, partNumByte b = true)
    (hr : rest = [] ∨ partNumByte (rest.headD 0) = false) :
    numToken (tok ++ rest) = tok := by
  induction tok with
  | nil =>
    rcases hr with h | h
    · subst h
      rfl
    · cases rest with
      | nil => rfl
      | cons r rs =>
        simp only [List.headD_cons] at h
        simp [numToken, List.takeWhile_cons, h]
  | cons b bs ih =>
    have hb := hp b (List.mem_cons_self b bs)
    have ihh := ih fun x hx => hp x (List.mem_cons_of_mem b hx)
    show numToken (b :: (bs ++ rest)) = b :: bs
    rw [numToken, List.takeWhile_cons, if_pos hb]
    rw [numToken] at ihh
    rw [ihh]

theorem numRest_append (tok rest : List Nat) (hp : ∀ b ∈ tok, partNumByte b = true)
    (hr : rest = [] ∨ partNumByte (rest.headD 0) = false) :
    numRest (tok ++ rest) = rest := by
  induction tok with
  | nil =>
    rcases hr with h | h
    · subst h
      rfl
    · cases rest with
      | nil => rfl
      | cons r rs =>
        simp only [List.headD_cons] at h
        simp [numRest, List.dropWhile_cons, h]
  | cons b bs ih =>
    have hb := hp b (List.mem_cons_self b bs)
    have ihh := ih fun x hx => hp x (List.mem_cons_of_mem b hx)
    show numRest (b :: (bs ++ rest)) = rest
    rw [numRest, List.dropWhile_cons, if_pos hb]
    rw [numRest] at ihh
    exact ihh

theorem scanOk_append (tok rest : List Nat) (hp : ∀ b ∈ tok, partNumByte b = true)
    (hr : rest = [] ∨ eovByte (rest.headD 0) = true)
    (hm : mhdnOk tok = true) : scanOk (tok ++ rest) = true := by
  have hr' : rest = [] ∨ partNumByte (rest.headD 0) = false := by
    rcases hr with h | h
    · exact Or.inl h
    · right
      cases hpp : partNumByte (rest.headD 0)
      · rfl
      · exact absurd ((isNumberRune_eq_eov_iff _).mpr h) ((partNumByte_iff _).mp hpp).2
  rw [scanOk, numToken_append tok rest hp hr', numRest_append tok rest hp hr']
  rcases hr with h | h
  · subst h
    simp [hm]
  · cases rest with
    | nil => simp [hm]
    | cons r rs =>
      simp only [List.headD_cons] at h
      simp [h, hm]

theorem mhdnOk_digits (l : List Nat) (h : ∀ b ∈ l, isDigitByte b = true) :
    mhdnOk l = true := by
  induction l with
  | nil => rfl
  | cons b bs ih =>
    have hb := h b (List.mem_cons_self b bs)
    have hbv : ¬(b = 46 ∨ b = 45) := by
      simp only [isDigitByte, Bool.and_eq_true, decide_eq_true_eq] at hb
      omega
    simp only [mhdnOk, if_neg hbv, Bool.true_and]
    exact ih fun x hx => h x (List.mem_cons_of_mem b hx)

theorem mhdnOk_minus (d : Nat) (ds : List Nat) (hd : isDigitByte d = true)
    (h : ∀ b ∈ ds, isDigitByte b = true) : mhdnOk (45 :: d :: ds) = true := by
  have h2 : mhdnOk (d :: ds) = true := mhdnOk_digits (d :: ds) (by
    intro x hx
    rcases List.mem_cons.mp hx with hx | hx
    · subst hx
      exact hd
    · exact h x hx)
  show (isDigitByte d && mhdnOk (d :: ds)) = true
  rw [hd, h2]
  rfl

theorem partNumByte_digit (b : Nat) (h : isDigitByte b = true) : partNumByte b = true := by
  simp [partNumByte, h]

/-! ## Indexing helpers for the scanner -/

theorem eov_flag_iff (b : Nat) :
    isNumberRune b &&& isEOVFlag ≠ 0 ↔ eovByte b = true := by
  rw [isNumberRune_val]
  simp only [eovByte, isEOVFlag]
  split_ifs with h1 h2 h3 h4 h5 h6 <;>
    simp_all [(by decide : (17 : Nat) &&& 8 = 0), (by decide : (35 : Nat) &&& 8 = 0),
      (by decide : (1 : Nat) &&& 8 = 0), (by decide : (37 : Nat) &&& 8 = 0),
      (by decide : (3 : Nat) &&& 8 = 0), (by decide : (8 : Nat) &&& 8 = 8),
      (by decide : (0 : Nat) &&& 8 = 0)] <;> omega

theorem getD_mem_list (l : List Nat) (n : Nat) (h : n < l.length) : l.getD n 0 ∈ l := by
  rw [List.getD_eq_getElem l 0 h]
  exact List.getElem_mem h

theorem numToken_length_le (buf : List Nat) : (numToken buf).length ≤ buf.length :=
  List.Sublist.length_le (List.takeWhile_sublist partNumByte)

theorem takeWhile_length_gt (p : Nat → Bool) (l : List Nat) : ∀ i, i < l.length →
    (∀ j, j ≤ i → p (l.getD j 0) = true) → i < (l.takeWhile p).length := by
  induction l with
  | nil =>
    intro i hi
    simp at hi
  | cons b bs ih =>
    intro i hi hall
    have hb : p b = true := by
      have := hall 0 (Nat.zero_le i)
      simpa using this
    rw [List.takeWhile_cons, if_pos hb]
    cases i with
    | zero => simp
    | succ k =>
      have hk : k < (bs.takeWhile p).length := by
        apply ih k (by simpa using hi)
        intro j hj
        have := hall (j + 1) (by omega)
        simpa using this
      simpa using hk

theorem mhdnOk_index (l : List Nat) (h : mhdnOk l = true) : ∀ k, k < l.length →
    (l.getD k 0 = 46 ∨ l.getD k 0 = 45) →
    k + 1 < l.length ∧ isDigitByte (l.getD (k + 1) 0) = true := by
  induction l with
  | nil =>
    intro k hk
    simp at hk
  | cons b bs ih =>
    intro k hk hbk
    cases k with
    | zero =>
      simp only [List.getD_cons_zero] at hbk
      cases bs with
      | nil =>
        exfalso
        rw [mhdnOk, if_pos hbk] at h
        simpa using h
      | cons c cs =>
        rw [mhdnOk, if_pos hbk] at h
        simp only [Bool.and_eq_true] at h
        refine ⟨by simp, ?_⟩
        simpa using h.1
    | succ k' =>
      have hmb : mhdnOk bs = true := by
        cases bs with
        | nil => rfl
        | cons c cs =>
          by_cases hb46 : b = 46 ∨ b = 45
          · rw [mhdnOk, if_pos hb46] at h
            simp only [Bool.and_eq_true] at h
            exact h.2
          · rw [mhdnOk, if_neg hb46] at h
            simpa using h
      have := ih hmb k' (by simpa using hk) (by simpa using hbk)
      constructor
      · simp only [List.length_cons]
        omega
      · simpa using this.2

/-! ## JSON integer-shaped literals -/

/-- A nonempty digit string with no leading zero (a single `0` allowed). -/
def noLeadZeroDigits (ds : List Nat) : Bool :=
  !ds.isEmpty && ds.all isDigitByte && (decide (ds.headD 0 ≠ 48) || decide (ds.length = 1))

/-- An integer-shaped JSON literal: an optional minus sign followed by
digits with no leading zero. -/
def jsonIntToken (tok : List Nat) : Bool :=
  if tok.headD 0 = 45 then noLeadZeroDigits tok.tail else noLeadZeroDigits tok

theorem eov_not_part (b : Nat) (h : eovByte b = true) : partNumByte b = false := by
  cases hpp : partNumByte b
  · rfl
  · exact absurd ((isNumberRune_eq_eov_iff _).mpr h) ((partNumByte_iff _).mp hpp).2

theorem intTokVal_natAbs (tok : List Nat) :
    (intTokVal tok).natAbs = digitsVal (intTokDigits tok) := by
  unfold intTokVal
  split_ifs <;> simp

theorem noLeadZeroDigits_parts (ds : List Nat) (h : noLeadZeroDigits ds = true) :
    ds ≠ [] ∧ (∀ b ∈ ds, isDigitByte b = true) ∧ (ds.headD 0 ≠ 48 ∨ ds.length = 1) := by
  unfold noLeadZeroDigits at h
  simp only [Bool.and_eq_true, Bool.not_eq_true', List.isEmpty_eq_false, List.all_eq_true,
    Bool.or_eq_true, decide_eq_true_eq] at h
  exact ⟨h.1.1, h.1.2, h.2⟩

theorem digits_len_le (ds : List Nat) (hall : ∀ b ∈ ds, isDigitByte b = true)
    (hnz : ds.headD 0 ≠ 48 ∨ ds.length = 1) (k : Nat) (hk : 1 ≤ k)
    (hv : digitsVal ds ≤ 10 ^ k - 1) : ds.length ≤ k := by
  by_contra hlen
  push_neg at hlen
  cases ds with
  | nil =>
    simp only [List.length_nil] at hlen
    omega
  | cons d t =>
    rcases hnz with h | h
    · have hd : d ≠ 48 := by simpa using h
      have hge := digitsVal_ge d t hd (hall d (List.mem_cons_self d t))
      have hlt : k ≤ t.length := by
        simp only [List.length_cons] at hlen
        omega
      have hmono := Nat.pow_le_pow_right (show 1 ≤ 10 by norm_num) hlt
      have hkpos : (0 : Nat) < 10 ^ k := Nat.pos_pow_of_pos k (by norm_num)
      omega
    · rw [h] at hlen
      omega

/-- Structural facts about a buffer consisting of an integer-shaped JSON
literal followed by a delimiter (or nothing). -/
theorem jsonInt_setup (tok rest : List Nat) (hj : jsonIntToken tok = true)
    (hr : rest = [] ∨ eovByte (rest.headD 0) = true) :
    scanOk (tok ++ rest) = true ∧ numToken (tok ++ rest) = tok ∧ tok ≠ [] ∧
      intSyntax tok = true ∧ intLeadZero tok = false ∧ hasFloatByte tok = false := by
  have hr' : rest = [] ∨ partNumByte (rest.headD 0) = false := by
    rcases hr with h | h
    · exact Or.inl h
    · exact Or.inr (eov_not_part _ h)
  cases tok with
  | nil => exact absurd hj (by simp [jsonIntToken, noLeadZeroDigits])
  | cons c t =>
    by_cases hc45 : c = 45
    · subst hc45
      have hjt : noLeadZeroDigits t = true := hj
      obtain ⟨ht_ne, ht_all, ht_nz⟩ := noLeadZeroDigits_parts t hjt
      cases t with
      | nil => exact absurd rfl ht_ne
      | cons d ds =>
        have hd : isDigitByte d = true := ht_all d (List.mem_cons_self d ds)
        have hds : ∀ b ∈ ds, isDigitByte b = true :=
          fun b hb => ht_all b (List.mem_cons_of_mem d hb)
        have hp : ∀ b ∈ (45 :: d :: ds : List Nat), partNumByte b = true := by
          intro b hb
          rcases List.mem_cons.mp hb with hb | hb
          · subst hb
            decide
          · exact partNumByte_digit b (ht_all b hb)
        have hint : intSyntax (45 :: d :: ds) = true := by
          show (!(d :: ds).isEmpty && (d :: ds).all isDigitByte) = true
          simp only [Bool.and_eq_true, Bool.not_eq_true', List.isEmpty_eq_false,
            List.all_eq_true]
          exact ⟨by simp, ht_all⟩
        have hmb : hasMinusByte (45 :: d :: ds) = true := by
          rw [intSyntax_minusByte _ hint]
          rfl
        refine ⟨scanOk_append _ _ hp hr (mhdnOk_minus d ds hd hds),
          numToken_append _ _ hp hr', by simp, hint, ?_, intSyntax_noFloatByte _ hint⟩
        · -- leading-zero check: minus branch
          unfold intLeadZero
          rw [if_pos hmb]
          rcases ht_nz with h | h
          · have hgd : ((45 : Nat) :: d :: ds).getD 1 0 = d := rfl
            have hd48 : ¬(((45 : Nat) :: d :: ds).getD 1 0 = 48) := by
              rw [hgd]
              simpa using h
            rw [decide_eq_false hd48]
            simp
          · have hds0 : ds = [] := by
              simp only [List.length_cons] at h
              exact List.length_eq_zero.mp (by omega)
            subst hds0
            simp
    · have hjt : noLeadZeroDigits (c :: t) = true := by
        unfold jsonIntToken at hj
        rwa [if_neg (by simpa using hc45)] at hj
      obtain ⟨ht_ne, ht_all, ht_nz⟩ := noLeadZeroDigits_parts (c :: t) hjt
      have hp : ∀ b ∈ (c :: t : List Nat), partNumByte b = true :=
        fun b hb => partNumByte_digit b (ht_all b hb)
      have hint : intSyntax (c :: t) = true :=
        intSyntax_of_digits _ (by simp) (List.all_eq_true.mpr ht_all)
      have hmb : hasMinusByte (c :: t) = false := by
        rw [intSyntax_minusByte _ hint]
        simp only [intTokNeg, List.headD_cons]
        simp [hc45]
      refine ⟨scanOk_append _ _ hp hr (mhdnOk_digits _ ht_all),
        numToken_append _ _ hp hr', by simp, hint, ?_, intSyntax_noFloatByte _ hint⟩
      · unfold intLeadZero
        rw [if_neg (by simp [hmb])]
        rcases ht_nz with h | h
        · have hc48 : ¬(((c : Nat) :: t).headD 0 = 48) := by
            simpa using h
          rw [decide_eq_false hc48]
          simp
        · have ht0 : t = [] := by
            simp only [List.length_cons] at h
            exact List.length_eq_zero.mp (by omega)
          subst ht0
          simp

/-! ## Aborting scans and rejected rests -/

theorem parseNumber_of_scanLoop_none (buf : List Nat) (h : scanLoop buf 0 0 = none) :
    parseNumber buf = (0, 0) := by
  unfold parseNumber
  rw [h]

theorem scanLoop_abort (buf : List Nat) : ∀ k,
    (buf.getD k 0 = 46 ∨ buf.getD k 0 = 45) → k < buf.length →
    (buf.length ≤ k + 1 ∨ isNumberRune (buf.getD (k + 1) 0) &&& isDigitFlag = 0) →
    (∀ j, j < k → eovByte (buf.getD j 0) = false) →
    ∀ pos found, scanLoop buf pos found = none := by
  induction buf with
  | nil =>
    intro k _ hk
    simp at hk
  | cons v rest ih =>
    intro k hdot hk hnext hbefore pos found
    cases k with
    | zero =>
      simp only [List.getD_cons_zero] at hdot
      have hv : isNumberRune v = 35 ∨ isNumberRune v = 37 := by
        rcases hdot with h | h <;> subst h
        · left; rfl
        · right; rfl
      rw [scanLoop_cons]
      rw [if_neg (by rcases hv with h | h <;> rw [h] <;> decide)]
      rw [if_neg (by rcases hv with h | h <;> rw [h] <;> decide)]
      rw [if_pos]
      constructor
      · rcases hv with h | h <;> rw [h] <;> decide
      · rcases hnext with h | h
        · left
          simp only [List.length_cons] at h
          exact List.length_eq_zero.mp (by omega)
        · right
          have hgd : (v :: rest).getD 1 0 = rest.headD 0 := by
            cases rest <;> rfl
          rw [hgd] at h
          exact h
    | succ k' =>
      have hev : eovByte v = false := by
        have := hbefore 0 (Nat.succ_pos k')
        simpa using this
      rw [scanLoop_cons]
      by_cases h0 : isNumberRune v = 0
      · rw [if_pos h0]
      · rw [if_neg h0]
        have hne : ¬ isNumberRune v = isEOVFlag := fun hc => by
          rw [(isNumberRune_eq_eov_iff v).mp hc] at hev
          exact Bool.noConfusion hev
        rw [if_neg hne]
        by_cases hmh : isNumberRune v &&& isMustHaveDigitNext ≠ 0 ∧
            (rest = [] ∨ isNumberRune (rest.headD 0) &&& isDigitFlag = 0)
        · rw [if_pos hmh]
        · rw [if_neg hmh]
          apply ih k'
          · simpa using hdot
          · simpa using hk
          · rcases hnext with h | h
            · left
              simp only [List.length_cons] at h
              omega
            · right
              simpa using h
          · intro j hj
            have := hbefore (j + 1) (by omega)
            simpa using this

theorem numRest_head (buf : List Nat) (h : (numToken buf).length < buf.length) :
    numRest buf ≠ [] ∧ (numRest buf).headD 0 = buf.getD (numToken buf).length 0 ∧
      partNumByte ((numRest buf).headD 0) = false := by
  induction buf with
  | nil => simp at h
  | cons b t ih =>
    by_cases hp : partNumByte b = true
    · have ht : numToken (b :: t) = b :: numToken t := by
        simp [numToken, List.takeWhile_cons, hp]
      have hrt : numRest (b :: t) = numRest t := by
        simp [numRest, List.dropWhile_cons, hp]
      rw [ht] at h
      simp only [List.length_cons] at h
      have h' : (numToken t).length < t.length := by omega
      obtain ⟨h1, h2, h3⟩ := ih h'
      refine ⟨by rw [hrt]; exact h1, ?_, by rw [hrt]; exact h3⟩
      rw [hrt, ht]
      simp only [List.length_cons, List.getD_cons_succ]
      exact h2
    · have hp' : partNumByte b = false := by simpa using hp
      have ht : numToken (b :: t) = [] := by simp [numToken, List.takeWhile_cons, hp']
      have hrt : numRest (b :: t) = b :: t := by simp [numRest, List.dropWhile_cons, hp']
      rw [hrt, ht]
      exact ⟨by simp, by simp, by simpa using hp'⟩

theorem scanOk_false_of_badRest (buf : List Nat) (h1 : numRest buf ≠ [])
    (h2 : eovByte ((numRest buf).headD 0) = false) : scanOk buf = false := by
  unfold scanOk
  cases hr : numRest buf with
  | nil => exact absurd hr h1
  | cons c cs =>
    rw [hr] at h2
    simp only [List.headD_cons] at h2
    simp [h2]

/-! ## Claims C6-C10 -/

/-- C6 counterexample: in the buffer `5,.` the final `.` byte is not
followed by any byte (let alone a digit), yet the scan does not abort
with the sentinel: it stops at the comma and delivers `Integer 5`.
Bytes at or beyond the first delimiter are never examined. -/
theorem c6_cx :
    ([53, 44, 46] : List Nat).getD 2 0 = 46 ∧
      ([53, 44, 46] : List Nat).length = 3 ∧
      parseNumber [53, 44, 46] = (TagInteger <<< JSONTAGOFFSET, 5) ∧
      parseNumber [53, 44, 46] ≠ (0, 0) := by decide

/-- C6 (amended): `parseNumber` returns the sentinel on `-`, `.`, `1.`,
`-.5` and `1e`; and whenever a `.` or `-` byte that is not immediately
followed (within the buffer) by a byte carrying the Digit flag occurs
with no EndOfValue byte anywhere before it, the scan aborts (the loop
model returns `none`) and the sentinel is returned. -/
theorem c6_amended :
    parseNumber [45] = (0, 0) ∧ parseNumber [46] = (0, 0) ∧
      parseNumber [49, 46] = (0, 0) ∧ parseNumber [45, 46, 53] = (0, 0) ∧
      parseNumber [49, 101] = (0, 0) ∧
      ∀ buf k, (buf.getD k 0 = 46 ∨ buf.getD k 0 = 45) → k < buf.length →
        (buf.length ≤ k + 1 ∨ isNumberRune (buf.getD (k + 1) 0) &&& isDigitFlag = 0) →
        (∀ j, j < k → eovByte (buf.getD j 0) = false) →
        scanLoop buf 0 0 = none ∧ parseNumber buf = (0, 0) := by
  refine ⟨by decide, by decide, by decide, by decide, by decide, ?_⟩
  intro buf k h1 h2 h3 h4
  have hn := scanLoop_abort buf k h1 h2 h3 h4 0 0
  exact ⟨hn, parseNumber_of_scanLoop_none buf hn⟩

/-- C7: scanning `123,` accepts exactly 3 bytes (the comma stops the scan
without being consumed) and resolves to the Integer tag with value 123;
scanning `123` with no delimiter gives the bit-identical pair. -/
theorem c7_delimiter_stop :
    scanLoop [49, 50, 51, 44] 0 0 = some (3, isPartOfNumberFlag ||| isDigitFlag) ∧
      parseNumber [49, 50, 51, 44] = (TagInteger <<< JSONTAGOFFSET, 123) ∧
      parseNumber [49, 50, 51] = parseNumber [49, 50, 51, 44] := by decide

/-- C9: the classifier marks `+` as part of a number without
MustHaveDigitNext, the modelled `strconv.ParseInt` accepts a leading
plus sign, and `parseNumber` consequently resolves `+5` to Integer 5
even though the JSON grammar has no leading `+`. -/
theorem c9_plus_accepted :
    isNumberRune 43 = isPartOfNumberFlag ∧
      isNumberRune 43 &&& isMustHaveDigitNext = 0 ∧
      parseInt64 [43, 53] = StrconvResult.ok (5 : Int) ∧
      parseNumber [43, 53] = (TagInteger <<< JSONTAGOFFSET, 5) := by decide

/-- C10: on the empty buffer, and on any buffer whose first byte carries
exactly the EndOfValue flag, the scanner accepts zero bytes (the loop
returns extent 0 with no flags) and `parseNumber` returns the sentinel
without reaching any numeric parse. -/
theorem c10_empty_or_eov (buf : List Nat)
    (h : buf = [] ∨ isNumberRune (buf.headD 0) = isEOVFlag) :
    scanLoop buf 0 0 = some (0, 0) ∧ parseNumber buf = (0, 0) := by
  have hs : scanLoop buf 0 0 = some (0, 0) := by
    rcases h with h | h
    · subst h
      rfl
    · cases buf with
      | nil => rfl
      | cons v rest =>
        simp only [List.headD_cons] at h
        rw [scanLoop_cons, if_neg (by rw [h]; decide), if_pos h]
  refine ⟨hs, ?_⟩
  unfold parseNumber
  rw [hs]
  rfl

/-- C10 witness: the buffer holding the single delimiter byte `,`. -/
theorem c10_witness : scanLoop [44] 0 0 = some (0, 0) ∧ parseNumber [44] = (0, 0) :=
  c10_empty_or_eov [44] (Or.inr (by decide))

theorem numToken_getD_part (buf : List Nat) (k : Nat) (h : k < (numToken buf).length) :
    partNumByte (buf.getD k 0) = true := by
  rw [getD_numToken buf k h]
  exact List.mem_takeWhile_imp (getD_mem_list (numToken buf) k h)

/-- C8: a byte whose classifier flags are empty, occurring before any
EndOfValue byte, forces the sentinel even when a proper prefix of the
buffer is a valid number; and the classifier maps exactly the bytes
outside the number set and the delimiter set (so every non-ASCII byte
among them) to the empty flag set. -/
theorem c8_bad_byte (buf : List Nat) (k : Nat) (hk : k < buf.length)
    (h0 : isNumberRune (buf.getD k 0) = 0)
    (hbefore : ∀ j, j < k → eovByte (buf.getD j 0) = false) :
    parseNumber buf = (0, 0) ∧
      ∀ b : Nat, isNumberRune b = 0 ↔ partNumByte b = false ∧ eovByte b = false := by
  refine ⟨?_, isNumberRune_eq_zero_iff⟩
  have hkpart : partNumByte (buf.getD k 0) = false := ((isNumberRune_eq_zero_iff _).mp h0).1
  have hlen : (numToken buf).length ≤ k := by
    by_contra hc
    push_neg at hc
    rw [numToken_getD_part buf k hc] at hkpart
    exact Bool.noConfusion hkpart
  have hlt : (numToken buf).length < buf.length := lt_of_le_of_lt hlen hk
  obtain ⟨hne, hhead, _⟩ := numRest_head buf hlt
  have hev : eovByte ((numRest buf).headD 0) = false := by
    rw [hhead]
    rcases Nat.lt_or_ge (numToken buf).length k with hc | hc
    · exact hbefore _ hc
    · have hke : (numToken buf).length = k := le_antisymm hlen hc
      rw [hke]
      exact ((isNumberRune_eq_zero_iff _).mp h0).2
  have hsf : scanOk buf = false := scanOk_false_of_badRest buf hne hev
  apply parseNumber_scanFail
  intro hc
  rw [hsf] at hc
  exact Bool.noConfusion hc.1

/-- C8 witness: the buffer `123x`, whose prefix `123` is a valid number
but whose byte `x` has the empty flag set. -/
theorem c8_witness :
    parseNumber [49, 50, 51, 120] = (0, 0) ∧
      ∀ b : Nat, isNumberRune b = 0 ↔ partNumByte b = false ∧ eovByte b = false :=
  c8_bad_byte [49, 50, 51, 120] 3 (by decide) (by decide)
    (fun j hj => by interval_cases j <;> decide)

/-! ## Claim C5 -/

theorem intSyntax_head_digit_minus (tok : List Nat) (hm : hasMinusByte tok = true)
    (hh : tok.headD 0 = 48) : intSyntax tok = false := by
  cases tok with
  | nil => simp [hasMinusByte] at hm
  | cons c rest =>
    simp only [List.headD_cons] at hh
    subst hh
    show (!(48 :: rest : List Nat).isEmpty && (48 :: rest).all isDigitByte) = false
    have h45 : (45 : Nat) ∈ 48 :: rest := by
      simp only [hasMinusByte, List.any_eq_true, decide_eq_true_eq] at hm
      obtain ⟨b, hb, hbe⟩ := hm
      subst hbe
      exact hb
    have hfa : ((48 : Nat) :: rest).all isDigitByte = false := by
      cases hall : ((48 : Nat) :: rest).all isDigitByte
      · rfl
      · have := List.all_eq_true.mp hall 45 h45
        exact absurd this (by decide)
    rw [hfa]
    simp

theorem floatZero_reject (buf : List Nat) (h1 : 1 < (numToken buf).length)
    (h2 : (numToken buf).headD 0 = 48)
    (h3 : isNumberRune ((numToken buf).getD 1 0) &&& isFloatOnlyFlag = 0) :
    parseNumber buf = (0, 0) := by
  by_cases hsc : scanOk buf = true ∧ numToken buf ≠ []
  · obtain ⟨hs, hn⟩ := hsc
    have hnf : ¬((numToken buf).getD 1 0 = 46 ∨ (numToken buf).getD 1 0 = 101 ∨
        (numToken buf).getD 1 0 = 69) := fun hc => (floatOnly_flag_iff _).mpr hc h3
    push_neg at hnf
    have hflz : floatLeadZero (numToken buf) = true := by
      unfold floatLeadZero
      simp only [Bool.and_eq_true, Bool.not_eq_true', Bool.or_eq_false_iff,
        decide_eq_true_eq, decide_eq_false_iff_not]
      exact ⟨⟨h1, h2⟩, ⟨hnf.1, hnf.2.1⟩, hnf.2.2⟩
    by_cases hfb : hasFloatByte (numToken buf) = true
    · rw [resolve_floatByte buf hs hn hfb, floatResult, if_pos hflz]
    · have hfb' : hasFloatByte (numToken buf) = false := by simpa using hfb
      by_cases hlen : (numToken buf).length ≤ maxIntLen
      · by_cases hm : hasMinusByte (numToken buf) = true
        · by_cases hz : intLeadZero (numToken buf) = true
          · exact resolve_intLeadZero buf hs hn hfb' hlen hz
          · have hz' : intLeadZero (numToken buf) = false := by simpa using hz
            have hint : intSyntax (numToken buf) = false :=
              intSyntax_head_digit_minus _ hm h2
            exact resolve_nonint buf hs hn hfb' hlen hz' hint
        · have hm' : hasMinusByte (numToken buf) = false := by simpa using hm
          have hz : intLeadZero (numToken buf) = true := by
            unfold intLeadZero
            rw [if_neg (by simp [hm'])]
            simp only [Bool.and_eq_true, decide_eq_true_eq]
            exact ⟨h1, h2⟩
          exact resolve_intLeadZero buf hs hn hfb' hlen hz
      · push_neg at hlen
        rw [resolve_long buf hs hn hfb' hlen, floatResult, if_pos hflz]
  · exact parseNumber_scanFail buf hsc

/-- C5 counterexample: the 22-byte integer-shaped buffer `-` followed by
twenty `0`s and a `5` has a minus, extent over 2 and a `0` right after
the minus, yet `parseNumber` does not return the sentinel: the extent
exceeds 20, the integer path (and its leading-zero rule) is skipped, and
the float fallback accepts the literal, yielding the bits of `-5.0` with
the overflowed-integer annotation. -/
theorem c5_cx :
    hasFloatByte (numToken (45 :: List.replicate 20 48 ++ [53])) = false ∧
      hasMinusByte (numToken (45 :: List.replicate 20 48 ++ [53])) = true ∧
      2 < (numToken (45 :: List.replicate 20 48 ++ [53])).length ∧
      (numToken (45 :: List.replicate 20 48 ++ [53])).getD 1 0 = 48 ∧
      parseNumber (45 :: List.replicate 20 48 ++ [53]) =
        (TagFloat <<< JSONTAGOFFSET ||| FloatOverflowedInteger, 13840687554816376832) := by
  decide

/-- C5 (amended): the sentinel/success pattern on the seven concrete
inputs is as claimed; the integer-path leading-zero rules (no-minus:
extent over 1 starting `0`; minus: extent over 2 with `0` after the
minus) force the sentinel for integer-shaped tokens of extent at most
20 (beyond 20 the integer path and its rules are skipped); and for every
token of extent over 1 starting with `0` whose second byte does not
carry FloatOnly, the float-path check forces the sentinel. -/
theorem c5_amended :
    parseNumber [48, 49] = (0, 0) ∧
      parseNumber [45, 48, 48] = (0, 0) ∧
      parseNumber [48, 48, 46, 53] = (0, 0) ∧
      parseNumber [48] = (TagInteger <<< JSONTAGOFFSET, 0) ∧
      parseNumber [45, 48] = (TagInteger <<< JSONTAGOFFSET, 0) ∧
      parseNumber [48, 46, 53] ≠ (0, 0) ∧
      parseNumber [48, 101, 53] ≠ (0, 0) ∧
      (∀ buf, hasFloatByte (numToken buf) = false → (numToken buf).length ≤ maxIntLen →
        ((hasMinusByte (numToken buf) = false → 1 < (numToken buf).length →
            (numToken buf).headD 0 = 48 → parseNumber buf = (0, 0)) ∧
          (hasMinusByte (numToken buf) = true → 2 < (numToken buf).length →
            (numToken buf).getD 1 0 = 48 → parseNumber buf = (0, 0)))) ∧
      (∀ buf, 1 < (numToken buf).length → (numToken buf).headD 0 = 48 →
        isNumberRune ((numToken buf).getD 1 0) &&& isFloatOnlyFlag = 0 →
        parseNumber buf = (0, 0)) := by
  refine ⟨by decide, by decide, by decide, by decide, by decide, by decide, by decide, ?_, ?_⟩
  · intro buf hfb hlen
    constructor
    · intro hm h1 h2
      by_cases hsc : scanOk buf = true ∧ numToken buf ≠ []
      · refine resolve_intLeadZero buf hsc.1 hsc.2 hfb hlen ?_
        unfold intLeadZero
        rw [if_neg (by simp [hm])]
        simp only [Bool.and_eq_true, decide_eq_true_eq]
        exact ⟨h1, h2⟩
      · exact parseNumber_scanFail buf hsc
    · intro hm h1 h2
      by_cases hsc : scanOk buf = true ∧ numToken buf ≠ []
      · refine resolve_intLeadZero buf hsc.1 hsc.2 hfb hlen ?_
        unfold intLeadZero
        rw [if_pos hm]
        simp only [Bool.and_eq_true, decide_eq_true_eq]
        exact ⟨h1, h2⟩
      · exact parseNumber_scanFail buf hsc
  · exact floatZero_reject

/-! ## Claim C3 -/

theorem jsonIntToken_parts (tok : List Nat) (hj : jsonIntToken tok = true) :
    noLeadZeroDigits (intTokDigits tok) = true ∧ tok.headD 0 ≠ 43 ∧
      ((intTokNeg tok = true ∧ tok = 45 :: intTokDigits tok) ∨
        (intTokNeg tok = false ∧ intTokDigits tok = tok)) := by
  unfold jsonIntToken at hj
  by_cases h45 : tok.headD 0 = 45
  · cases tok with
    | nil => simp at h45
    | cons c t =>
      simp only [List.headD_cons] at h45
      subst h45
      rw [if_pos (show ((45 : Nat) :: t).headD 0 = 45 from rfl)] at hj
      have hd : intTokDigits (45 :: t) = t := by
        unfold intTokDigits
        rw [if_pos (Or.inr (show ((45 : Nat) :: t).headD 0 = 45 from rfl))]
        rfl
      rw [hd]
      refine ⟨hj, fun hc => by simp at hc, Or.inl ⟨?_, rfl⟩⟩
      unfold intTokNeg
      simp
  · rw [if_neg h45] at hj
    obtain ⟨hne, hall, _⟩ := noLeadZeroDigits_parts tok hj
    have h43 : tok.headD 0 ≠ 43 := by
      intro hc
      cases tok with
      | nil => exact hne rfl
      | cons c t =>
        simp only [List.headD_cons] at hc
        subst hc
        have := hall 43 (List.mem_cons_self _ _)
        exact absurd this (by decide)
    have hd : intTokDigits tok = tok := by
      unfold intTokDigits
      rw [if_neg (by push_neg; exact ⟨h43, h45⟩)]
    rw [hd]
    refine ⟨hj, h43, Or.inr ⟨?_, rfl⟩⟩
    unfold intTokNeg
    exact decide_eq_false h45

/-- C3 counterexample: `01` is an integer-shaped literal (optional minus
then digits, no float byte, terminated by the end of the buffer) whose
value 1 is well inside the int64 range, yet `parseNumber` returns the
sentinel instead of the Integer tag: the claim omits the leading-zero
restriction enforced by the code. -/
theorem c3_cx :
    intSyntax [48, 49] = true ∧ hasFloatByte [48, 49] = false ∧
      intTokVal [48, 49] = 1 ∧ parseNumber [48, 49] = (0, 0) := by decide

/-- C3 (amended): for every integer-shaped literal with no leading zero
(optional minus then digits, a lone `0` allowed) terminated by an
EndOfValue byte or the end of the buffer, when the magnitude is at most
`2 ^ 63 - 1` the result is the Integer tag holding the exact
two's-complement value, and when there is no minus sign and the value
lies in `(2 ^ 63 - 1, 2 ^ 64 - 1]` the result is the Uint tag holding
the exact value. -/
theorem c3_amended (tok rest : List Nat) (hj : jsonIntToken tok = true)
    (hr : rest = [] ∨ eovByte (rest.headD 0) = true) :
    (digitsVal (intTokDigits tok) ≤ 2 ^ 63 - 1 →
      parseNumber (tok ++ rest) =
        (TagInteger <<< JSONTAGOFFSET, uint64OfInt (intTokVal tok))) ∧
    (intTokNeg tok = false → 2 ^ 63 - 1 < digitsVal (intTokDigits tok) →
      digitsVal (intTokDigits tok) ≤ 2 ^ 64 - 1 →
      parseNumber (tok ++ rest) =
        (TagUint <<< JSONTAGOFFSET, digitsVal (intTokDigits tok))) := by
  obtain ⟨hs, hnum, hne, hint, hz, hfb⟩ := jsonInt_setup tok rest hj hr
  obtain ⟨hnlz, h43, hcase⟩ := jsonIntToken_parts tok hj
  obtain ⟨hdne, hdall', hdz⟩ := noLeadZeroDigits_parts _ hnlz
  have hdall : (intTokDigits tok).all isDigitByte = true := List.all_eq_true.mpr hdall'
  have hnn : numToken (tok ++ rest) ≠ [] := by rw [hnum]; exact hne
  have hff : hasFloatByte (numToken (tok ++ rest)) = false := by rw [hnum]; exact hfb
  have hzz : intLeadZero (numToken (tok ++ rest)) = false := by rw [hnum]; exact hz
  constructor
  · intro hval
    have hdlen : (intTokDigits tok).length ≤ 19 := by
      apply digits_len_le _ hdall' hdz 19 (by norm_num)
      have hb : (2 : Nat) ^ 63 - 1 ≤ 10 ^ 19 - 1 := by norm_num
      omega
    have hlen : (numToken (tok ++ rest)).length ≤ maxIntLen := by
      rw [hnum]
      rcases hcase with ⟨_, he⟩ | ⟨_, he⟩
      · rw [he]
        simp only [List.length_cons]
        unfold maxIntLen
        omega
      · rw [← he]
        unfold maxIntLen
        omega
    have hok : parseInt64 (numToken (tok ++ rest)) = .ok (intTokVal tok) := by
      rw [hnum, parseInt64_char tok hint]
      by_cases hneg : intTokNeg tok = true
      · rw [if_pos hneg, if_pos (by omega)]
      · rw [if_neg hneg, if_pos hval]
    exact resolve_int_ok (tok ++ rest) hs hnn hff hlen hzz _ hok
  · intro hneg hlow hhigh
    have htok_eq : intTokDigits tok = tok := by
      rcases hcase with ⟨ht, _⟩ | ⟨_, he⟩
      · rw [ht] at hneg
        exact Bool.noConfusion hneg
      · exact he
    have hdlen : (intTokDigits tok).length ≤ 20 := by
      apply digits_len_le _ hdall' hdz 20 (by norm_num)
      have hb : (2 : Nat) ^ 64 - 1 ≤ 10 ^ 20 - 1 := by norm_num
      omega
    have hlen : (numToken (tok ++ rest)).length ≤ maxIntLen := by
      rw [hnum, ← htok_eq]
      unfold maxIntLen
      omega
    have hrange : parseInt64 (numToken (tok ++ rest)) = .rangeErr := by
      rw [hnum, parseInt64_char tok hint]
      rw [if_neg (fun hc => by rw [hneg] at hc; exact Bool.noConfusion hc)]
      rw [if_neg (by omega)]
    have hmb : hasMinusByte (numToken (tok ++ rest)) = false := by
      rw [hnum, intSyntax_minusByte tok hint]
      exact hneg
    have hu : parseUint64 (numToken (tok ++ rest)) = .ok (digitsVal (intTokDigits tok)) := by
      rw [hnum]
      calc parseUint64 tok = .ok (digitsVal tok) :=
            parseUint64_ok tok hne (by rw [← htok_eq]; exact hdall)
              (by rw [← htok_eq]; exact hhigh)
        _ = .ok (digitsVal (intTokDigits tok)) := by rw [htok_eq]
    exact resolve_uint_ok (tok ++ rest) hs hnn hff hlen hzz hrange hmb _ hu

/-- C3 witness: `42,` resolves to Integer 42, and the 20-digit literal
`18446744073709551615` (the unsigned maximum) resolves to the Uint tag
with the exact value. -/
theorem c3_witness :
    parseNumber ([52, 50] ++ [44]) =
        (TagInteger <<< JSONTAGOFFSET, uint64OfInt (intTokVal [52, 50])) ∧
      parseNumber
          ([49, 56, 52, 52, 54, 55, 52, 52, 48, 55, 51, 55, 48, 57, 53, 53, 49, 54, 49, 53] ++
            ([] : List Nat)) =
        (TagUint <<< JSONTAGOFFSET,
          digitsVal (intTokDigits
            [49, 56, 52, 52, 54, 55, 52, 52, 48, 55, 51, 55, 48, 57, 53, 53, 49, 54, 49, 53])) :=
  ⟨(c3_amended [52, 50] [44] (by decide) (Or.inr (by decide))).1 (by decide),
    (c3_amended [49, 56, 52, 52, 54, 55, 52, 52, 48, 55, 51, 55, 48, 57, 53, 53, 49, 54, 49, 53]
      [] (by decide) (Or.inl rfl)).2 (by decide) (by decide) (by decide)⟩

/-! ## Claim C4 -/

/-- C4 counterexample: `1` followed by four hundred `0`s is an
integer-shaped literal with no leading zero whose value exceeds the
unsigned maximum and whose extent exceeds 20, yet `parseNumber` returns
the sentinel rather than an overflow-annotated float: the value's
nearest double overflows to infinity, so the float fallback fails. -/
theorem c4_cx :
    jsonIntToken (49 :: List.replicate 400 48) = true ∧
      2 ^ 64 - 1 < digitsVal (intTokDigits (49 :: List.replicate 400 48)) ∧
      parseNumber (49 :: List.replicate 400 48) = (0, 0) := by decide

/-- C4 (amended): for every integer-shaped literal with no leading zero
whose value exceeds `2 ^ 64 - 1` — whether its extent is at most 20 and
both 64-bit integer parses fail with a range error, or its extent
exceeds 20 so that integer parsing is skipped — whenever the value's
nearest binary64 value is finite, `parseNumber` returns the Float tag
with the OverflowedInteger bit and the bits of that nearest double. -/
theorem c4_amended (tok rest : List Nat) (hj : jsonIntToken tok = true)
    (hr : rest = [] ∨ eovByte (rest.headD 0) = true)
    (hbig : 2 ^ 64 - 1 < digitsVal (intTokDigits tok)) (mag : Nat)
    (hmag : nearestDoubleBits (digitsVal (intTokDigits tok)) 1 = some mag) :
    parseNumber (tok ++ rest) =
      (TagFloat <<< JSONTAGOFFSET ||| FloatOverflowedInteger,
        (if intTokNeg tok then 2 ^ 63 else 0) + mag) := by
  obtain ⟨hs, hnum, hne, hint, hz, hfb⟩ := jsonInt_setup tok rest hj hr
  obtain ⟨hnlz, h43, hcase⟩ := jsonIntToken_parts tok hj
  obtain ⟨hdne, hdall', hdz⟩ := noLeadZeroDigits_parts _ hnlz
  have hdall : (intTokDigits tok).all isDigitByte = true := List.all_eq_true.mpr hdall'
  have hnn : numToken (tok ++ rest) ≠ [] := by rw [hnum]; exact hne
  have hff : hasFloatByte (numToken (tok ++ rest)) = false := by rw [hnum]; exact hfb
  have hzz : intLeadZero (numToken (tok ++ rest)) = false := by rw [hnum]; exact hz
  by_cases hlen : (numToken (tok ++ rest)).length ≤ maxIntLen
  · have hintn : intSyntax (numToken (tok ++ rest)) = true := by rw [hnum]; exact hint
    have hfall := intSyntax_fallback (tok ++ rest) hs hnn hintn hlen hzz (by
      rw [hnum]
      rcases hcase with ⟨hneg, _⟩ | ⟨hneg, _⟩
      · exact Or.inl ⟨hneg, by omega⟩
      · exact Or.inr (Or.inr ⟨hneg, h43, hbig⟩))
    obtain ⟨mag', hmag', hres⟩ := hfall
    rw [hnum] at hmag' hres
    rw [hmag] at hmag'
    injection hmag' with hmm
    rw [← hmm] at hres
    exact hres
  · push_neg at hlen
    have hres := resolve_long (tok ++ rest) hs hnn hff hlen
    rw [hnum] at hres
    rw [hres]
    have hdlen2 : 2 ≤ (intTokDigits tok).length := by
      by_contra hc
      push_neg at hc
      have hlt := digitsVal_lt (intTokDigits tok) hdall
      have hple : (10 : Nat) ^ (intTokDigits tok).length ≤ 10 ^ 1 :=
        Nat.pow_le_pow_right (by norm_num) (by omega)
      have hten : (10 : Nat) ^ 1 = 10 := by norm_num
      omega
    have hh48 : tok.headD 0 ≠ 48 := by
      rcases hcase with ⟨hneg, he⟩ | ⟨hneg, he⟩
      · rw [he]
        simp
      · rw [← he]
        rcases hdz with h | h
        · exact h
        · omega
    have hflz : floatLeadZero tok = false := by
      unfold floatLeadZero
      rw [decide_eq_false hh48]
      simp
    rw [floatResult, if_neg (by simp [hflz])]
    have hpf : parseFloat64 tok = some ((if intTokNeg tok then 2 ^ 63 else 0) + mag) := by
      have h1 : parseFloat64 tok =
          match nearestDoubleBits (digitsVal (intTokDigits tok)) 1 with
          | none => none
          | some m => some ((if intTokNeg tok then 2 ^ 63 else 0) + m) := by
        rw [parseFloat64, readFloatLit_intSyntax tok hint]
      rw [h1, hmag]
    rw [hpf]

/-- C4 witness: the 20-digit literal `18446744073709551616` (one past
the unsigned maximum) resolves to the overflow-annotated Float tag whose
value word holds the bits of the double `2 ^ 64`. -/
theorem c4_witness :
    parseNumber
        ([49, 56, 52, 52, 54, 55, 52, 52, 48, 55, 51, 55, 48, 57, 53, 53, 49, 54, 49, 54] ++
          ([] : List Nat)) =
      (TagFloat <<< JSONTAGOFFSET ||| FloatOverflowedInteger,
        (if intTokNeg [49, 56, 52, 52, 54, 55, 52, 52, 48, 55, 51, 55, 48, 57, 53, 53, 49, 54, 49, 54]
          then 2 ^ 63 else 0) + 4895412794951729152) :=
  c4_amended [49, 56, 52, 52, 54, 55, 52, 52, 48, 55, 51, 55, 48, 57, 53, 53, 49, 54, 49, 54]
    [] (by decide) (Or.inl rfl) (by decide) 4895412794951729152 (by decide)

/-! ## The standard JSON number grammar

Stated from the spec's words (RFC 8259 `number`): an optional minus, an
integer part with no leading zero, an optional fraction with at least
one digit, an optional exponent `e`/`E` with optional sign and at least
one digit.  This is the spec-side grammar the claims compare the code's
acceptance against. -/

/-- Exponent part of a JSON number: empty, or `e`/`E`, an optional sign
and at least one digit reaching the end of the token. -/
def jsonExpPart (l : List Nat) : Bool :=
  match l with
  | [] => true
  | c :: r =>
    (decide (c = 101) || decide (c = 69)) &&
      (let r2 := if r.headD 0 = 43 ∨ r.headD 0 = 45 then r.tail else r
       !r2.isEmpty && r2.all isDigitByte)

/-- Fraction-then-exponent tail of a JSON number: an optional `.` with
at least one digit, then an exponent part. -/
def jsonFracExp (l : List Nat) : Bool :=
  if l.headD 0 = 46 then
    !(l.tail.takeWhile isDigitByte).isEmpty &&
      jsonExpPart (l.tail.dropWhile isDigitByte)
  else jsonExpPart l

/-- A syntactically valid JSON number token. -/
def jsonNumToken (tok : List Nat) : Bool :=
  let t1 := if tok.headD 0 = 45 then tok.tail else tok
  noLeadZeroDigits (t1.takeWhile isDigitByte) && jsonFracExp (t1.dropWhile isDigitByte)

/-- C1 counterexample: the buffer `+5` scans completely into the token
`+5`, which is not a valid JSON number (the grammar has no leading
plus), yet `parseNumber` does not return the sentinel. -/
theorem c1_cx :
    scanOk [43, 53] = true ∧ numToken [43, 53] = [43, 53] ∧
      jsonNumToken [43, 53] = false ∧ parseNumber [43, 53] ≠ (0, 0) := by decide

/-- C1 (amended): `parseNumber` returns the sentinel exactly when the
buffer fails `acceptsNumber`: the scan must run to completion with a
nonempty token, and the token must pass the resolver's own grammar —
integer-shaped tokens of extent at most 20 need integer syntax (which,
unlike JSON, admits a leading `+`) and no leading zero; longer
integer-shaped tokens and float-shaped tokens must pass the float
leading-zero rule and round to a finite double.  Every other returned
pair corresponds to a resolved number, but the accepted token language
is not the JSON number grammar. -/
theorem c1_amended (buf : List Nat) :
    parseNumber buf = (0, 0) ↔ acceptsNumber buf = false := by
  constructor
  · intro h
    cases ha : acceptsNumber buf
    · rfl
    · exact absurd h (accepts_nonsentinel buf ha)
  · intro h
    exact nonaccept_sentinel buf h

/-! ## Decoding binary64 bit patterns

The inverse direction of the conversion: the exact rational value a
finite bit pattern denotes.  Used to state that rounding an exactly
representable value returns that value. -/

/-- Rational value denoted by a sign-less binary64 bit pattern
(exponent and fraction fields); `none` for the infinity/NaN exponent
and for patterns with the sign bit set. -/
def decodeDoubleMag (mag : Nat) : Option ℚ :=
  if mag < 2 ^ 63 then
    let e : Nat := mag / 2 ^ 52
    let f : Nat := mag % 2 ^ 52
    if e = 2047 then none
    else if e = 0 then some ((f : ℚ) * (2 : ℚ) ^ (-1074 : Int))
    else some (((2 ^ 52 + f : Nat) : ℚ) * (2 : ℚ) ^ ((e : Int) - 1075))
  else none

/-- Rational value denoted by a full binary64 bit pattern, sign
included; `none` for infinities and NaNs. -/
def decodeDoubleBits (bits : Nat) : Option ℚ :=
  match decodeDoubleMag (bits % 2 ^ 63) with
  | none => none
  | some q => some ((if 2 ^ 63 ≤ bits % 2 ^ 64 then (-1 : ℚ) else 1) * q)

/-- The mathematical value of a JSON number token, read off the
grammar: sign, integer digits, fraction digits and decimal exponent. -/
def jsonNumValQ (tok : List Nat) : ℚ :=
  let t1 := if tok.headD 0 = 45 then tok.tail else tok
  let ip := t1.takeWhile isDigitByte
  let r1 := t1.dropWhile isDigitByte
  let fp := if r1.headD 0 = 46 then r1.tail.takeWhile isDigitByte else []
  let r2 := if r1.headD 0 = 46 then r1.tail.dropWhile isDigitByte else r1
  let ex : Int :=
    match r2 with
    | [] => 0
    | _ :: r3 =>
      (if r3.headD 0 = 45 then -1 else 1) *
        (digitsVal (if r3.headD 0 = 43 ∨ r3.headD 0 = 45 then r3.tail else r3) : Int)
  (if tok.headD 0 = 45 then (-1 : ℚ) else 1) * (digitsVal (ip ++ fp) : ℚ) *
    (10 : ℚ) ^ (ex - (fp.length : Int))

theorem scale10_val (m : Nat) (e : Int) :
    0 < (scale10 m e).2 ∧
      (((scale10 m e).1 : ℚ) / ((scale10 m e).2 : ℚ) = (m : ℚ) * (10 : ℚ) ^ e) := by
  unfold scale10
  split_ifs with h
  · refine ⟨one_pos, ?_⟩
    simp only [Nat.cast_one, div_one]
    have hz : (10 : ℚ) ^ e = (10 : ℚ) ^ (e.toNat : Nat) := by
      rw [← zpow_natCast, Int.toNat_of_nonneg h]
    rw [hz]
    push_cast
    ring
  · push_neg at h
    refine ⟨Nat.pos_pow_of_pos _ (by norm_num), ?_⟩
    simp only
    have hz : (10 : ℚ) ^ e = ((10 : ℚ) ^ ((-e).toNat : Nat))⁻¹ := by
      rw [← zpow_natCast, ← zpow_neg]
      congr 1
      rw [Int.toNat_of_nonneg (by omega)]
      ring
    rw [hz]
    push_cast
    rw [div_eq_mul_inv]

theorem rndHalfEven_exact (k b : Nat) (hb : 0 < b) : rndHalfEven (k * b) b = k := by
  unfold rndHalfEven
  have ht : k * b / b = k := Nat.mul_div_cancel k hb
  have hr : k * b % b = 0 := Nat.mul_mod_left k b
  simp only [ht, hr]
  rw [if_pos (by omega)]

theorem ratLog2_unique (num den : Nat) (hn : 0 < num) (hd : 0 < den) (k : Int)
    (h1 : (2 : ℚ) ^ k ≤ (num : ℚ) / (den : ℚ))
    (h2 : (num : ℚ) / (den : ℚ) < (2 : ℚ) ^ (k + 1)) :
    ratLog2 num den = k := by
  obtain ⟨hl, hu⟩ := ratLog2_correct num den hn hd
  by_contra hc
  rcases lt_or_gt_of_ne hc with h | h
  · have hle : (2 : ℚ) ^ (ratLog2 num den + 1) ≤ (2 : ℚ) ^ k :=
      zpow_le_zpow_right₀ (by norm_num) (by omega)
    linarith
  · have hle : (2 : ℚ) ^ (k + 1) ≤ (2 : ℚ) ^ ratLog2 num den :=
      zpow_le_zpow_right₀ (by norm_num) (by omega)
    linarith

theorem cast_pow_toNat (E : Int) (hE : 0 ≤ E) :
    ((2 ^ E.toNat : Nat) : ℚ) = (2 : ℚ) ^ E := by
  push_cast
  rw [← zpow_natCast, Int.toNat_of_nonneg hE]

theorem cast_pow_toNat_neg (E : Int) (hE : E < 0) :
    ((2 ^ (-E).toNat : Nat) : ℚ) = (2 : ℚ) ^ (-E) := by
  push_cast
  rw [← zpow_natCast, Int.toNat_of_nonneg (by omega)]


/-- Rounding a rational that is exactly the value of a finite binary64
bit pattern returns exactly that pattern: the conversion is the identity
on representable values. -/
theorem round_exact (num den mag : Nat) (hd : 0 < den)
    (hq : decodeDoubleMag mag = some ((num : ℚ) / (den : ℚ))) :
    nearestDoubleBits num den = some mag := by
  have hdq : (0 : ℚ) < (den : ℚ) := by exact_mod_cast hd
  unfold decodeDoubleMag at hq
  by_cases hm63 : mag < 2 ^ 63
  swap
  · rw [if_neg hm63] at hq
    exact Option.noConfusion hq
  rw [if_pos hm63] at hq
  simp only at hq
  by_cases he2047 : mag / 2 ^ 52 = 2047
  · rw [if_pos he2047] at hq
    exact Option.noConfusion hq
  rw [if_neg he2047] at hq
  by_cases he0 : mag / 2 ^ 52 = 0
  · -- subnormal (or zero) pattern
    rw [if_pos he0] at hq
    injection hq with hval
    have hmf : mag % 2 ^ 52 = mag := by omega
    rw [hmf] at hval
    by_cases hmag0 : mag = 0
    · subst hmag0
      have hnum0 : num = 0 := by
        have h0 : (num : ℚ) / (den : ℚ) = 0 := by
          rw [← hval]
          push_cast
          ring
        rcases div_eq_zero_iff.mp h0 with h | h
        · exact_mod_cast h
        · exact absurd h (by positivity)
      subst hnum0
      unfold nearestDoubleBits
      rw [if_pos rfl]
    · have hqpos : (0 : ℚ) < (num : ℚ) / (den : ℚ) := by
        rw [← hval]
        have hmq : (0 : ℚ) < (mag : ℚ) := by
          exact_mod_cast Nat.pos_of_ne_zero hmag0
        positivity
      have hnum : 0 < num := by
        by_contra hc
        push_neg at hc
        have h0 : num = 0 := by omega
        rw [h0] at hqpos
        simp at hqpos
      have hsmall : (num : ℚ) / (den : ℚ) < (2 : ℚ) ^ (-1022 : Int) := by
        rw [← hval]
        have hmlt : (mag : ℚ) < ((2 ^ 52 : Nat) : ℚ) := by
          exact_mod_cast (by omega : mag < 2 ^ 52)
        calc (mag : ℚ) * (2 : ℚ) ^ (-1074 : Int)
            < ((2 ^ 52 : Nat) : ℚ) * (2 : ℚ) ^ (-1074 : Int) := by
              exact mul_lt_mul_of_pos_right hmlt (by positivity)
          _ = (2 : ℚ) ^ (-1022 : Int) := by norm_num
      have he1 : ratLog2 num den < -1022 :=
        ratLog2_lt num den hnum hd _ hsmall
      unfold nearestDoubleBits
      rw [if_neg (by omega)]
      simp only
      rw [if_pos he1]
      have hscale : num * 2 ^ 1074 = mag * den := by
        have hinv : ((2:ℚ) ^ (-1074 : Int)) * ((2:ℚ) ^ (1074 : Nat)) = 1 := by
          rw [← zpow_natCast 2 1074, ← zpow_add₀ (by norm_num : (2 : ℚ) ≠ 0)]
          norm_num
        have h3 : (num : ℚ) = (mag : ℚ) * (2:ℚ) ^ (-1074 : Int) * (den : ℚ) := by
          rw [hval, div_mul_cancel₀ _ (ne_of_gt hdq)]
        have hq2 : (num : ℚ) * (2 : ℚ) ^ (1074 : Nat) = (mag : ℚ) * (den : ℚ) := by
          calc (num : ℚ) * (2 : ℚ) ^ (1074 : Nat)
              = (mag : ℚ) * (den : ℚ) * (((2:ℚ) ^ (-1074 : Int)) * ((2:ℚ) ^ (1074 : Nat))) := by
                rw [h3]; ring
            _ = (mag : ℚ) * (den : ℚ) := by rw [hinv, mul_one]
        have hc : ((num * 2 ^ 1074 : Nat) : ℚ) = ((mag * den : Nat) : ℚ) := by
          push_cast
          push_cast at hq2
          linarith [hq2]
        exact_mod_cast hc
      rw [hscale, rndHalfEven_exact mag den hd]
  · -- normal pattern
    rw [if_neg he0] at hq
    injection hq with hval
    set e : Nat := mag / 2 ^ 52 with hedef
    set f : Nat := mag % 2 ^ 52 with hfdef
    set M : Nat := 2 ^ 52 + f with hMdef
    set E : Int := (e : Int) - 1075 with hEdef
    have he_lt : e < 2047 := by
      have h11 : mag / 2 ^ 52 < 2 ^ 11 := by omega
      omega
    have he_ge : 1 ≤ e := by omega
    have hf_lt : f < 2 ^ 52 := Nat.mod_lt _ (by norm_num)
    have hM_lo : 2 ^ 52 ≤ M := by omega
    have hM_hi : M < 2 ^ 53 := by omega
    have hval' : (num : ℚ) / (den : ℚ) = (M : ℚ) * (2 : ℚ) ^ E := by
      rw [← hval]
    have hMq_lo : ((2 ^ 52 : Nat) : ℚ) ≤ (M : ℚ) := by exact_mod_cast hM_lo
    have hMq_hi : (M : ℚ) < ((2 ^ 53 : Nat) : ℚ) := by exact_mod_cast hM_hi
    have hnum : 0 < num := by
      by_contra hc
      push_neg at hc
      have h0 : num = 0 := by omega
      have hpos : (0 : ℚ) < (num : ℚ) / (den : ℚ) := by
        rw [hval']
        have hMpos : (0 : ℚ) < (M : ℚ) := by
          exact_mod_cast (by omega : 0 < M)
        positivity
      rw [h0] at hpos
      simp at hpos
    have he1 : ratLog2 num den = 52 + E := by
      apply ratLog2_unique num den hnum hd
      · rw [hval']
        calc (2 : ℚ) ^ (52 + E) = (2 : ℚ) ^ (52 : Int) * (2 : ℚ) ^ E := by
              rw [← zpow_add₀ (by norm_num : (2 : ℚ) ≠ 0)]
          _ ≤ (M : ℚ) * (2 : ℚ) ^ E := by
              have h52 : ((2 ^ 52 : Nat) : ℚ) = (2 : ℚ) ^ (52 : Int) := by norm_num
              rw [← h52]
              exact mul_le_mul_of_nonneg_right hMq_lo (by positivity)
      · rw [hval']
        have h53 : ((2 ^ 53 : Nat) : ℚ) = (2 : ℚ) ^ (53 : Int) := by norm_num
        calc (M : ℚ) * (2 : ℚ) ^ E < ((2 ^ 53 : Nat) : ℚ) * (2 : ℚ) ^ E := by
              exact mul_lt_mul_of_pos_right hMq_hi (by positivity)
          _ = (2 : ℚ) ^ (52 + E + 1) := by
              rw [h53, ← zpow_add₀ (by norm_num : (2 : ℚ) ≠ 0)]
              ring_nf
    have hE_ge : -1074 ≤ E := by omega
    have hE_le : E ≤ 971 := by omega
    unfold nearestDoubleBits
    rw [if_neg (by omega)]
    simp only
    rw [if_neg (by rw [he1]; omega)]
    rw [he1]
    have hsh : 52 + E - 52 = E := by ring
    rw [hsh]
    have hmain : (if 0 ≤ E then num else num * 2 ^ (-E).toNat) =
        M * (if 0 ≤ E then den * 2 ^ E.toNat else den) := by
      by_cases hE : 0 ≤ E
      · rw [if_pos hE, if_pos hE]
        have hq2 : (num : ℚ) = (M : ℚ) * (((2 ^ E.toNat : Nat)) : ℚ) * (den : ℚ) := by
          have h3 := hval'
          rw [div_eq_iff (ne_of_gt hdq)] at h3
          rw [h3]
          congr 2
          push_cast
          rw [← zpow_natCast, Int.toNat_of_nonneg hE]
        have hc : ((num : Nat) : ℚ) = ((M * (den * 2 ^ E.toNat) : Nat) : ℚ) := by
          push_cast
          push_cast at hq2
          linarith [hq2]
        exact_mod_cast hc
      · push_neg at hE
        rw [if_neg (by omega), if_neg (by omega)]
        have hinv : ((2:ℚ) ^ E) * ((2:ℚ) ^ ((-E).toNat : Nat)) = 1 := by
          rw [← zpow_natCast 2 ((-E).toNat), ← zpow_add₀ (by norm_num : (2 : ℚ) ≠ 0)]
          rw [Int.toNat_of_nonneg (by omega)]
          norm_num
        have h3 : (num : ℚ) = (M : ℚ) * (2 : ℚ) ^ E * (den : ℚ) := by
          rw [← hval', div_mul_cancel₀ _ (ne_of_gt hdq)]
        have hq2 : (num : ℚ) * ((2:ℚ) ^ ((-E).toNat : Nat)) = (M : ℚ) * (den : ℚ) := by
          calc (num : ℚ) * ((2:ℚ) ^ ((-E).toNat : Nat))
              = (M : ℚ) * (den : ℚ) * (((2:ℚ) ^ E) * ((2:ℚ) ^ ((-E).toNat : Nat))) := by
                rw [h3]; ring
            _ = (M : ℚ) * (den : ℚ) := by rw [hinv, mul_one]
        have hc : ((num * 2 ^ (-E).toNat : Nat) : ℚ) = ((M * den : Nat) : ℚ) := by
          push_cast
          push_cast at hq2
          linarith [hq2]
        exact_mod_cast hc
    rw [hmain]
    have hbpos : 0 < (if 0 ≤ E then den * 2 ^ E.toNat else den) := by
      split_ifs
      · exact Nat.mul_pos hd (Nat.pos_pow_of_pos _ (by norm_num))
      · exact hd
    rw [rndHalfEven_exact M _ hbpos]
    rw [if_pos (by omega : M < 2 ^ 53)]
    rw [if_neg (by omega : ¬(1023 : Int) < 52 + E)]
    have heE : (52 + E + 1023).toNat = e := by omega
    have hfM : M - 2 ^ 52 = f := by omega
    rw [heE, hfM]
    have hmag : e * 2 ^ 52 + f = mag := by
      rw [hedef, hfdef]
      rw [Nat.mul_comm]
      exact Nat.div_add_mod mag (2 ^ 52)
    rw [hmag]

/-! ## Structure of valid JSON number tokens -/

theorem digits_takeWhile_append (ds l : List Nat) (hds : ∀ b ∈ ds, isDigitByte b = true)
    (hl : l = [] ∨ isDigitByte (l.headD 0) = false) :
    (ds ++ l).takeWhile isDigitByte = ds ∧ (ds ++ l).dropWhile isDigitByte = l := by
  induction ds with
  | nil =>
    simp only [List.nil_append]
    rcases hl with h | h
    · subst h
      exact ⟨rfl, rfl⟩
    · cases l with
      | nil => exact ⟨rfl, rfl⟩
      | cons c cs =>
        simp only [List.headD_cons] at h
        rw [List.takeWhile_cons, List.dropWhile_cons, if_neg (by simp [h]), if_neg (by simp [h])]
        exact ⟨rfl, rfl⟩
  | cons d t ih =>
    have hd := hds d (List.mem_cons_self _ _)
    obtain ⟨h1, h2⟩ := ih (fun b hb => hds b (List.mem_cons_of_mem _ hb))
    constructor
    · simp only [List.cons_append, List.takeWhile_cons, if_pos hd, h1]
    · simp only [List.cons_append, List.dropWhile_cons, if_pos hd, h2]

theorem mhdnOk_cons (b : Nat) (l : List Nat)
    (h : (b = 46 ∨ b = 45) → l ≠ [] ∧ isDigitByte (l.headD 0) = true)
    (hl : mhdnOk l = true) : mhdnOk (b :: l) = true := by
  cases l with
  | nil =>
    rw [mhdnOk]
    by_cases hb : b = 46 ∨ b = 45
    · exact absurd rfl (h hb).1
    · rw [if_neg hb]
      rfl
  | cons c cs =>
    rw [mhdnOk]
    by_cases hb : b = 46 ∨ b = 45
    · rw [if_pos hb]
      have hd : isDigitByte c = true := by simpa using (h hb).2
      show (isDigitByte c && mhdnOk (c :: cs)) = true
      rw [hd, hl]
      rfl
    · rw [if_neg hb, hl]
      rfl

theorem mhdnOk_digits_prefix (ds l : List Nat) (hds : ∀ b ∈ ds, isDigitByte b = true)
    (hl : mhdnOk l = true) : mhdnOk (ds ++ l) = true := by
  induction ds with
  | nil => simpa
  | cons d t ih =>
    have hd := hds d (List.mem_cons_self _ _)
    have hih := ih (fun b hb => hds b (List.mem_cons_of_mem _ hb))
    exact mhdnOk_cons d (t ++ l)
      (fun hc => by rcases hc with h | h <;> subst h <;> exact absurd hd (by decide)) hih

theorem decodeDoubleMag_nonneg (m : Nat) (q : ℚ) (h : decodeDoubleMag m = some q) :
    0 ≤ q := by
  unfold decodeDoubleMag at h
  by_cases h1 : m < 2 ^ 63
  · rw [if_pos h1] at h
    simp only at h
    by_cases h2 : m / 2 ^ 52 = 2047
    · rw [if_pos h2] at h
      exact Option.noConfusion h
    · rw [if_neg h2] at h
      by_cases h3 : m / 2 ^ 52 = 0
      · rw [if_pos h3] at h
        injection h with hv
        rw [← hv]
        positivity
      · rw [if_neg h3] at h
        injection h with hv
        rw [← hv]
        positivity
  · rw [if_neg h1] at h
    exact Option.noConfusion h

theorem floatFinite_mag (tok : List Nat) (neg : Bool) (num den : Nat)
    (hrf : readFloatLit tok = some (neg, num, den)) (hfin : floatFinite tok = true) :
    ∃ mag, nearestDoubleBits num den = some mag := by
  unfold floatFinite at hfin
  rw [hrf] at hfin
  exact Option.isSome_iff_exists.mp hfin

theorem parseFloat64_eq_of (tok : List Nat) (neg : Bool) (num den mag : Nat)
    (hrf : readFloatLit tok = some (neg, num, den))
    (hmag : nearestDoubleBits num den = some mag) :
    parseFloat64 tok = some ((if neg then 2 ^ 63 else 0) + mag) := by
  have h1 : parseFloat64 tok =
      match nearestDoubleBits num den with
      | none => none
      | some m => some ((if neg then 2 ^ 63 else 0) + m) := by
    rw [parseFloat64, hrf]
  rw [h1, hmag]

theorem decodeDoubleBits_eval (neg : Bool) (mag : Nat) (q : ℚ) (hm : mag < 2 ^ 63)
    (hq : decodeDoubleMag mag = some q) :
    decodeDoubleBits ((if neg then 2 ^ 63 else 0) + mag) =
      some ((if neg then (-1 : ℚ) else 1) * q) := by
  have hmod63 : ((if neg then 2 ^ 63 else 0) + mag) % 2 ^ 63 = mag := by
    cases neg <;> simp <;> omega
  have hsign : (2 ^ 63 ≤ ((if neg then 2 ^ 63 else 0) + mag) % 2 ^ 64) ↔ neg = true := by
    cases neg <;> simp <;> omega
  unfold decodeDoubleBits
  rw [hmod63, hq]
  show some ((if 2 ^ 63 ≤ ((if neg then 2 ^ 63 else 0) + mag) % 2 ^ 64 then (-1 : ℚ) else 1) * q) =
    some ((if neg then (-1 : ℚ) else 1) * q)
  by_cases hneg : neg = true
  · rw [if_pos (hsign.mpr hneg), hneg, if_pos rfl]
  · rw [if_neg (fun hc => hneg (hsign.mp hc))]
    have hneg' : neg = false := by simpa using hneg
    rw [hneg']
    rw [if_neg (by simp)]

/-- Rounding preserves exactly representable values, sign included: if
the token's value is the value of some finite double bit pattern, the
made-up pattern decodes back to exactly that value. -/
theorem float_exactness (num den mag : Nat) (neg : Bool) (hd : 0 < den)
    (hmag : nearestDoubleBits num den = some mag)
    (hrep : ∃ b : Nat, decodeDoubleBits b =
      some ((if neg then (-1 : ℚ) else 1) * ((num : ℚ) / (den : ℚ)))) :
    decodeDoubleBits ((if neg then 2 ^ 63 else 0) + mag) =
      some ((if neg then (-1 : ℚ) else 1) * ((num : ℚ) / (den : ℚ))) := by
  have hdq : (0 : ℚ) < (den : ℚ) := by exact_mod_cast hd
  by_cases h0 : num = 0
  · subst h0
    have hm0 : mag = 0 := by
      have h1 : nearestDoubleBits 0 den = some 0 := by
        unfold nearestDoubleBits
        rw [if_pos rfl]
      rw [h1] at hmag
      injection hmag with h2
      exact h2.symm
    subst hm0
    have hq0 : decodeDoubleMag 0 = some ((0 : ℚ) * (2 : ℚ) ^ (-1074 : Int)) := by
      unfold decodeDoubleMag
      norm_num
    rw [decodeDoubleBits_eval neg 0 _ (by norm_num) hq0]
    congr 1
    push_cast
    ring
  · obtain ⟨b, hb⟩ := hrep
    have hq0pos : (0 : ℚ) < (num : ℚ) / (den : ℚ) := by
      have hnq : (0 : ℚ) < (num : ℚ) := by
        exact_mod_cast Nat.pos_of_ne_zero h0
      positivity
    unfold decodeDoubleBits at hb
    cases hdm : decodeDoubleMag (b % 2 ^ 63) with
    | none =>
      rw [hdm] at hb
      exact Option.noConfusion hb
    | some qm =>
      rw [hdm] at hb
      have hqm_nonneg := decodeDoubleMag_nonneg _ _ hdm
      have hbv : (if 2 ^ 63 ≤ b % 2 ^ 64 then (-1 : ℚ) else 1) * qm =
          (if neg then (-1 : ℚ) else 1) * ((num : ℚ) / (den : ℚ)) := by
        have hb2 : (some ((if 2 ^ 63 ≤ b % 2 ^ 64 then (-1 : ℚ) else 1) * qm) : Option ℚ) =
            some ((if neg then (-1 : ℚ) else 1) * ((num : ℚ) / (den : ℚ))) := hb
        injection hb2
      have hsb : (if 2 ^ 63 ≤ b % 2 ^ 64 then (-1 : ℚ) else 1) = -1 ∨
          (if 2 ^ 63 ≤ b % 2 ^ 64 then (-1 : ℚ) else 1) = 1 := by
        split_ifs <;> simp
      have hsgn : (if neg then (-1 : ℚ) else 1) = -1 ∨ (if neg then (-1 : ℚ) else 1) = 1 := by
        cases neg <;> simp
      have hqm : qm = (num : ℚ) / (den : ℚ) := by
        rcases hsb with h1 | h1 <;> rcases hsgn with h2 | h2 <;> rw [h1, h2] at hbv <;>
          linarith [hbv, hqm_nonneg, hq0pos]
      rw [hqm] at hdm
      have hnb := round_exact num den (b % 2 ^ 63) hd hdm
      rw [hmag] at hnb
      injection hnb with heq
      have hmlt : mag < 2 ^ 63 := by
        rw [heq]
        exact Nat.mod_lt b (by norm_num)
      have hdm' : decodeDoubleMag mag = some ((num : ℚ) / (den : ℚ)) := by
        rw [heq]
        exact hdm
      exact decodeDoubleBits_eval neg mag _ hmlt hdm'

theorem jsonNum_decomp (tok : List Nat) (hj : jsonNumToken tok = true) :
    ∃ sg ip fr ex : List Nat,
      tok = sg ++ ip ++ fr ++ ex ∧
      ((sg = [] ∧ tok.headD 0 ≠ 45 ∧ tok.headD 0 ≠ 43) ∨ (sg = [45] ∧ tok.headD 0 = 45)) ∧
      ip ≠ [] ∧ (∀ b ∈ ip, isDigitByte b = true) ∧ (ip.headD 0 ≠ 48 ∨ ip.length = 1) ∧
      (fr = [] ∨ ∃ fd, fr = 46 :: fd ∧ fd ≠ [] ∧ (∀ b ∈ fd, isDigitByte b = true)) ∧
      (ex = [] ∨ ∃ c sg2 ed, ex = c :: (sg2 ++ ed) ∧ (c = 101 ∨ c = 69) ∧
        ((sg2 = [] ∧ ed.headD 0 ≠ 43 ∧ ed.headD 0 ≠ 45) ∨ sg2 = [43] ∨ sg2 = [45]) ∧
        ed ≠ [] ∧ (∀ b ∈ ed, isDigitByte b = true)) := by
  unfold jsonNumToken at hj
  simp only [Bool.and_eq_true] at hj
  obtain ⟨hj1, hj2⟩ := hj
  set T : List Nat := if tok.headD 0 = 45 then tok.tail else tok with hT
  obtain ⟨hipne, hipall, hipz⟩ := noLeadZeroDigits_parts _ hj1
  have hTsplit : T = T.takeWhile isDigitByte ++ T.dropWhile isDigitByte :=
    (List.takeWhile_append_dropWhile isDigitByte T).symm
  -- decompose the fraction-exponent tail
  have hfe : ∃ fr ex : List Nat,
      T.dropWhile isDigitByte = fr ++ ex ∧
      (fr = [] ∨ ∃ fd, fr = 46 :: fd ∧ fd ≠ [] ∧ (∀ b ∈ fd, isDigitByte b = true)) ∧
      jsonExpPart ex = true := by
    unfold jsonFracExp at hj2
    by_cases h46 : (T.dropWhile isDigitByte).headD 0 = 46
    · rw [if_pos h46] at hj2
      cases hR : T.dropWhile isDigitByte with
      | nil =>
        rw [hR] at h46
        simp at h46
      | cons rh r =>
        rw [hR] at h46
        simp only [List.headD_cons] at h46
        subst h46
        rw [hR] at hj2
        simp only [List.tail_cons, Bool.and_eq_true, Bool.not_eq_true',
          List.isEmpty_eq_false] at hj2
        obtain ⟨hfdne, hexp⟩ := hj2
        refine ⟨46 :: r.takeWhile isDigitByte, r.dropWhile isDigitByte, ?_, ?_, hexp⟩
        · rw [List.cons_append]
          congr 1
          exact (List.takeWhile_append_dropWhile isDigitByte r).symm
        · right
          exact ⟨r.takeWhile isDigitByte, rfl, hfdne,
            fun b hb => List.mem_takeWhile_imp hb⟩
    · rw [if_neg h46] at hj2
      exact ⟨[], T.dropWhile isDigitByte, by simp, Or.inl rfl, hj2⟩
  obtain ⟨fr, ex, hfe1, hfe2, hfe3⟩ := hfe
  -- decompose the exponent part
  have hex : ex = [] ∨ ∃ c sg2 ed, ex = c :: (sg2 ++ ed) ∧ (c = 101 ∨ c = 69) ∧
      ((sg2 = [] ∧ ed.headD 0 ≠ 43 ∧ ed.headD 0 ≠ 45) ∨ sg2 = [43] ∨ sg2 = [45]) ∧
      ed ≠ [] ∧ (∀ b ∈ ed, isDigitByte b = true) := by
    cases hexc : ex with
    | nil => exact Or.inl rfl
    | cons c r2 =>
      right
      rw [hexc] at hfe3
      unfold jsonExpPart at hfe3
      simp only [Bool.and_eq_true, Bool.or_eq_true, decide_eq_true_eq,
        Bool.not_eq_true', List.isEmpty_eq_false] at hfe3
      obtain ⟨hc, hr3ne, hr3all⟩ := hfe3
      by_cases h43 : r2.headD 0 = 43
      · cases r2 with
        | nil => simp at h43
        | cons x xs =>
          simp only [List.headD_cons] at h43
          subst h43
          rw [if_pos (show ((43 : Nat) :: xs).headD 0 = 43 ∨ ((43 : Nat) :: xs).headD 0 = 45
            from Or.inl rfl)] at hr3ne hr3all
          simp only [List.tail_cons] at hr3ne hr3all
          exact ⟨c, [43], xs, by simp, hc, Or.inr (Or.inl rfl), hr3ne,
            List.all_eq_true.mp hr3all⟩
      · by_cases h45 : r2.headD 0 = 45
        · cases r2 with
          | nil => simp at h45
          | cons x xs =>
            simp only [List.headD_cons] at h45
            subst h45
            rw [if_pos (show ((45 : Nat) :: xs).headD 0 = 43 ∨ ((45 : Nat) :: xs).headD 0 = 45
              from Or.inr rfl)] at hr3ne hr3all
            simp only [List.tail_cons] at hr3ne hr3all
            exact ⟨c, [45], xs, by simp, hc, Or.inr (Or.inr rfl), hr3ne,
              List.all_eq_true.mp hr3all⟩
        · rw [if_neg (by push_neg; exact ⟨h43, h45⟩)] at hr3ne hr3all
          exact ⟨c, [], r2, by simp, hc, Or.inl ⟨rfl, h43, h45⟩, hr3ne,
            List.all_eq_true.mp hr3all⟩
  -- assemble with the sign
  by_cases h45 : tok.headD 0 = 45
  · cases tok with
    | nil => simp at h45
    | cons c t =>
      simp only [List.headD_cons] at h45
      subst h45
      have hTt : T = t := by
        rw [hT]
        simp
      refine ⟨[45], T.takeWhile isDigitByte, fr, ex, ?_, ?_, hipne, hipall, hipz, hfe2, hex⟩
      · rw [hTt] at hTsplit hfe1 ⊢
        conv_lhs => rw [hTsplit, hfe1]
        simp [List.append_assoc]
      · right
        exact ⟨rfl, rfl⟩
  · have hTt : T = tok := by
      rw [hT, if_neg h45]
    have h43 : tok.headD 0 ≠ 43 := by
      intro hc
      cases tok with
      | nil =>
        rw [hTt] at hipne
        simp [List.takeWhile] at hipne
      | cons c t =>
        simp only [List.headD_cons] at hc
        subst hc
        rw [hTt] at hipne
        rw [List.takeWhile_cons, if_neg (by decide)] at hipne
        exact hipne rfl
    rw [hTt] at hipne hipall hipz hTsplit hfe1
    refine ⟨[], tok.takeWhile isDigitByte, fr, ex, ?_, Or.inl ⟨rfl, h45, h43⟩,
      hipne, hipall, hipz, hfe2, hex⟩
    conv_lhs => rw [hTsplit, hfe1]
    simp [List.append_assoc]

theorem headD_append_left (xs ys : List Nat) (h : xs ≠ []) :
    (xs ++ ys).headD 0 = xs.headD 0 := by
  cases xs with
  | nil => exact absurd rfl h
  | cons a t => rfl

theorem headD_digit (l : List Nat) (h : l ≠ []) (ha : ∀ b ∈ l, isDigitByte b = true) :
    isDigitByte (l.headD 0) = true := by
  cases l with
  | nil => exact absurd rfl h
  | cons a t => exact ha a (List.mem_cons_self _ _)

theorem digit_ne (b : Nat) (h : isDigitByte b = true) :
    b ≠ 43 ∧ b ≠ 45 ∧ b ≠ 46 ∧ b ≠ 101 ∧ b ≠ 69 := by
  simp only [isDigitByte, Bool.and_eq_true, decide_eq_true_eq] at h
  omega

theorem jsonNum_scan (sg ip fr ex : List Nat)
    (hsg : sg = [] ∨ sg = [45])
    (hipne : ip ≠ []) (hipall : ∀ b ∈ ip, isDigitByte b = true)
    (hipz : ip.headD 0 ≠ 48 ∨ ip.length = 1)
    (hfr : fr = [] ∨ ∃ fd, fr = 46 :: fd ∧ fd ≠ [] ∧ (∀ b ∈ fd, isDigitByte b = true))
    (hex : ex = [] ∨ ∃ c sg2 ed, ex = c :: (sg2 ++ ed) ∧ (c = 101 ∨ c = 69) ∧
      (sg2 = [] ∨ sg2 = [43] ∨ sg2 = [45]) ∧ ed ≠ [] ∧ (∀ b ∈ ed, isDigitByte b = true)) :
    (∀ b ∈ sg ++ ip ++ fr ++ ex, partNumByte b = true) ∧
      mhdnOk (sg ++ ip ++ fr ++ ex) = true ∧
      floatLeadZero (sg ++ ip ++ fr ++ ex) = false := by
  refine ⟨?_, ?_, ?_⟩
  · intro b hb
    simp only [List.append_assoc, List.mem_append] at hb
    rcases hb with hb | hb | hb | hb
    · rcases hsg with h | h <;> subst h
      · simp at hb
      · simp only [List.mem_singleton] at hb
        subst hb
        decide
    · exact partNumByte_digit b (hipall b hb)
    · rcases hfr with h | ⟨fd, hfd, hfdne, hfdall⟩
      · subst h
        simp at hb
      · subst hfd
        rcases List.mem_cons.mp hb with hb | hb
        · subst hb
          decide
        · exact partNumByte_digit b (hfdall b hb)
    · rcases hex with h | ⟨c, sg2, ed, hed, hc, hsg2, hedne, hedall⟩
      · subst h
        simp at hb
      · subst hed
        rcases List.mem_cons.mp hb with hb | hb
        · subst hb
          rcases hc with h | h <;> subst h <;> decide
        · rcases List.mem_append.mp hb with hb | hb
          · rcases hsg2 with h | h | h <;> subst h <;> simp at hb <;> subst hb <;> decide
          · exact partNumByte_digit b (hedall b hb)
  · simp only [List.append_assoc]
    have hex_m : mhdnOk ex = true := by
      rcases hex with h | ⟨c, sg2, ed, hed, hc, hsg2, hedne, hedall⟩
      · subst h
        rfl
      · subst hed
        have hed_m : mhdnOk ed = true := mhdnOk_digits ed hedall
        have hsged : mhdnOk (sg2 ++ ed) = true := by
          rcases hsg2 with h | h | h <;> subst h
          · simpa using hed_m
          · exact mhdnOk_cons 43 ed (fun hc2 => absurd hc2 (by decide)) hed_m
          · exact mhdnOk_cons 45 ed
              (fun _ => ⟨hedne, headD_digit ed hedne hedall⟩) hed_m
        exact mhdnOk_cons c (sg2 ++ ed) (fun hc2 => by
          rcases hc with h | h <;> subst h <;> exact absurd hc2 (by decide)) hsged
    have hfrex_m : mhdnOk (fr ++ ex) = true := by
      rcases hfr with h | ⟨fd, hfd, hfdne, hfdall⟩
      · subst h
        simpa using hex_m
      · subst hfd
        have hfdm : mhdnOk (fd ++ ex) = true := mhdnOk_digits_prefix fd ex hfdall hex_m
        exact mhdnOk_cons 46 (fd ++ ex)
          (fun _ => ⟨fun hc => by rw [List.append_eq_nil] at hc; exact hfdne hc.1, by
            rw [headD_append_left fd ex hfdne]
            exact headD_digit fd hfdne hfdall⟩) hfdm
    have hip_m : mhdnOk (ip ++ (fr ++ ex)) = true :=
      mhdnOk_digits_prefix ip _ hipall hfrex_m
    rcases hsg with h | h <;> subst h
    · simpa using hip_m
    · exact mhdnOk_cons 45 (ip ++ (fr ++ ex))
        (fun _ => ⟨fun hc => by rw [List.append_eq_nil] at hc; exact hipne hc.1, by
          rw [headD_append_left ip _ hipne]
          exact headD_digit ip hipne hipall⟩) hip_m
  · simp only [List.append_assoc]
    rcases hsg with h | h <;> subst h
    · simp only [List.nil_append]
      by_cases h48 : ip.headD 0 = 48
      swap
      · unfold floatLeadZero
        have hh : ¬((ip ++ (fr ++ ex)).headD 0 = 48) := fun hc =>
          h48 (by rw [← headD_append_left ip (fr ++ ex) hipne]; exact hc)
        rw [decide_eq_false hh]
        simp
      · have hip1 : ip.length = 1 := by
          rcases hipz with h | h
          · exact absurd h48 h
          · exact h
        cases ip with
        | nil => exact absurd rfl hipne
        | cons d t =>
          cases t with
          | nil =>
            simp only [List.headD_cons] at h48
            subst h48
            rcases hfr with hf | ⟨fd, hfd, hfdne, hfdall⟩
            · subst hf
              rcases hex with he | ⟨c, sg2, ed, hed, hc, hsg2, hedne, hedall⟩
              · subst he
                decide
              · subst hed
                show floatLeadZero (48 :: ([] ++ (c :: (sg2 ++ ed)))) = false
                unfold floatLeadZero
                have hgd : ((48 : Nat) :: ([] ++ (c :: (sg2 ++ ed)))).getD 1 0 = c := rfl
                rw [hgd]
                rcases hc with h | h <;> subst h <;> simp
            · subst hfd
              show floatLeadZero (48 :: ((46 :: fd) ++ ex)) = false
              unfold floatLeadZero
              have hgd : ((48 : Nat) :: ((46 :: fd) ++ ex)).getD 1 0 = 46 := rfl
              rw [hgd]
              simp
          | cons x xs =>
            simp only [List.length_cons] at hip1
            omega
    · show floatLeadZero (45 :: (ip ++ (fr ++ ex))) = false
      unfold floatLeadZero
      rw [decide_eq_false (show ((45 : Nat) :: (ip ++ (fr ++ ex))).headD 0 ≠ 48
        from fun hc => by simp at hc)]
      simp


/-! ## Evaluating the float reader on decomposed JSON tokens -/

def rflBody (neg : Bool) (s1 : List Nat) : Option (Bool × Nat × Nat) :=
  let ip := s1.takeWhile isDigitByte
  let s2 := s1.dropWhile isDigitByte
  let fp := if s2.headD 0 = 46 then s2.tail.takeWhile isDigitByte else []
  let s3 := if s2.headD 0 = 46 then s2.tail.dropWhile isDigitByte else s2
  if ip.length + fp.length = 0 then none
  else
    let m := digitsVal (ip ++ fp)
    match s3 with
    | [] => some (neg, scale10 m (0 - (fp.length : Int)))
    | c :: s4 =>
      if c = 101 ∨ c = 69 then
        let esign : Int := if s4.headD 0 = 45 then -1 else 1
        let s5 := if s4.headD 0 = 43 ∨ s4.headD 0 = 45 then s4.tail else s4
        if s5 ≠ [] ∧ s5.all isDigitByte then
          some (neg, scale10 m (esign * (digitsVal s5 : Int) - (fp.length : Int)))
        else none
      else none

def jsonValBody (t1 : List Nat) : ℚ :=
  let ip := t1.takeWhile isDigitByte
  let r1 := t1.dropWhile isDigitByte
  let fp := if r1.headD 0 = 46 then r1.tail.takeWhile isDigitByte else []
  let r2 := if r1.headD 0 = 46 then r1.tail.dropWhile isDigitByte else r1
  let ex : Int :=
    match r2 with
    | [] => 0
    | _ :: r3 =>
      (if r3.headD 0 = 45 then -1 else 1) *
        (digitsVal (if r3.headD 0 = 43 ∨ r3.headD 0 = 45 then r3.tail else r3) : Int)
  (digitsVal (ip ++ fp) : ℚ) * (10 : ℚ) ^ (ex - (fp.length : Int))

theorem readFloatLit_split (s : List Nat) :
    readFloatLit s = rflBody (decide (s.headD 0 = 45))
      (if s.headD 0 = 43 ∨ s.headD 0 = 45 then s.tail else s) := rfl

theorem jsonNumValQ_split (s : List Nat) :
    jsonNumValQ s = (if s.headD 0 = 45 then (-1 : ℚ) else 1) *
      jsonValBody (if s.headD 0 = 45 then s.tail else s) := by
  unfold jsonNumValQ jsonValBody
  rw [mul_assoc]

theorem body_eval (neg : Bool) (ip fr ex : List Nat)
    (hipne : ip ≠ []) (hipall : ∀ b ∈ ip, isDigitByte b = true)
    (hfr : fr = [] ∨ ∃ fd, fr = 46 :: fd ∧ fd ≠ [] ∧ (∀ b ∈ fd, isDigitByte b = true))
    (hex : ex = [] ∨ ∃ c sg2 ed, ex = c :: (sg2 ++ ed) ∧ (c = 101 ∨ c = 69) ∧
      (sg2 = [] ∨ sg2 = [43] ∨ sg2 = [45]) ∧ ed ≠ [] ∧ (∀ b ∈ ed, isDigitByte b = true)) :
    ∃ (M : Nat) (E : Int),
      rflBody neg (ip ++ fr ++ ex) = some (neg, scale10 M E) ∧
      jsonValBody (ip ++ fr ++ ex) = (M : ℚ) * (10 : ℚ) ^ E := by
  have hg : ∀ L2 : List Nat, ¬(ip.length + L2.length = 0) := by
    intro L2 hc
    have h1 : ip.length = 0 := by omega
    exact hipne (List.length_eq_zero.mp h1)
  have hedhd : ∀ (ed : List Nat), ed ≠ [] → (∀ b ∈ ed, isDigitByte b = true) →
      isDigitByte (ed.headD 0) = true := by
    intro ed hne hall
    cases ed with
    | nil => exact absurd rfl hne
    | cons a t => exact hall a (List.mem_cons_self _ _)
  rcases hfr with hfre | ⟨fd, hfd, hfdne, hfdall⟩
  · -- no fraction part
    subst hfre
    rcases hex with hexe | ⟨c, sg2, ed, hed, hc, hsg2, hedne, hedall⟩
    · -- bare integer digits
      subst hexe
      obtain ⟨htw0, hdw0⟩ := digits_takeWhile_append ip [] hipall (Or.inl rfl)
      have htw : (ip ++ ([] : List Nat) ++ ([] : List Nat)).takeWhile isDigitByte = ip := by
        rw [List.append_assoc]
        simpa using htw0
      have hdw : (ip ++ ([] : List Nat) ++ ([] : List Nat)).dropWhile isDigitByte = [] := by
        rw [List.append_assoc]
        simpa using hdw0
      refine ⟨digitsVal (ip ++ []), 0 - (List.length ([] : List Nat) : Int), ?_, ?_⟩
      · simp only [rflBody]
        rw [htw, hdw]
        rw [if_neg (show ¬((([] : List Nat)).headD 0 = 46) by simp),
          if_neg (show ¬((([] : List Nat)).headD 0 = 46) by simp)]
        rw [if_neg (hg [])]
      · simp only [jsonValBody]
        rw [htw, hdw]
        rw [if_neg (show ¬((([] : List Nat)).headD 0 = 46) by simp),
          if_neg (show ¬((([] : List Nat)).headD 0 = 46) by simp)]
    · -- exponent, no fraction
      subst hed
      have hrest : isDigitByte ((([] : List Nat) ++ (c :: (sg2 ++ ed))).headD 0) = false := by
        simp only [List.nil_append, List.headD_cons]
        rcases hc with h | h <;> subst h <;> decide
      obtain ⟨htw0, hdw0⟩ :=
        digits_takeWhile_append ip ([] ++ (c :: (sg2 ++ ed))) hipall (Or.inr hrest)
      have htw : (ip ++ ([] : List Nat) ++ (c :: (sg2 ++ ed))).takeWhile isDigitByte = ip := by
        rw [List.append_assoc]
        exact htw0
      have hdw : (ip ++ ([] : List Nat) ++ (c :: (sg2 ++ ed))).dropWhile isDigitByte =
          c :: (sg2 ++ ed) := by
        rw [List.append_assoc]
        simpa using hdw0
      have hcne46 : ¬(((c :: (sg2 ++ ed)) : List Nat).headD 0 = 46) := by
        simp only [List.headD_cons]
        rcases hc with h | h <;> subst h <;> decide
      rcases hsg2 with hs | hs | hs <;> subst hs
      · -- no exponent sign
        have hh : isDigitByte (ed.headD 0) = true := hedhd ed hedne hedall
        obtain ⟨hd43, hd45, _, _, _⟩ :
            ed.headD 0 ≠ 43 ∧ ed.headD 0 ≠ 45 ∧ ed.headD 0 ≠ 46 ∧
              ed.headD 0 ≠ 101 ∧ ed.headD 0 ≠ 69 := by
          simp only [isDigitByte, Bool.and_eq_true, decide_eq_true_eq] at hh
          omega
        refine ⟨digitsVal (ip ++ []),
          1 * (digitsVal ed : Int) - (List.length ([] : List Nat) : Int), ?_, ?_⟩
        · simp only [rflBody]
          rw [htw, hdw]
          rw [if_neg hcne46, if_neg hcne46]
          rw [if_neg (hg [])]
          split
          · next heq => exact absurd heq (by simp)
          · next c2 s4 heq =>
            injection heq with h1 h2
            subst h1
            subst h2
            simp only [List.nil_append]
            rw [if_pos hc]
            rw [if_neg hd45]
            rw [if_neg (show ¬(ed.headD 0 = 43 ∨ ed.headD 0 = 45) by push_neg; exact ⟨hd43, hd45⟩)]
            rw [if_pos (show (ed ≠ [] ∧ ed.all isDigitByte = true) from
              ⟨hedne, List.all_eq_true.mpr hedall⟩)]
        · simp only [jsonValBody]
          rw [htw, hdw]
          rw [if_neg hcne46, if_neg hcne46]
          split
          · next heq => exact absurd heq (by simp)
          · next c2 s4 heq =>
            injection heq with h1 h2
            subst h2
            simp only [List.nil_append]
            rw [if_neg hd45]
            rw [if_neg (show ¬(ed.headD 0 = 43 ∨ ed.headD 0 = 45) by push_neg; exact ⟨hd43, hd45⟩)]
      · -- plus exponent sign
        refine ⟨digitsVal (ip ++ []),
          1 * (digitsVal ((43 :: ed : List Nat)).tail : Int) -
            (List.length ([] : List Nat) : Int), ?_, ?_⟩
        · simp only [rflBody]
          rw [htw, hdw]
          rw [if_neg hcne46, if_neg hcne46]
          rw [if_neg (hg [])]
          split
          · next heq => exact absurd heq (by simp)
          · next c2 s4 heq =>
            injection heq with h1 h2
            subst h1
            subst h2
            simp only [List.singleton_append]
            rw [if_pos hc]
            rw [if_neg (show ¬(((43 : Nat) :: ed).headD 0 = 45) from fun hcc => by simp at hcc)]
            rw [if_pos (show ((43 : Nat) :: ed).headD 0 = 43 ∨ ((43 : Nat) :: ed).headD 0 = 45
              from Or.inl rfl)]
            rw [if_pos (show (((43 : Nat) :: ed).tail ≠ [] ∧
                ((43 : Nat) :: ed).tail.all isDigitByte = true) from
              ⟨by simpa using hedne, by simpa using List.all_eq_true.mpr hedall⟩)]
        · simp only [jsonValBody]
          rw [htw, hdw]
          rw [if_neg hcne46, if_neg hcne46]
          split
          · next heq => exact absurd heq (by simp)
          · next c2 s4 heq =>
            injection heq with h1 h2
            subst h2
            simp only [List.singleton_append]
            rw [if_neg (show ¬(((43 : Nat) :: ed).headD 0 = 45) from fun hcc => by simp at hcc)]
            rw [if_pos (show ((43 : Nat) :: ed).headD 0 = 43 ∨ ((43 : Nat) :: ed).headD 0 = 45
              from Or.inl rfl)]
      · -- minus exponent sign
        refine ⟨digitsVal (ip ++ []),
          (-1) * (digitsVal ((45 :: ed : List Nat)).tail : Int) -
            (List.length ([] : List Nat) : Int), ?_, ?_⟩
        · simp only [rflBody]
          rw [htw, hdw]
          rw [if_neg hcne46, if_neg hcne46]
          rw [if_neg (hg [])]
          split
          · next heq => exact absurd heq (by simp)
          · next c2 s4 heq =>
            injection heq with h1 h2
            subst h1
            subst h2
            simp only [List.singleton_append]
            rw [if_pos hc]
            rw [if_pos (show ((45 : Nat) :: ed).headD 0 = 45 from rfl)]
            rw [if_pos (show ((45 : Nat) :: ed).headD 0 = 43 ∨ ((45 : Nat) :: ed).headD 0 = 45
              from Or.inr rfl)]
            rw [if_pos (show (((45 : Nat) :: ed).tail ≠ [] ∧
                ((45 : Nat) :: ed).tail.all isDigitByte = true) from
              ⟨by simpa using hedne, by simpa using List.all_eq_true.mpr hedall⟩)]
        · simp only [jsonValBody]
          rw [htw, hdw]
          rw [if_neg hcne46, if_neg hcne46]
          split
          · next heq => exact absurd heq (by simp)
          · next c2 s4 heq =>
            injection heq with h1 h2
            subst h2
            simp only [List.singleton_append]
            rw [if_pos (show ((45 : Nat) :: ed).headD 0 = 45 from rfl)]
            rw [if_pos (show ((45 : Nat) :: ed).headD 0 = 43 ∨ ((45 : Nat) :: ed).headD 0 = 45
              from Or.inr rfl)]
  · -- fraction part present
    subst hfd
    have hrest : isDigitByte ((((46 :: fd) : List Nat) ++ ex).headD 0) = false :=
      (by decide : isDigitByte 46 = false)
    obtain ⟨htw0, hdw0⟩ := digits_takeWhile_append ip ((46 :: fd) ++ ex) hipall (Or.inr hrest)
    have htw : (ip ++ ((46 :: fd) : List Nat) ++ ex).takeWhile isDigitByte = ip := by
      rw [List.append_assoc]
      exact htw0
    have hdw : (ip ++ ((46 :: fd) : List Nat) ++ ex).dropWhile isDigitByte =
        46 :: (fd ++ ex) := by
      rw [List.append_assoc]
      rw [hdw0]
      rfl
    have hexr : ex = [] ∨ isDigitByte (ex.headD 0) = false := by
      rcases hex with h | ⟨c, sg2, ed, hed, hc, _, _, _⟩
      · exact Or.inl h
      · subst hed
        right
        simp only [List.headD_cons]
        rcases hc with h | h <;> subst h <;> decide
    obtain ⟨hftw, hfdw⟩ := digits_takeWhile_append fd ex hfdall hexr
    have h46 : (((46 : Nat) :: (fd ++ ex))).headD 0 = 46 := rfl
    have htl : (((46 : Nat) :: (fd ++ ex))).tail = fd ++ ex := rfl
    rcases hex with hexe | ⟨c, sg2, ed, hed, hc, hsg2, hedne, hedall⟩
    · -- fraction, no exponent
      subst hexe
      refine ⟨digitsVal (ip ++ fd), 0 - (List.length fd : Int), ?_, ?_⟩
      · simp only [rflBody]
        rw [htw, hdw]
        rw [if_pos h46, if_pos h46, htl, hftw, hfdw]
        rw [if_neg (hg fd)]
      · simp only [jsonValBody]
        rw [htw, hdw]
        rw [if_pos h46, if_pos h46, htl, hftw, hfdw]
    · -- fraction and exponent
      subst hed
      rcases hsg2 with hs | hs | hs <;> subst hs
      · have hh : isDigitByte (ed.headD 0) = true := hedhd ed hedne hedall
        obtain ⟨hd43, hd45⟩ : ed.headD 0 ≠ 43 ∧ ed.headD 0 ≠ 45 := by
          simp only [isDigitByte, Bool.and_eq_true, decide_eq_true_eq] at hh
          omega
        refine ⟨digitsVal (ip ++ fd),
          1 * (digitsVal ed : Int) - (List.length fd : Int), ?_, ?_⟩
        · simp only [rflBody]
          rw [htw, hdw]
          rw [if_pos h46, if_pos h46, htl, hftw, hfdw]
          rw [if_neg (hg fd)]
          split
          · next heq => exact absurd heq (by simp)
          · next c2 s4 heq =>
            injection heq with h1 h2
            subst h1
            subst h2
            simp only [List.nil_append]
            rw [if_pos hc]
            rw [if_neg hd45]
            rw [if_neg (show ¬(ed.headD 0 = 43 ∨ ed.headD 0 = 45) by push_neg; exact ⟨hd43, hd45⟩)]
            rw [if_pos (show (ed ≠ [] ∧ ed.all isDigitByte = true) from
              ⟨hedne, List.all_eq_true.mpr hedall⟩)]
        · simp only [jsonValBody]
          rw [htw, hdw]
          rw [if_pos h46, if_pos h46, htl, hftw, hfdw]
          split
          · next heq => exact absurd heq (by simp)
          · next c2 s4 heq =>
            injection heq with h1 h2
            subst h2
            simp only [List.nil_append]
            rw [if_neg hd45]
            rw [if_neg (show ¬(ed.headD 0 = 43 ∨ ed.headD 0 = 45) by push_neg; exact ⟨hd43, hd45⟩)]
      · refine ⟨digitsVal (ip ++ fd),
          1 * (digitsVal ((43 :: ed : List Nat)).tail : Int) - (List.length fd : Int), ?_, ?_⟩
        · simp only [rflBody]
          rw [htw, hdw]
          rw [if_pos h46, if_pos h46, htl, hftw, hfdw]
          rw [if_neg (hg fd)]
          split
          · next heq => exact absurd heq (by simp)
          · next c2 s4 heq =>
            injection heq with h1 h2
            subst h1
            subst h2
            simp only [List.singleton_append]
            rw [if_pos hc]
            rw [if_neg (show ¬(((43 : Nat) :: ed).headD 0 = 45) from fun hcc => by simp at hcc)]
            rw [if_pos (show ((43 : Nat) :: ed).headD 0 = 43 ∨ ((43 : Nat) :: ed).headD 0 = 45
              from Or.inl rfl)]
            rw [if_pos (show (((43 : Nat) :: ed).tail ≠ [] ∧
                ((43 : Nat) :: ed).tail.all isDigitByte = true) from
              ⟨by simpa using hedne, by simpa using List.all_eq_true.mpr hedall⟩)]
        · simp only [jsonValBody]
          rw [htw, hdw]
          rw [if_pos h46, if_pos h46, htl, hftw, hfdw]
          split
          · next heq => exact absurd heq (by simp)
          · next c2 s4 heq =>
            injection heq with h1 h2
            subst h2
            simp only [List.singleton_append]
            rw [if_neg (show ¬(((43 : Nat) :: ed).headD 0 = 45) from fun hcc => by simp at hcc)]
            rw [if_pos (show ((43 : Nat) :: ed).headD 0 = 43 ∨ ((43 : Nat) :: ed).headD 0 = 45
              from Or.inl rfl)]
      · refine ⟨digitsVal (ip ++ fd),
          (-1) * (digitsVal ((45 :: ed : List Nat)).tail : Int) - (List.length fd : Int), ?_, ?_⟩
        · simp only [rflBody]
          rw [htw, hdw]
          rw [if_pos h46, if_pos h46, htl, hftw, hfdw]
          rw [if_neg (hg fd)]
          split
          · next heq => exact absurd heq (by simp)
          · next c2 s4 heq =>
            injection heq with h1 h2
            subst h1
            subst h2
            simp only [List.singleton_append]
            rw [if_pos hc]
            rw [if_pos (show ((45 : Nat) :: ed).headD 0 = 45 from rfl)]
            rw [if_pos (show ((45 : Nat) :: ed).headD 0 = 43 ∨ ((45 : Nat) :: ed).headD 0 = 45
              from Or.inr rfl)]
            rw [if_pos (show (((45 : Nat) :: ed).tail ≠ [] ∧
                ((45 : Nat) :: ed).tail.all isDigitByte = true) from
              ⟨by simpa using hedne, by simpa using List.all_eq_true.mpr hedall⟩)]
        · simp only [jsonValBody]
          rw [htw, hdw]
          rw [if_pos h46, if_pos h46, htl, hftw, hfdw]
          split
          · next heq => exact absurd heq (by simp)
          · next c2 s4 heq =>
            injection heq with h1 h2
            subst h2
            simp only [List.singleton_append]
            rw [if_pos (show ((45 : Nat) :: ed).headD 0 = 45 from rfl)]
            rw [if_pos (show ((45 : Nat) :: ed).headD 0 = 43 ∨ ((45 : Nat) :: ed).headD 0 = 45
              from Or.inr rfl)]

theorem jsonNum_value (sg ip fr ex : List Nat)
    (hsg : sg = [] ∨ sg = [45])
    (hipne : ip ≠ []) (hipall : ∀ b ∈ ip, isDigitByte b = true)
    (hfr : fr = [] ∨ ∃ fd, fr = 46 :: fd ∧ fd ≠ [] ∧ (∀ b ∈ fd, isDigitByte b = true))
    (hex : ex = [] ∨ ∃ c sg2 ed, ex = c :: (sg2 ++ ed) ∧ (c = 101 ∨ c = 69) ∧
      (sg2 = [] ∨ sg2 = [43] ∨ sg2 = [45]) ∧ ed ≠ [] ∧ (∀ b ∈ ed, isDigitByte b = true)) :
    ∃ num den : Nat,
      readFloatLit (sg ++ ip ++ fr ++ ex) =
        some (decide ((sg ++ ip ++ fr ++ ex).headD 0 = 45), num, den) ∧ 0 < den ∧
      (if (sg ++ ip ++ fr ++ ex).headD 0 = 45 then (-1 : ℚ) else 1) *
        ((num : ℚ) / (den : ℚ)) = jsonNumValQ (sg ++ ip ++ fr ++ ex) := by
  rcases hsg with h | h <;> subst h
  · simp only [List.nil_append]
    have hiphd : isDigitByte (ip.headD 0) = true := headD_digit ip hipne hipall
    obtain ⟨h43, h45, _, _, _⟩ := digit_ne _ hiphd
    have hhd : (ip ++ fr ++ ex).headD 0 = ip.headD 0 := by
      rw [List.append_assoc]
      exact headD_append_left ip _ hipne
    have hc4345 : ¬((ip ++ fr ++ ex).headD 0 = 43 ∨ (ip ++ fr ++ ex).headD 0 = 45) := by
      rw [hhd]
      push_neg
      exact ⟨h43, h45⟩
    have hc45 : ¬((ip ++ fr ++ ex).headD 0 = 45) := by
      rw [hhd]
      exact h45
    obtain ⟨M, E, hrb, hvb⟩ :=
      body_eval (decide ((ip ++ fr ++ ex).headD 0 = 45)) ip fr ex hipne hipall hfr hex
    refine ⟨(scale10 M E).1, (scale10 M E).2, ?_, (scale10_val M E).1, ?_⟩
    · rw [readFloatLit_split, if_neg hc4345]
      exact hrb
    · rw [jsonNumValQ_split, if_neg hc45, if_neg hc45]
      rw [hvb]
      congr 1
      exact (scale10_val M E).2
  · have hhd : (([45] : List Nat) ++ ip ++ fr ++ ex).headD 0 = 45 := rfl
    have htl : (([45] : List Nat) ++ ip ++ fr ++ ex).tail = ip ++ fr ++ ex := rfl
    obtain ⟨M, E, hrb, hvb⟩ :=
      body_eval (decide ((([45] : List Nat) ++ ip ++ fr ++ ex).headD 0 = 45))
        ip fr ex hipne hipall hfr hex
    refine ⟨(scale10 M E).1, (scale10 M E).2, ?_, (scale10_val M E).1, ?_⟩
    · rw [readFloatLit_split, if_pos (Or.inr hhd), htl]
      exact hrb
    · rw [jsonNumValQ_split, if_pos hhd, if_pos hhd, htl]
      rw [hvb]
      congr 1
      exact (scale10_val M E).2

theorem if_decide {α : Type} (P : Prop) [Decidable P] (a b : α) :
    (if decide P then a else b) = if P then a else b := by
  by_cases h : P
  · rw [if_pos (decide_eq_true h), if_pos h]
  · rw [if_neg (by simpa using h), if_neg h]

theorem jsonNum_main (tok : List Nat) (hj : jsonNumToken tok = true) :
    (∀ b ∈ tok, partNumByte b = true) ∧ mhdnOk tok = true ∧ tok ≠ [] ∧
      floatLeadZero tok = false ∧
      (hasFloatByte tok = false → jsonIntToken tok = true) ∧
      ∃ num den : Nat,
        readFloatLit tok = some (decide (tok.headD 0 = 45), num, den) ∧ 0 < den ∧
        (if tok.headD 0 = 45 then (-1 : ℚ) else 1) * ((num : ℚ) / (den : ℚ)) =
          jsonNumValQ tok := by
  obtain ⟨sg, ip, fr, ex, htok, hsg, hipne, hipall, hipz, hfr, hex⟩ := jsonNum_decomp tok hj
  have hsg' : sg = [] ∨ sg = [45] := by
    rcases hsg with ⟨h, _⟩ | ⟨h, _⟩
    exacts [Or.inl h, Or.inr h]
  have hex' : ex = [] ∨ ∃ c sg2 ed, ex = c :: (sg2 ++ ed) ∧ (c = 101 ∨ c = 69) ∧
      (sg2 = [] ∨ sg2 = [43] ∨ sg2 = [45]) ∧ ed ≠ [] ∧ (∀ b ∈ ed, isDigitByte b = true) := by
    rcases hex with h | ⟨c, sg2, ed, h1, h2, h3, h4, h5⟩
    · exact Or.inl h
    · refine Or.inr ⟨c, sg2, ed, h1, h2, ?_, h4, h5⟩
      rcases h3 with ⟨h, _⟩ | h | h
      exacts [Or.inl h, Or.inr (Or.inl h), Or.inr (Or.inr h)]
  obtain ⟨hpart, hmh, hflz⟩ := jsonNum_scan sg ip fr ex hsg' hipne hipall hipz hfr hex'
  obtain ⟨num, den, hrf, hden, hval⟩ := jsonNum_value sg ip fr ex hsg' hipne hipall hfr hex'
  have hnlz : noLeadZeroDigits ip = true := by
    unfold noLeadZeroDigits
    simp only [Bool.and_eq_true, Bool.not_eq_true', List.isEmpty_eq_false, List.all_eq_true,
      Bool.or_eq_true, decide_eq_true_eq]
    exact ⟨⟨hipne, hipall⟩, hipz⟩
  subst htok
  refine ⟨hpart, hmh, ?_, hflz, ?_, num, den, hrf, hden, hval⟩
  · intro hc
    simp only [List.append_eq_nil] at hc
    exact hipne hc.1.1.2
  · intro hnf
    have hfre : fr = [] := by
      rcases hfr with h | ⟨fd, hfd, _, _⟩
      · exact h
      · exfalso
        subst hfd
        have h46 : hasFloatByte (sg ++ ip ++ (46 :: fd) ++ ex) = true :=
          List.any_eq_true.mpr ⟨46, by simp, by decide⟩
        rw [h46] at hnf
        exact Bool.noConfusion hnf
    subst hfre
    have hexe : ex = [] := by
      rcases hex' with h | ⟨c, sg2, ed, hed, hc, _, _, _⟩
      · exact h
      · exfalso
        subst hed
        have hcf : hasFloatByte (sg ++ ip ++ [] ++ (c :: (sg2 ++ ed))) = true :=
          List.any_eq_true.mpr ⟨c, by simp, by
            rcases hc with h | h <;> subst h <;> decide⟩
        rw [hcf] at hnf
        exact Bool.noConfusion hnf
    subst hexe
    rcases hsg' with h | h <;> subst h
    · simp only [List.nil_append, List.append_nil]
      unfold jsonIntToken
      have hiphd : isDigitByte (ip.headD 0) = true := headD_digit ip hipne hipall
      obtain ⟨_, h45, _, _, _⟩ := digit_ne _ hiphd
      rw [if_neg h45]
      exact hnlz
    · simp only [List.append_nil]
      unfold jsonIntToken
      rw [if_pos (show (([45] : List Nat) ++ ip).headD 0 = 45 from rfl)]
      exact hnlz

/-- C2 counterexample: `1e400` is a valid JSON number per the standard
grammar, yet `parseNumber` returns the sentinel: the value's nearest
double overflows to infinity and `ParseFloat` reports a range error. -/
theorem c2_cx :
    jsonNumToken [49, 101, 52, 48, 48] = true ∧
      parseNumber [49, 101, 52, 48, 48] = (0, 0) := by decide

/-- C2 (amended): for every buffer whose leading bytes form a valid JSON
number (followed by a delimiter or the buffer end), provided the
number's nearest double is finite, `parseNumber` never returns the
sentinel, and the result decodes exactly: an Integer result holds the
two's complement of a signed value equal to the number, a Uint result
holds the number itself, and a Float result (plain or
overflow-annotated) holds bits that decode to exactly the number's
value whenever that value is exactly representable as a finite double. -/
theorem c2_amended (tok rest : List Nat) (hj : jsonNumToken tok = true)
    (hr : rest = [] ∨ eovByte (rest.headD 0) = true)
    (hfin : floatFinite tok = true) :
    parseNumber (tok ++ rest) ≠ (0, 0) ∧
      ((∃ i : Int, parseNumber (tok ++ rest) = (TagInteger <<< JSONTAGOFFSET, uint64OfInt i) ∧
          (i : ℚ) = jsonNumValQ tok) ∨
        (∃ u : Nat, parseNumber (tok ++ rest) = (TagUint <<< JSONTAGOFFSET, u) ∧
          (u : ℚ) = jsonNumValQ tok) ∨
        (∃ ft bits : Nat,
          (ft = TagFloat <<< JSONTAGOFFSET ∨
            ft = TagFloat <<< JSONTAGOFFSET ||| FloatOverflowedInteger) ∧
          parseNumber (tok ++ rest) = (ft, bits) ∧
          ((∃ b : Nat, decodeDoubleBits b = some (jsonNumValQ tok)) →
            decodeDoubleBits bits = some (jsonNumValQ tok)))) := by
  obtain ⟨hpart, hmh, hne, hflz, hint_of, num, den, hrf, hden, hval⟩ := jsonNum_main tok hj
  have hs : scanOk (tok ++ rest) = true := scanOk_append tok rest hpart hr hmh
  have hr' : rest = [] ∨ partNumByte (rest.headD 0) = false := by
    rcases hr with h | h
    exacts [Or.inl h, Or.inr (eov_not_part _ h)]
  have hnum : numToken (tok ++ rest) = tok := numToken_append tok rest hpart hr'
  have hnn : numToken (tok ++ rest) ≠ [] := by rw [hnum]; exact hne
  obtain ⟨mag, hmag⟩ := floatFinite_mag tok _ num den hrf hfin
  have hpf : parseFloat64 tok = some ((if decide (tok.headD 0 = 45) then 2 ^ 63 else 0) + mag) :=
    parseFloat64_eq_of tok _ num den mag hrf hmag
  have hexact : (∃ b : Nat, decodeDoubleBits b = some (jsonNumValQ tok)) →
      decodeDoubleBits ((if decide (tok.headD 0 = 45) then 2 ^ 63 else 0) + mag) =
        some (jsonNumValQ tok) := by
    intro hrep
    have hv2 : (if decide (tok.headD 0 = 45) then (-1 : ℚ) else 1) * ((num : ℚ) / (den : ℚ)) =
        jsonNumValQ tok := by
      rw [if_decide]
      exact hval
    rw [← hv2] at hrep ⊢
    exact float_exactness num den mag _ hden hmag hrep
  by_cases hfb : hasFloatByte tok = true
  · have hres := resolve_floatByte (tok ++ rest) hs hnn (by rw [hnum]; exact hfb)
    rw [hnum, floatResult, if_neg (by simp [hflz]), hpf] at hres
    exact ⟨by rw [hres]; exact pair_ne_sentinel (by decide),
      Or.inr (Or.inr ⟨TagFloat <<< JSONTAGOFFSET, _, Or.inl rfl, hres, hexact⟩)⟩
  · have hfb' : hasFloatByte tok = false := by simpa using hfb
    have hjt := hint_of hfb'
    obtain ⟨_, _, _, hint, hz, _⟩ := jsonInt_setup tok rest hjt hr
    obtain ⟨hnlz, h43, hcase⟩ := jsonIntToken_parts tok hjt
    obtain ⟨hdne, hdall', hdz⟩ := noLeadZeroDigits_parts _ hnlz
    have hri := readFloatLit_intSyntax tok hint
    rw [hrf] at hri
    injection hri with hri2
    have hnum_eq : num = digitsVal (intTokDigits tok) := congrArg (fun t => t.2.1) hri2
    have hden_eq : den = 1 := congrArg (fun t => t.2.2) hri2
    have hnegeq : decide (tok.headD 0 = 45) = intTokNeg tok := congrArg (fun t => t.1) hri2
    rw [hnum_eq, hden_eq] at hval hmag
    rw [hnegeq] at hexact hpf
    set dv := digitsVal (intTokDigits tok) with hdv
    have hzz : intLeadZero (numToken (tok ++ rest)) = false := by rw [hnum]; exact hz
    have hffn : hasFloatByte (numToken (tok ++ rest)) = false := by rw [hnum]; exact hfb'
    have hvi : ((intTokVal tok : Int) : ℚ) = jsonNumValQ tok := by
      rw [← hval]
      unfold intTokVal
      by_cases hp : tok.headD 0 = 45
      · have hb : intTokNeg tok = true := decide_eq_true hp
        rw [if_pos hb, if_pos hp]
        push_cast
        ring
      · have hb : intTokNeg tok = false := decide_eq_false hp
        rw [if_neg (fun hc => by rw [hb] at hc; exact Bool.noConfusion hc), if_neg hp]
        push_cast
        ring
    by_cases hlen : (numToken (tok ++ rest)).length ≤ maxIntLen
    · by_cases hneg : intTokNeg tok = true
      · by_cases hsmall : dv ≤ 2 ^ 63
        · have hok : parseInt64 (numToken (tok ++ rest)) = .ok (intTokVal tok) := by
            rw [hnum, parseInt64_char tok hint, if_pos hneg, if_pos hsmall]
          have hres := resolve_int_ok (tok ++ rest) hs hnn hffn hlen hzz _ hok
          exact ⟨by rw [hres]; exact pair_ne_sentinel (by decide),
            Or.inl ⟨intTokVal tok, hres, hvi⟩⟩
        · push_neg at hsmall
          obtain ⟨mag2, hmag2, hres⟩ := intSyntax_fallback (tok ++ rest) hs hnn
            (by rw [hnum]; exact hint) hlen hzz (by rw [hnum]; exact Or.inl ⟨hneg, hsmall⟩)
          rw [hnum] at hmag2 hres
          rw [← hdv, hmag] at hmag2
          injection hmag2 with hm2
          subst hm2
          exact ⟨by rw [hres]; exact pair_ne_sentinel (by decide),
            Or.inr (Or.inr ⟨_, _, Or.inr rfl, hres, hexact⟩)⟩
      · have hnegf : intTokNeg tok = false := by simpa using hneg
        have htok_eq : intTokDigits tok = tok := by
          rcases hcase with ⟨ht, _⟩ | ⟨_, he⟩
          · rw [ht] at hnegf
            exact Bool.noConfusion hnegf
          · exact he
        by_cases hsmall : dv ≤ 2 ^ 63 - 1
        · have hok : parseInt64 (numToken (tok ++ rest)) = .ok (intTokVal tok) := by
            rw [hnum, parseInt64_char tok hint,
              if_neg (fun hc => by rw [hnegf] at hc; exact Bool.noConfusion hc), if_pos hsmall]
          have hres := resolve_int_ok (tok ++ rest) hs hnn hffn hlen hzz _ hok
          exact ⟨by rw [hres]; exact pair_ne_sentinel (by decide),
            Or.inl ⟨intTokVal tok, hres, hvi⟩⟩
        · push_neg at hsmall
          have hrange : parseInt64 (numToken (tok ++ rest)) = .rangeErr := by
            rw [hnum, parseInt64_char tok hint,
              if_neg (fun hc => by rw [hnegf] at hc; exact Bool.noConfusion hc),
              if_neg (by omega)]
          by_cases hu64 : dv ≤ 2 ^ 64 - 1
          · have hmb : hasMinusByte (numToken (tok ++ rest)) = false := by
              rw [hnum, intSyntax_minusByte tok hint]
              exact hnegf
            have hdveq : dv = digitsVal tok := by rw [hdv, htok_eq]
            have hall : tok.all isDigitByte = true := by
              rw [← htok_eq]
              exact List.all_eq_true.mpr hdall'
            have hu : parseUint64 (numToken (tok ++ rest)) = .ok dv := by
              rw [hnum, hdveq]
              exact parseUint64_ok tok hne hall (by rw [← hdveq]; omega)
            have hres := resolve_uint_ok (tok ++ rest) hs hnn hffn hlen hzz hrange hmb _ hu
            have hvu : ((dv : Nat) : ℚ) = jsonNumValQ tok := by
              rw [← hval, if_neg (of_decide_eq_false hnegf)]
              norm_num
            exact ⟨by rw [hres]; exact pair_ne_sentinel (by decide),
              Or.inr (Or.inl ⟨dv, hres, hvu⟩)⟩
          · push_neg at hu64
            obtain ⟨mag2, hmag2, hres⟩ := intSyntax_fallback (tok ++ rest) hs hnn
              (by rw [hnum]; exact hint) hlen hzz
              (by rw [hnum]; exact Or.inr (Or.inr ⟨hnegf, h43, hu64⟩))
            rw [hnum] at hmag2 hres
            rw [← hdv, hmag] at hmag2
            injection hmag2 with hm2
            subst hm2
            exact ⟨by rw [hres]; exact pair_ne_sentinel (by decide),
              Or.inr (Or.inr ⟨_, _, Or.inr rfl, hres, hexact⟩)⟩
    · push_neg at hlen
      have hres := resolve_long (tok ++ rest) hs hnn hffn hlen
      rw [hnum, floatResult, if_neg (by simp [hflz]), hpf] at hres
      exact ⟨by rw [hres]; exact pair_ne_sentinel (by decide),
        Or.inr (Or.inr ⟨_, _, Or.inr rfl, hres, hexact⟩)⟩

/-- C2 witness: the literal `0.5`, whose value rounds exactly. -/
theorem c2_witness :
    parseNumber ([48, 46, 53] ++ ([] : List Nat)) ≠ (0, 0) ∧
      ((∃ i : Int, parseNumber ([48, 46, 53] ++ ([] : List Nat)) =
            (TagInteger <<< JSONTAGOFFSET, uint64OfInt i) ∧
          (i : ℚ) = jsonNumValQ [48, 46, 53]) ∨
        (∃ u : Nat, parseNumber ([48, 46, 53] ++ ([] : List Nat)) =
            (TagUint <<< JSONTAGOFFSET, u) ∧
          (u : ℚ) = jsonNumValQ [48, 46, 53]) ∨
        (∃ ft bits : Nat,
          (ft = TagFloat <<< JSONTAGOFFSET ∨
            ft = TagFloat <<< JSONTAGOFFSET ||| FloatOverflowedInteger) ∧
          parseNumber ([48, 46, 53] ++ ([] : List Nat)) = (ft, bits) ∧
          ((∃ b : Nat, decodeDoubleBits b = some (jsonNumValQ [48, 46, 53])) →
            decodeDoubleBits bits = some (jsonNumValQ [48, 46, 53])))) :=
  c2_amended [48, 46, 53] [] (by decide) (Or.inl rfl) (by decide)
